import Mathlib

/-!
Go-FilePrivate-Linter: a shallow embedding of `validation.go` and `main.go`

The linter reports uses of a package-level variable annotated `fileprivate`
from a file other than the one that declares it.

Modelling conventions.

* A Go `string` is a Lean `String`, read as its sequence of runes.  The only
  byte-level operations the program performs on text are a lower-casing and a
  search for an ASCII-only substring, which agree rune-wise and byte-wise on
  valid UTF-8 (the Go parser only accepts valid UTF-8 sources).
* The Go standard library (`go/parser`, `os`, `unicode`) is the environment of
  the program.  The file system and the parser are a `World`; the case tables
  of `unicode` above `MaxASCII` are a `Unicode` parameter.
* A syntax tree is the value the parser returns.  The program distinguishes
  five dynamic node types (`*ast.Ident`, `*ast.SelectorExpr`, `*ast.CallExpr`,
  `*ast.AssignStmt`, `*ast.GenDecl`); every other node type is `Node.other`
  with its children in `ast.Walk` order.
* A Go `map` that is only written and looked up is a function to `Option`;
  a map that is iterated is an association list together with a `MapOrder`,
  the order in which `range` happens to enumerate it.
* `os.Exit` / `log.Fatal` end the process: functions that can reach them
  return `Except ExitCode _`.
* The global `foundViolation` is threaded through `checkFile` explicitly.
-/

namespace FilePrivate

/-! ## Strings and runes -/

/-- Case tables of Go's `unicode` package for runes above `unicode.MaxASCII`.
The tables belong to the Go standard library; they are a parameter. -/
structure Unicode where
  /-- The value of `unicode.To(unicode.LowerCase, r)` for `r > MaxASCII`. -/
  toLower : Char → Char
  /-- The value of `unicode.IsUpper(r)` for `r > MaxASCII`. -/
  isUpper : Char → Bool

/-- A table without any case pair above `MaxASCII`; on ASCII text every table
behaves like this one. -/
def Unicode.ascii : Unicode := ⟨fun r => r, fun _ => false⟩

/-- Go `unicode.ToLower`: the ASCII branch is the library's code, the rest is
the table. -/
def unicode.ToLower (U : Unicode) (r : Char) : Char :=
  if r.toNat ≤ 0x7F then
    if 'A'.toNat ≤ r.toNat ∧ r.toNat ≤ 'Z'.toNat then Char.ofNat (r.toNat + ('a'.toNat - 'A'.toNat))
    else r
  else U.toLower r

/-- Go `unicode.IsUpper`, ASCII branch explicit. -/
def unicode.IsUpper (U : Unicode) (r : Char) : Bool :=
  if r.toNat ≤ 0x7F then decide ('A'.toNat ≤ r.toNat ∧ r.toNat ≤ 'Z'.toNat)
  else U.isUpper r

/-- Go `strings.ToLower`: every rune mapped by `unicode.ToLower`. -/
def strings.ToLower (U : Unicode) (s : String) : String :=
  ⟨s.data.map (unicode.ToLower U)⟩

/-- Substring search on rune lists: does `sub` occur in `s` at some offset. -/
def strings.containsRunes : List Char → List Char → Bool
  | [], sub => sub.isEmpty
  | c :: cs, sub => sub.isPrefixOf (c :: cs) || strings.containsRunes cs sub

/-- Go `strings.Contains`. -/
def strings.Contains (s substr : String) : Bool :=
  strings.containsRunes s.data substr.data

/-- Go `strings.HasSuffix`. -/
def strings.HasSuffix (s suffix : String) : Bool :=
  suffix.data.isSuffixOf s.data

/-- Go `slices.Contains` on strings. -/
def slices.Contains (s : List String) (v : String) : Bool :=
  s.any (fun e => e == v)

/-! ## Syntax trees (`go/ast`) -/

/-- An `*ast.Comment`. -/
structure Comment where
  Text : String
deriving DecidableEq, Repr

/-- An `*ast.CommentGroup`; a nil group is `none : Option CommentGroup`. -/
structure CommentGroup where
  List : List Comment
deriving DecidableEq, Repr

/-- The `Tok` of an `*ast.GenDecl` that holds value specs. -/
inductive Token where
  | CONST | VAR
deriving DecidableEq, Repr

/-- The `Kind` of an `*ast.Object`. -/
inductive ObjKind where
  | Bad | Pkg | Con | Typ | Var | Fun | Lbl
deriving DecidableEq, Repr

/-- A `token.Position`. -/
structure Position where
  Filename : String
  Offset : Nat
  Line : Nat
  Column : Nat
deriving DecidableEq, Repr

/-- An `*ast.Ident`.  `Pos` is the value of `fileSet.Position(x.Pos())`, the
position the file set of the parse resolves the identifier to; `Obj` is
`none` for a nil `x.Obj` and otherwise the `Kind` of the object. -/
structure Ident where
  Pos : Position
  Name : String
  Obj : Option ObjKind
deriving DecidableEq, Repr

mutual
/-- An `ast.Node` other than the file itself.  `genDecl` is an `*ast.GenDecl`
whose `Tok` is `token.CONST` or `token.VAR`; its specs are `*ast.ValueSpec`,
as `go/ast` documents.  `other` is any node the program does not tell apart
(among them a `GenDecl` with `Tok` `IMPORT` or `TYPE`, whose specs are
children like any others), with its children in `ast.Walk` order. -/
inductive Node where
  | ident (x : Ident)
  | selectorExpr (X : Node) (Sel : Ident)
  | callExpr (Fun : Node) (Args : List Node)
  | assignStmt (Lhs : List Node) (Rhs : List Node)
  | genDecl (Doc : Option CommentGroup) (Tok : Token) (Specs : List ValueSpec)
  | other (children : List Node)
/-- An `*ast.ValueSpec`. -/
inductive ValueSpec where
  | mk (Doc : Option CommentGroup) (Names : List Ident) (Typ : Option Node)
      (Values : List Node) (Comment : Option CommentGroup)
end

/-- Field `Doc` of a value spec. -/
def ValueSpec.Doc : ValueSpec → Option CommentGroup
  | .mk doc _ _ _ _ => doc

/-- Field `Names` of a value spec. -/
def ValueSpec.Names : ValueSpec → List Ident
  | .mk _ names _ _ _ => names

/-- Field `Comment` of a value spec. -/
def ValueSpec.Comment : ValueSpec → Option CommentGroup
  | .mk _ _ _ _ comment => comment

/-- An `*ast.File`. -/
structure File where
  Doc : Option CommentGroup
  Name : Ident
  Decls : List Node

mutual
/-- The nodes `ast.Inspect` hands to a callback that always returns true, in
order (depth first, a node before its children).  Comment groups are left
out: `getUsages` parses without `parser.ParseComments`, so the trees it walks
have none.  A value spec is itself visited, but neither callback of the
program has a case for it, so only its children are listed. -/
def Node.walk : Node → List Node
  | .ident x => [.ident x]
  | .selectorExpr X Sel => .selectorExpr X Sel :: (X.walk ++ [.ident Sel])
  | .callExpr Fun Args => .callExpr Fun Args :: (Fun.walk ++ walkList Args)
  | .assignStmt Lhs Rhs => .assignStmt Lhs Rhs :: (walkList Lhs ++ walkList Rhs)
  | .genDecl Doc Tok Specs => .genDecl Doc Tok Specs :: walkSpecs Specs
  | .other children => .other children :: walkList children
/-- The `walkList` of `go/ast`. -/
def walkList : List Node → List Node
  | [] => []
  | n :: ns => n.walk ++ walkList ns
/-- The children of a value spec: `Names`, `Type`, `Values`. -/
def ValueSpec.walk : ValueSpec → List Node
  | .mk _ Names Typ Values _ => Names.map Node.ident ++ (walkOpt Typ ++ walkList Values)
/-- An optional child. -/
def walkOpt : Option Node → List Node
  | none => []
  | some n => n.walk
/-- The specs of a declaration, in order. -/
def walkSpecs : List ValueSpec → List Node
  | [] => []
  | s :: ss => s.walk ++ walkSpecs ss
end

/-- The nodes `ast.Inspect(file, f)` visits below the file node: the package
name, then the declarations.  The `*ast.File` node itself matches no case of
either callback. -/
def File.walk (f : File) : List Node :=
  Node.ident f.Name :: walkList f.Decls

/-- Go `ast.IsExported`: the first rune of the name is upper case.  On the
empty name `utf8.DecodeRuneInString` yields `utf8.RuneError`. -/
def ast.IsExported (U : Unicode) (name : String) : Bool :=
  match name.data with
  | [] => unicode.IsUpper U (Char.ofNat 0xFFFD)
  | ch :: _ => unicode.IsUpper U ch

/-! ## Paths (`path/filepath`, Unix) -/

/-- The components of a path between its separators. -/
def filepath.split : List Char → List (List Char)
  | [] => [[]]
  | c :: cs =>
    if c = '/' then [] :: filepath.split cs
    else
      match filepath.split cs with
      | [] => [[c]]
      | h :: t => (c :: h) :: t

/-- One component processed by `filepath.Clean`; `out` is the output so far,
last component first. -/
def filepath.cleanStep (rooted : Bool) (out : List (List Char)) (comp : List Char) :
    List (List Char) :=
  if comp = [] ∨ comp = ['.'] then out
  else if comp = ['.', '.'] then
    match out with
    | top :: rest => if top = ['.', '.'] then comp :: out else rest
    | [] => if rooted then [] else [comp]
  else comp :: out

/-- Go `filepath.Clean`: empty and `.` components dropped, `..` cancelling the
component before it, `..` at the root dropped, the empty result being `.`. -/
def filepath.Clean (path : String) : String :=
  if path = "" then "."
  else
    let rooted := path.data.head? = some '/'
    let comps := ((filepath.split path.data).foldl (filepath.cleanStep rooted) []).reverse
    let body : String := ⟨List.intercalate ['/'] comps⟩
    if rooted then "/" ++ body
    else if body = "" then "." else body

/-- Go `filepath.Dir`: the path up to and including its last separator,
cleaned. -/
def filepath.Dir (path : String) : String :=
  filepath.Clean ⟨(path.data.reverse.dropWhile (fun c => c != '/')).reverse⟩

/-- Go `filepath.Join` of two elements. -/
def filepath.Join (a b : String) : String :=
  if a ≠ "" then filepath.Clean (a ++ "/" ++ b)
  else if b ≠ "" then filepath.Clean b
  else ""

/-! ## The environment -/

/-- A Go `error`. -/
abbrev GoError := String

/-- The status a process ends with (`os.Exit`, `log.Fatal`). -/
abbrev ExitCode := Nat

/-- An `fs.DirEntry`. -/
structure DirEntry where
  Name : String
  IsDir : Bool
deriving DecidableEq, Repr

/-- What the program reads from its environment: `os.Args`, `os.ReadDir` and
`parser.ParseFile` (the tree with its comments; without
`parser.ParseComments` the same tree is returned without them, which the
walks above already disregard).  Nothing is assumed about how paths that
spell the same file relate. -/
structure World where
  Args : List String
  ReadDir : String → Except GoError (List DirEntry)
  ParseFile : String → Except GoError File

/-- An `*ast.Package`: `Files` is its `map[string]*ast.File`. -/
structure Package where
  Name : String
  Files : List (String × File)

/-- Lookup in a map kept as an association list. -/
def GoMap.lookup {α : Type} (m : List (String × α)) (k : String) : Option α :=
  match m with
  | [] => none
  | (k1, v) :: rest => if k1 = k then some v else GoMap.lookup rest k

/-- Assignment `m[k] = v` in a map kept as an association list. -/
def GoMap.insert {α : Type} (m : List (String × α)) (k : String) (v : α) : List (String × α) :=
  match m with
  | [] => [(k, v)]
  | (k1, v1) :: rest => if k1 = k then (k, v) :: rest else (k1, v1) :: GoMap.insert rest k v

/-- The order in which `range` enumerates the maps `getUsages` iterates: any
permutation of the entries. -/
structure MapOrder where
  pkgs : List (String × Package) → List (String × Package)
  files : List (String × File) → List (String × File)
  pkgs_perm : ∀ m, (pkgs m).Perm m
  files_perm : ∀ m, (files m).Perm m

/-- Enumeration in the order the entries were stored. -/
def MapOrder.stored : MapOrder := ⟨fun m => m, fun m => m, fun _ => .refl _, fun _ => .refl _⟩

/-- Enumeration in the opposite order. -/
def MapOrder.reversed : MapOrder :=
  ⟨List.reverse, List.reverse, List.reverse_perm, List.reverse_perm⟩

/-- The loop of Go `parser.ParseDir` over the directory entries. -/
def parser.ParseDir.loop (w : World) (path : String) :
    List DirEntry → List (String × Package) → Option GoError →
      List (String × Package) × Option GoError
  | [], pkgs, first => (pkgs, first)
  | d :: rest, pkgs, first =>
    if d.IsDir || !strings.HasSuffix d.Name ".go" then
      parser.ParseDir.loop w path rest pkgs first
    else
      let filename := filepath.Join path d.Name
      match w.ParseFile filename with
      | .ok src =>
        let name := src.Name.Name
        let pkg : Package :=
          match GoMap.lookup pkgs name with
          | some p => p
          | none => ⟨name, []⟩
        let pkg : Package := ⟨pkg.Name, GoMap.insert pkg.Files filename src⟩
        parser.ParseDir.loop w path rest (GoMap.insert pkgs name pkg) first
      | .error err =>
        parser.ParseDir.loop w path rest pkgs (if first = none then some err else first)

/-- Go `parser.ParseDir(fset, path, nil, mode)`: the packages found and the
first error met. -/
def parser.ParseDir (w : World) (path : String) : List (String × Package) × Option GoError :=
  match w.ReadDir path with
  | .error err => ([], some err)
  | .ok list => parser.ParseDir.loop w path list [] none

/-! ## `hasFilePrivateComment` -/

/-- The `for _, comment := range cg.List` loop of `hasFilePrivateComment`. -/
def hasFilePrivateComment.loop (U : Unicode) : List Comment → Bool
  | [] => false
  | comment :: rest =>
    if strings.Contains (strings.ToLower U comment.Text) "fileprivate" then true
    else hasFilePrivateComment.loop U rest

/-- `hasFilePrivateComment` of `validation.go`. -/
def hasFilePrivateComment (U : Unicode) (cg : Option CommentGroup) : Bool :=
  match cg with
  | none => false
  | some g => hasFilePrivateComment.loop U g.List

/-! ## `getFilePrivateVariablesFromFile` -/

/-- The loop `for _, name := range valSpec.Names`. -/
def getFilePrivateVariablesFromFile.names : List Ident → List String → List String
  | [], vars => vars
  | name :: rest, vars => getFilePrivateVariablesFromFile.names rest (vars ++ [name.Name])

/-- The loop `for _, spec := range gen.Specs`. -/
def getFilePrivateVariablesFromFile.specs (U : Unicode) (blockHasFilePrivate : Bool) :
    List ValueSpec → List String → List String
  | [], vars => vars
  | valSpec :: rest, vars =>
    let specHasFilePrivate :=
      hasFilePrivateComment U valSpec.Doc || hasFilePrivateComment U valSpec.Comment
    if blockHasFilePrivate || specHasFilePrivate then
      getFilePrivateVariablesFromFile.specs U blockHasFilePrivate rest
        (getFilePrivateVariablesFromFile.names valSpec.Names vars)
    else getFilePrivateVariablesFromFile.specs U blockHasFilePrivate rest vars

/-- The loop `for _, decl := range node.Decls`. -/
def getFilePrivateVariablesFromFile.decls (U : Unicode) : List Node → List String → List String
  | [], vars => vars
  | decl :: rest, vars =>
    match decl with
    | .genDecl Doc Tok Specs =>
      if Tok ≠ .VAR then getFilePrivateVariablesFromFile.decls U rest vars
      else
        let blockHasFilePrivate := hasFilePrivateComment U Doc
        getFilePrivateVariablesFromFile.decls U rest
          (getFilePrivateVariablesFromFile.specs U blockHasFilePrivate Specs vars)
    | _ => getFilePrivateVariablesFromFile.decls U rest vars

/-- `getFilePrivateVariablesFromFile` of `validation.go`; the result is the
pair `(vars, err)` the Go function returns. -/
def getFilePrivateVariablesFromFile (U : Unicode) (w : World) (file : String) :
    List String × Option GoError :=
  match w.ParseFile file with
  | .error err => ([], some err)
  | .ok node => (getFilePrivateVariablesFromFile.decls U node.Decls [], none)

/-! ## `getUsages` -/

/-- A `variableUsage` record. -/
structure variableUsage where
  Name : String
  Position : Position
  UsageType : String
  DeclFile : String
  UsageFile : String
deriving DecidableEq, Repr

/-- Assignment `m[k] = v` in a map that is only written and looked up. -/
def GoMap.set {α : Type} (m : String → Option α) (k : String) (v : α) : String → Option α :=
  fun k1 => if k1 = k then some v else m k1

/-- The two maps step 1 of `getUsages` fills: `pkgVars` and `localVars`. -/
structure Catalog where
  pkgVars : String → Option String
  localVars : String → Option Bool

/-- The maps as `make` returns them. -/
def Catalog.empty : Catalog := ⟨fun _ => none, fun _ => none⟩

/-- The loop `for _, name := range valueSpec.Names` of step 1. -/
def getUsages.collectNames (filename : String) :
    List Ident → (String → Option String) → (String → Option String)
  | [], pkgVars => pkgVars
  | name :: rest, pkgVars =>
    if name.Name ≠ "_" then getUsages.collectNames filename rest (GoMap.set pkgVars name.Name filename)
    else getUsages.collectNames filename rest pkgVars

/-- The loop `for _, spec := range decl.Specs` of step 1. -/
def getUsages.collectSpecs (filename : String) :
    List ValueSpec → (String → Option String) → (String → Option String)
  | [], pkgVars => pkgVars
  | valueSpec :: rest, pkgVars =>
    getUsages.collectSpecs filename rest (getUsages.collectNames filename valueSpec.Names pkgVars)

/-- The loop `for _, expr := range assign.Lhs` of step 1. -/
def getUsages.collectLhs : List Node → (String → Option Bool) → (String → Option Bool)
  | [], localVars => localVars
  | expr :: rest, localVars =>
    match expr with
    | .ident ident => getUsages.collectLhs rest (GoMap.set localVars ident.Name true)
    | _ => getUsages.collectLhs rest localVars

/-- The callback of the first `ast.Inspect` of `getUsages`, on node `n` of the
file `filename`. -/
def getUsages.collect (filename : String) (c : Catalog) (n : Node) : Catalog :=
  let c1 : Catalog :=
    match n with
    | .genDecl _ Tok Specs =>
      if Tok = .VAR then ⟨getUsages.collectSpecs filename Specs c.pkgVars, c.localVars⟩ else c
    | _ => c
  match n with
  | .assignStmt Lhs _ => ⟨c1.pkgVars, getUsages.collectLhs Lhs c1.localVars⟩
  | _ => c1

/-- The loop `for filename, file := range pkg.Files`, over the files in the
order the map yields them. -/
def getUsages.collectFiles : List (String × File) → Catalog → Catalog
  | [], c => c
  | (filename, file) :: rest, c =>
    getUsages.collectFiles rest (file.walk.foldl (getUsages.collect filename) c)

/-- The loop `for _, pkg := range packageList`, over the packages in the order
the map yields them. -/
def getUsages.collectPkgs (ord : MapOrder) : List (String × Package) → Catalog → Catalog
  | [], c => c
  | (_, pkg) :: rest, c =>
    getUsages.collectPkgs ord rest (getUsages.collectFiles (ord.files pkg.Files) c)

/-- Step 1 of `getUsages`: both maps after the whole package list is
inspected. -/
def getUsages.catalog (ord : MapOrder) (packageList : List (String × Package)) : Catalog :=
  getUsages.collectPkgs ord (ord.pkgs packageList) Catalog.empty

/-- The comparison `parent.X == x` / `parent.Fun == x` of an expression with
an identifier. -/
def Node.isIdent (e : Node) (x : Ident) : Bool :=
  match e with
  | .ident y => decide (y = x)
  | _ => false

/-- The inner `switch parent := n.(type)` of the identifier case: it inspects
the node `n` being visited. -/
def getUsages.usageType (n : Node) (x : Ident) : String :=
  match n with
  | .selectorExpr X _ => if X.isIdent x then "method receiver" else "direct"
  | .callExpr Fun _ => if Fun.isIdent x then "function call" else "direct"
  | _ => "direct"

/-- The loop `for _, arg := range x.Args` of the call case. -/
def getUsages.args (U : Unicode) (c : Catalog) (filePath : String) :
    List Node → List variableUsage
  | [] => []
  | arg :: rest =>
    match arg with
    | .ident ident =>
      if ident.Name ≠ "_" then
        let isPkgVar := (c.pkgVars ident.Name).isSome
        let isLocalVar := (c.localVars ident.Name).isSome
        let isPotentialVar := !ast.IsExported U ident.Name && ident.Obj.isNone
        if isPkgVar || isLocalVar || isPotentialVar then
          let declFile := if isPkgVar then (c.pkgVars ident.Name).getD "" else ""
          ⟨ident.Name, ident.Pos, "function argument", declFile, filePath⟩ ::
            getUsages.args U c filePath rest
        else getUsages.args U c filePath rest
      else getUsages.args U c filePath rest
    | _ => getUsages.args U c filePath rest

/-- The callback of the second `ast.Inspect` of `getUsages`: the usages it
appends on node `n`. -/
def getUsages.visit (U : Unicode) (c : Catalog) (filePath : String) (n : Node) :
    List variableUsage :=
  match n with
  | .ident x =>
    if x.Name = "_" ∨ x.Obj = some ObjKind.Pkg then []
    else
      let isPkgVar := (c.pkgVars x.Name).isSome
      let isLocalVar := (c.localVars x.Name).isSome
      let isPotentialVar := !ast.IsExported U x.Name && x.Obj.isNone
      if isPkgVar || isLocalVar || isPotentialVar then
        let usageType := getUsages.usageType n x
        let declFile := if isPkgVar then (c.pkgVars x.Name).getD "" else ""
        [⟨x.Name, x.Pos, usageType, declFile, filePath⟩]
      else []
  | .callExpr _ Args => getUsages.args U c filePath Args
  | .selectorExpr X _ =>
    match X with
    | .ident ident =>
      if ident.Name ≠ "_" then
        let isPkgVar := (c.pkgVars ident.Name).isSome
        let isLocalVar := (c.localVars ident.Name).isSome
        let isPotentialVar := !ast.IsExported U ident.Name && ident.Obj.isNone
        if isPkgVar || isLocalVar || isPotentialVar then
          let declFile := if isPkgVar then (c.pkgVars ident.Name).getD "" else ""
          [⟨ident.Name, ident.Pos, "method receiver", declFile, filePath⟩]
        else []
      else []
    | _ => []
  | _ => []

/-- The usages the second `ast.Inspect` appends over the visited nodes. -/
def getUsages.scan (U : Unicode) (c : Catalog) (filePath : String) :
    List Node → List variableUsage
  | [] => []
  | n :: rest => getUsages.visit U c filePath n ++ getUsages.scan U c filePath rest

/-- `getUsages` of `validation.go`.  `ord` is the order in which the two
`range` loops over maps enumerate them. -/
def getUsages (U : Unicode) (w : World) (ord : MapOrder) (filePath : String) :
    Except ExitCode (List variableUsage) :=
  if w.Args.length < 2 then .error 1
  else
    let pkgDir := filepath.Dir filePath
    match parser.ParseDir w pkgDir with
    | (_, some _) => .error 1
    | (packageList, none) =>
      let c := getUsages.catalog ord packageList
      match w.ParseFile filePath with
      | .error _ => .error 1
      | .ok file => .ok (getUsages.scan U c filePath file.walk)

/-! ## `checkFile` and the loop of `main` -/

/-- The loop `for _, usage := range usages` of `checkFile`, with the global
`foundViolation` as a component of the state. -/
def checkFile.loop (U : Unicode) (w : World) :
    List variableUsage → List variableUsage → Bool → List variableUsage × Bool
  | [], filteredUsages, foundViolation => (filteredUsages, foundViolation)
  | usage :: rest, filteredUsages, foundViolation =>
    if usage.DeclFile = "" then checkFile.loop U w rest filteredUsages foundViolation
    else
      match getFilePrivateVariablesFromFile U w usage.DeclFile with
      | (_, some _) => checkFile.loop U w rest filteredUsages foundViolation
      | (privateVars, none) =>
        if slices.Contains privateVars usage.Name && usage.DeclFile != usage.UsageFile then
          checkFile.loop U w rest (filteredUsages ++ [usage]) true
        else checkFile.loop U w rest filteredUsages foundViolation

/-- `checkFile` of `validation.go`: the violations returned and the value of
`foundViolation` afterwards, given its value before. -/
def checkFile (U : Unicode) (w : World) (ord : MapOrder) (filePath : String)
    (foundViolation : Bool) : Except ExitCode (List variableUsage × Bool) :=
  match getUsages U w ord filePath with
  | .error code => .error code
  | .ok usages => .ok (checkFile.loop U w usages [] foundViolation)

/-- The loop of `main` over the files the package loader reports, each call
with the map order it happens to meet: the violation lists handed to
`printViolations`, and `foundViolation` at the end. -/
def main.loop (U : Unicode) (w : World) :
    List (MapOrder × String) → Bool → Except ExitCode (List (List variableUsage) × Bool)
  | [], foundViolation => .ok ([], foundViolation)
  | (ord, filePath) :: rest, foundViolation =>
    match checkFile U w ord filePath foundViolation with
    | .error code => .error code
    | .ok (fileViolations, found1) =>
      match main.loop U w rest found1 with
      | .error code => .error code
      | .ok (printed, found2) => .ok (fileViolations :: printed, found2)

/-! ## Sample packages

Small packages, written as the parser returns them, on which the functions
above are evaluated. -/

/-- An identifier of a sample file, given by its line and column; the byte
offset is not tracked by the samples and is left 0. -/
def Sample.id (file : String) (line col : Nat) (name : String) (obj : Option ObjKind) : Ident :=
  ⟨⟨file, 0, line, col⟩, name, obj⟩

/-- The comment group of a single `// fileprivate` comment. -/
def Sample.marker : Option CommentGroup := some ⟨[⟨"// fileprivate"⟩]⟩

/-- The tree of a declaration `var name = <literal>`, doc comment `doc`
above it and comment `comment` at the end of its line. -/
def Sample.varDecl (doc : Option CommentGroup) (name : Ident) (comment : Option CommentGroup) :
    Node :=
  .genDecl doc .VAR [.mk none [name] none [.other []] comment]

/-- The tree of `func name() { body }`. -/
def Sample.funcDecl (name : Ident) (body : List Node) : Node :=
  .other [.ident name, .other [.other []], .other body]

/-- The tree of the statement `log.Println(arg)`. -/
def Sample.logCall (file : String) (line : Nat) (arg : Node) : Node :=
  .other [.callExpr
    (.selectorExpr (.ident (Sample.id file line 2 "log" none))
      (Sample.id file line 6 "Println" none)) [arg]]

/-- A world holding one directory `dir` with the given `.go` files (name,
tree as a function of the path it is parsed under, which its positions
repeat); a path denotes the file or directory its cleaned spelling names. -/
def Sample.world (dir : String) (files : List (String × (String → File))) : World where
  Args := ["FilePrivateLinter", dir]
  ReadDir := fun p =>
    if filepath.Clean p = dir then .ok (files.map (fun f => ⟨f.1, false⟩))
    else .error "no such directory"
  ParseFile := fun p =>
    match GoMap.lookup (files.map (fun f => (filepath.Join dir f.1, f.2))) (filepath.Clean p) with
    | some f => .ok (f p)
    | none => .error "no such file"

/-- Unit `f1.go`: `var a = "x" // fileprivate` and `var c = "y"`. -/
def Sample.f1 (path : String) : File where
  Doc := none
  Name := Sample.id path 1 9 "p" none
  Decls := [
    Sample.varDecl none (Sample.id path 3 5 "a" (some .Var)) Sample.marker,
    Sample.varDecl none (Sample.id path 4 5 "c" (some .Var)) none]

/-- Unit `f2.go`: `import "log"` and
`func h() { log.Println(a); log.Println(c) }`. -/
def Sample.f2 (path : String) : File where
  Doc := none
  Name := Sample.id path 1 9 "p" none
  Decls := [
    .other [.other [.other []]],
    Sample.funcDecl (Sample.id path 5 6 "h" (some .Fun)) [
      Sample.logCall path 6 (.ident (Sample.id path 6 14 "a" none)),
      Sample.logCall path 7 (.ident (Sample.id path 7 14 "c" none))]]

/-- Scenario A: the package of `pkg/f1.go` and `pkg/f2.go`. -/
def Sample.worldA : World := Sample.world "pkg" [("f1.go", Sample.f1), ("f2.go", Sample.f2)]

/-- Unit `g.go`: `import "log"` and
`func g() { var a = 2; log.Println(a) }`, a function with a local variable
named like the annotated variable of `f1.go`. -/
def Sample.g (path : String) : File where
  Doc := none
  Name := Sample.id path 1 9 "p" none
  Decls := [
    .other [.other [.other []]],
    Sample.funcDecl (Sample.id path 5 6 "g" (some .Fun)) [
      .other [Sample.varDecl none (Sample.id path 6 6 "a" (some .Var)) none],
      Sample.logCall path 7 (.ident (Sample.id path 7 14 "a" (some .Var)))]]

/-- The package of `pkg/f1.go` and `pkg/g.go`: the name `a` is recorded for
both units. -/
def Sample.worldG : World := Sample.world "pkg" [("f1.go", Sample.f1), ("g.go", Sample.g)]

/-- Unit `f.go`: `import "log"`, `var a = "x" // fileprivate` and
`func h() { log.Println(a) }`. -/
def Sample.single (path : String) : File where
  Doc := none
  Name := Sample.id path 1 9 "p" none
  Decls := [
    .other [.other [.other []]],
    Sample.varDecl none (Sample.id path 5 5 "a" (some .Var)) Sample.marker,
    Sample.funcDecl (Sample.id path 7 6 "h" (some .Fun)) [
      Sample.logCall path 8 (.ident (Sample.id path 8 14 "a" (some .Var)))]]

/-- Scenario D: a package whose single unit is `pkg/f.go`. -/
def Sample.worldD : World := Sample.world "pkg" [("f.go", Sample.single)]

/-- The specs of the group `var ( m = 1; n = 2 )`. -/
def Sample.blockSpecs (path : String) : List ValueSpec :=
  [.mk none [Sample.id path 5 2 "m" (some .Var)] none [.other []] none,
   .mk none [Sample.id path 6 2 "n" (some .Var)] none [.other []] none]

/-- The spec `x = 1 // fileprivate`. -/
def Sample.specX (path : String) : ValueSpec :=
  .mk none [Sample.id path 10 2 "x" (some .Var)] none [.other []] Sample.marker

/-- The spec `y = 2`. -/
def Sample.specY (path : String) : ValueSpec :=
  .mk none [Sample.id path 11 2 "y" (some .Var)] none [.other []] none

/-- Unit `v.go`: the group `var ( m = 1; n = 2 )` under a `// fileprivate`
doc comment, then the group `var ( x = 1 // fileprivate; y = 2 )` without a
doc comment. -/
def Sample.grouped (path : String) : File where
  Doc := none
  Name := Sample.id path 1 9 "p" none
  Decls := [
    .genDecl Sample.marker .VAR (Sample.blockSpecs path),
    .genDecl none .VAR [Sample.specX path, Sample.specY path]]

/-- The package whose single unit is `pkg/v.go`. -/
def Sample.worldV : World := Sample.world "pkg" [("v.go", Sample.grouped)]

/-- The package whose single unit is `pkg/g.go`, whose only `var`
declaration is the local one of function `g`. -/
def Sample.worldLocal : World := Sample.world "pkg" [("g.go", Sample.g)]

/-- The tree of the statement `_ = f()`. -/
def Sample.blankAssign (path : String) (line : Nat) : Node :=
  .assignStmt [.ident (Sample.id path line 2 "_" none)]
    [.callExpr (.ident (Sample.id path line 6 "f" none)) []]

/-- Unit `b.go`: `func k() { _ = f() }`. -/
def Sample.blank (path : String) : File where
  Doc := none
  Name := Sample.id path 1 9 "p" none
  Decls := [Sample.funcDecl (Sample.id path 3 6 "k" (some .Fun)) [Sample.blankAssign path 4]]

/-- The package whose single unit is `pkg/b.go`. -/
def Sample.worldBlank : World := Sample.world "pkg" [("b.go", Sample.blank)]

/-- Unit `h1.go`: `var fn = func() {} // fileprivate`. -/
def Sample.fnDecl (path : String) : File where
  Doc := none
  Name := Sample.id path 1 9 "p" none
  Decls := [.genDecl none .VAR
    [.mk none [Sample.id path 3 5 "fn" (some .Var)] none [.other [.other [.other []], .other []]]
      Sample.marker]]

/-- Unit `h2.go`: `func k() { fn() }`, a call whose callee is the bare
identifier `fn`. -/
def Sample.fnCall (path : String) : File where
  Doc := none
  Name := Sample.id path 1 9 "p" none
  Decls := [Sample.funcDecl (Sample.id path 3 6 "k" (some .Fun))
    [.other [.callExpr (.ident (Sample.id path 4 2 "fn" none)) []]]]

/-- The package of `pkg/h1.go` and `pkg/h2.go`. -/
def Sample.worldF : World := Sample.world "pkg" [("h1.go", Sample.fnDecl), ("h2.go", Sample.fnCall)]

/-- Unit `l.go`: `func m() { a := 1 }`, a local variable named like the
annotated variable of `f1.go`. -/
def Sample.localAssign (path : String) : File where
  Doc := none
  Name := Sample.id path 1 9 "p" none
  Decls := [Sample.funcDecl (Sample.id path 3 6 "m" (some .Fun))
    [.assignStmt [.ident (Sample.id path 4 2 "a" (some .Var))] [.other []]]]

/-- Scenario A with the unit `pkg/l.go` added. -/
def Sample.worldL : World :=
  Sample.world "pkg" [("f1.go", Sample.f1), ("f2.go", Sample.f2), ("l.go", Sample.localAssign)]

/-- Unit `s.go`: `import "log"` and `func k() { log.Println(s.a) }`, where `a`
occurs only as the selected name of `s.a`. -/
def Sample.fieldUse (path : String) : File where
  Doc := none
  Name := Sample.id path 1 9 "p" none
  Decls := [
    .other [.other [.other []]],
    Sample.funcDecl (Sample.id path 5 6 "k" (some .Fun)) [
      Sample.logCall path 6
        (.selectorExpr (.ident (Sample.id path 6 14 "s" none)) (Sample.id path 6 16 "a" none))]]

/-- The package of `pkg/f1.go` and `pkg/s.go`. -/
def Sample.worldS : World := Sample.world "pkg" [("f1.go", Sample.f1), ("s.go", Sample.fieldUse)]

/-- The directory `pkg` of Scenario A with one more entry, `bad.go`, which
does not parse. -/
def Sample.worldBad : World where
  Args := ["FilePrivateLinter", "pkg"]
  ReadDir := fun p =>
    if filepath.Clean p = "pkg" then .ok [⟨"f1.go", false⟩, ⟨"f2.go", false⟩, ⟨"bad.go", false⟩]
    else .error "no such directory"
  ParseFile := fun p =>
    if filepath.Clean p = "pkg/bad.go" then .error "pkg/bad.go:1:1: expected 'package'"
    else Sample.worldA.ParseFile p

/-- Unit `d1.go`: `var d = sampleStruct{} // fileprivate`. -/
def Sample.recvDecl (path : String) : File where
  Doc := none
  Name := Sample.id path 1 9 "p" none
  Decls := [.genDecl none .VAR
    [.mk none [Sample.id path 3 5 "d" (some .Var)] none
      [.other [.ident (Sample.id path 3 9 "sampleStruct" none)]] Sample.marker]]

/-- Unit `r.go`: `func k() { d.Print() }`, where `d` is the receiver of a
selector expression. -/
def Sample.recvUse (path : String) : File where
  Doc := none
  Name := Sample.id path 1 9 "p" none
  Decls := [Sample.funcDecl (Sample.id path 3 6 "k" (some .Fun))
    [.other [.callExpr
      (.selectorExpr (.ident (Sample.id path 4 2 "d" none)) (Sample.id path 4 4 "Print" none))
      []]]]

/-- The package of `pkg/d1.go` and `pkg/r.go`. -/
def Sample.worldR : World :=
  Sample.world "pkg" [("d1.go", Sample.recvDecl), ("r.go", Sample.recvUse)]

/-- Unit `u.go`: `import "log"` and `func k() { log.Println(_tmp) }`, where
`_tmp` is declared by no `var` declaration and no assignment of the
package. -/
def Sample.underscore (path : String) : File where
  Doc := none
  Name := Sample.id path 1 9 "p" none
  Decls := [
    .other [.other [.other []]],
    Sample.funcDecl (Sample.id path 5 6 "k" (some .Fun)) [
      Sample.logCall path 6 (.ident (Sample.id path 6 14 "_tmp" none))]]

/-- The package whose single unit is `pkg/u.go`. -/
def Sample.worldU : World := Sample.world "pkg" [("u.go", Sample.underscore)]

/-- Unit `m.go`: `var q = 1` under the doc comment `// FilePrivate`. -/
def Sample.mixedCase (path : String) : File where
  Doc := none
  Name := Sample.id path 1 9 "p" none
  Decls := [Sample.varDecl (some ⟨[⟨"// FilePrivate"⟩]⟩) (Sample.id path 4 5 "q" (some .Var)) none]

/-- The package whose single unit is `pkg/m.go`. -/
def Sample.worldM : World := Sample.world "pkg" [("m.go", Sample.mixedCase)]

/-- Unit `a_windows.go`: `var a = "y"`, without annotation. -/
def Sample.plainA (path : String) : File where
  Doc := none
  Name := Sample.id path 1 9 "p" none
  Decls := [Sample.varDecl none (Sample.id path 3 5 "a" (some .Var)) none]

/-- The package of `pkg/a_linux.go` (`var a = "x" // fileprivate`),
`pkg/a_windows.go` (`var a = "y"`) and `pkg/f2.go`, which uses `a`: two
build-specific units declare `a` at top level. -/
def Sample.worldT : World :=
  Sample.world "pkg"
    [("a_linux.go", Sample.f1), ("a_windows.go", Sample.plainA), ("f2.go", Sample.f2)]

/-- Unit `c_alt.go`: `var c = "z"`, without annotation. -/
def Sample.plainC (path : String) : File where
  Doc := none
  Name := Sample.id path 1 9 "p" none
  Decls := [Sample.varDecl none (Sample.id path 3 5 "c" (some .Var)) none]

/-- Scenario A with the unit `pkg/c_alt.go` added: the name `c`, annotated
nowhere, is declared by two units. -/
def Sample.worldC : World :=
  Sample.world "pkg" [("c_alt.go", Sample.plainC), ("f1.go", Sample.f1), ("f2.go", Sample.f2)]

/-! ## Properties named by the specification -/

/-- A violation as the specification defines it: a usage whose declaring unit
is known and distinct from the using unit, and whose name is among the names
`getFilePrivateVariablesFromFile` extracts, without error, from the declaring
unit. -/
def isViolation (U : Unicode) (w : World) (u : variableUsage) : Bool :=
  decide (u.DeclFile ≠ "") &&
  decide ((getFilePrivateVariablesFromFile U w u.DeclFile).2 = none) &&
  decide (u.Name ∈ (getFilePrivateVariablesFromFile U w u.DeclFile).1) &&
  decide (u.DeclFile ≠ u.UsageFile)

/-- Some spec of the list binds the name `k`. -/
def specsDeclare (specs : List ValueSpec) (k : String) : Bool :=
  specs.any (fun spec => spec.Names.any (fun name => name.Name == k))

/-- The node is a `var` declaration (at any depth of its file) binding the
name `k`. -/
def Node.declares (n : Node) (k : String) : Bool :=
  match n with
  | .genDecl _ .VAR Specs => specsDeclare Specs k
  | _ => false

/-- The unit has a `var` declaration, at top level or nested, binding `k`. -/
def File.declares (f : File) (k : String) : Bool :=
  f.walk.any (fun n => n.declares k)

/-- The expression is the bare identifier `k`. -/
def Node.isNamed (e : Node) (k : String) : Bool :=
  match e with
  | .ident x => x.Name == k
  | _ => false

/-- The node is an assignment statement with the identifier `k` on its
left-hand side. -/
def Node.assigns (n : Node) (k : String) : Bool :=
  match n with
  | .assignStmt Lhs _ => Lhs.any (fun expr => expr.isNamed k)
  | _ => false

/-- The unit has an assignment statement with `k` on its left-hand side. -/
def File.assigns (f : File) (k : String) : Bool :=
  f.walk.any (fun n => n.assigns k)

/-- The units of a package list: every (filename, tree) of every package. -/
def allFiles : List (String × Package) → List (String × File)
  | [] => []
  | (_, pkg) :: rest => pkg.Files ++ allFiles rest

/-- The unit has a top-level `var` declaration binding `k`. -/
def File.declaresTop (f : File) (k : String) : Bool :=
  f.Decls.any (fun n => n.declares k)

/-- The expression is a bare identifier at position `p`. -/
def Node.isIdentAt (e : Node) (p : Position) : Bool :=
  match e with
  | .ident y => decide (y.Pos = p)
  | _ => false

/-- The node involves the identifier at position `p` in one of the three
ways the scan looks at identifiers: it is that identifier, a call with it
among the arguments, or a selector expression with it as receiver. -/
def Node.mentions (n : Node) (p : Position) : Bool :=
  match n with
  | .ident y => decide (y.Pos = p)
  | .callExpr _ Args => Args.any (fun a => a.isIdentAt p)
  | .selectorExpr X _ => X.isIdentAt p
  | _ => false

/-- The usage is recorded at position `p`. -/
def usageIsAt (p : Position) (v : variableUsage) : Bool :=
  decide (v.Position = p)

/-- The inclusion rule: the name of the identifier is in the package-scoped
map, or in the local-names map, or the identifier is unexported and has no
object. -/
def included (U : Unicode) (c : Catalog) (x : Ident) : Bool :=
  (c.pkgVars x.Name).isSome || (c.localVars x.Name).isSome ||
    (!ast.IsExported U x.Name && x.Obj.isNone)

/-- The `DeclFile` of the usages of a name: its entry of the package-scoped
map, empty when it has none. -/
def declFileOf (c : Catalog) (name : String) : String :=
  if (c.pkgVars name).isSome then (c.pkgVars name).getD "" else ""

/-- The bare identifiers among a list of expressions. -/
def identsOf : List Node → List Ident
  | [] => []
  | .ident x :: rest => x :: identsOf rest
  | _ :: rest => identsOf rest

/-- The identifiers the scan looks at on a node: the node itself, the
arguments of a call, the receiver of a selector expression. -/
def Node.idents (n : Node) : List Ident :=
  match n with
  | .ident x => [x]
  | .callExpr _ Args => identsOf Args
  | .selectorExpr X _ => identsOf [X]
  | _ => []

/-- The rune is an ASCII lower-case letter. -/
def asciiIsLower (r : Char) : Bool :=
  decide ('a'.toNat ≤ r.toNat ∧ r.toNat ≤ 'z'.toNat)

/-- The units of the package list in the order the two `range` loops of
step 1 meet them. -/
def enumerateFiles (ord : MapOrder) : List (String × Package) → List (String × File)
  | [] => []
  | (_, pkg) :: rest => ord.files pkg.Files ++ enumerateFiles ord rest

/-- The order in which step 1 of `getUsages` inspects the units. -/
def enumeration (ord : MapOrder) (pkgs : List (String × Package)) : List (String × File) :=
  enumerateFiles ord (ord.pkgs pkgs)

/-- The unit met last, in the given sequence, among those with a `var`
declaration binding `k`; `cur` when there is none. -/
def lastDeclaringFrom (k : String) : List (String × File) → Option String → Option String
  | [], cur => cur
  | (fn, file) :: rest, cur =>
    lastDeclaringFrom k rest (if file.declares k = true then some fn else cur)

/-- The unit met last among those with a `var` declaration binding `k`. -/
def lastDeclaring (fs : List (String × File)) (k : String) : Option String :=
  lastDeclaringFrom k fs none

/-- The two catalogs give the usages of the name `k` in unit `filePath` the
same verdict: the same declaring unit, or declaring units neither of which
makes a usage of `k` a violation. -/
def sameVerdict (U : Unicode) (w : World) (filePath : String) (c1 c2 : Catalog)
    (k : String) : Prop :=
  c1.pkgVars k = c2.pkgVars k ∨
    ∀ (pos : Position) (ty : String),
      isViolation U w ⟨k, pos, ty, declFileOf c1 k, filePath⟩ = false ∧
      isViolation U w ⟨k, pos, ty, declFileOf c2 k, filePath⟩ = false

/-! ## Lemmas on strings -/

theorem strings_containsRunes_iff (s sub : List Char) :
    strings.containsRunes s sub = true ↔ sub <:+: s := by
  induction s with
  | nil =>
    cases sub <;> simp [strings.containsRunes]
  | cons c cs ih =>
    rw [strings.containsRunes, Bool.or_eq_true, ih, List.infix_cons_iff]
    simp [List.isPrefixOf_iff_prefix]

theorem strings_Contains_iff (s sub : String) :
    strings.Contains s sub = true ↔ sub.data <:+: s.data :=
  strings_containsRunes_iff _ _

theorem hasFilePrivateComment_loop_iff (U : Unicode) (l : List Comment) :
    hasFilePrivateComment.loop U l = true ↔
      ∃ c ∈ l, strings.Contains (strings.ToLower U c.Text) "fileprivate" = true := by
  induction l with
  | nil => simp [hasFilePrivateComment.loop]
  | cons c cs ih =>
    rw [hasFilePrivateComment.loop]
    by_cases h : strings.Contains (strings.ToLower U c.Text) "fileprivate" = true
    · simp [h]
    · simp [h, ih]

/-! ## Lemmas on `getFilePrivateVariablesFromFile` -/

theorem getFilePrivateVariablesFromFile_names_eq (names : List Ident) :
    ∀ vars, getFilePrivateVariablesFromFile.names names vars =
      vars ++ names.map (fun name => name.Name) := by
  induction names with
  | nil => intro vars; simp [getFilePrivateVariablesFromFile.names]
  | cons n rest ih => intro vars; simp [getFilePrivateVariablesFromFile.names, ih]

theorem getFilePrivateVariablesFromFile_mem_specs (U : Unicode) (block : Bool) (x : String)
    (specs : List ValueSpec) :
    ∀ vars, x ∈ getFilePrivateVariablesFromFile.specs U block specs vars ↔
      x ∈ vars ∨ ∃ spec ∈ specs,
        (block || (hasFilePrivateComment U spec.Doc || hasFilePrivateComment U spec.Comment))
          = true ∧
        ∃ name ∈ spec.Names, name.Name = x := by
  induction specs with
  | nil => intro vars; simp [getFilePrivateVariablesFromFile.specs]
  | cons sp rest ih =>
    intro vars
    simp only [getFilePrivateVariablesFromFile.specs]
    by_cases hb : (block || (hasFilePrivateComment U sp.Doc || hasFilePrivateComment U sp.Comment))
        = true
    · rw [if_pos hb, ih, getFilePrivateVariablesFromFile_names_eq, List.mem_append, List.mem_map]
      constructor
      · rintro ((h | h) | ⟨s, hs, h⟩)
        · exact Or.inl h
        · exact Or.inr ⟨sp, List.mem_cons_self _ _, hb, h⟩
        · exact Or.inr ⟨s, List.mem_cons_of_mem _ hs, h⟩
      · rintro (h | ⟨s, hs, hh, hn⟩)
        · exact Or.inl (Or.inl h)
        · rcases List.mem_cons.1 hs with rfl | hs
          · exact Or.inl (Or.inr hn)
          · exact Or.inr ⟨s, hs, hh, hn⟩
    · rw [if_neg hb, ih]
      constructor
      · rintro (h | ⟨s, hs, h⟩)
        · exact Or.inl h
        · exact Or.inr ⟨s, List.mem_cons_of_mem _ hs, h⟩
      · rintro (h | ⟨s, hs, hh, hn⟩)
        · exact Or.inl h
        · rcases List.mem_cons.1 hs with rfl | hs
          · exact absurd hh hb
          · exact Or.inr ⟨s, hs, hh, hn⟩

theorem exists_genDecl_cons (P : Option CommentGroup → List ValueSpec → Prop) (d : Node)
    (rest : List Node) :
    (∃ Doc Specs, Node.genDecl Doc .VAR Specs ∈ d :: rest ∧ P Doc Specs) ↔
      (∃ Doc Specs, d = Node.genDecl Doc .VAR Specs ∧ P Doc Specs) ∨
        ∃ Doc Specs, Node.genDecl Doc .VAR Specs ∈ rest ∧ P Doc Specs := by
  constructor
  · rintro ⟨D, S, hm, h⟩
    rcases List.mem_cons.1 hm with hd | hr
    · exact Or.inl ⟨D, S, hd.symm, h⟩
    · exact Or.inr ⟨D, S, hr, h⟩
  · rintro (⟨D, S, hd, h⟩ | ⟨D, S, hr, h⟩)
    · exact ⟨D, S, hd ▸ List.mem_cons_self _ _, h⟩
    · exact ⟨D, S, List.mem_cons_of_mem _ hr, h⟩

theorem getFilePrivateVariablesFromFile_mem_decls (U : Unicode) (x : String)
    (decls : List Node) :
    ∀ vars, x ∈ getFilePrivateVariablesFromFile.decls U decls vars ↔
      x ∈ vars ∨ ∃ Doc Specs, Node.genDecl Doc .VAR Specs ∈ decls ∧ ∃ spec ∈ Specs,
        (hasFilePrivateComment U Doc ||
          (hasFilePrivateComment U spec.Doc || hasFilePrivateComment U spec.Comment)) = true ∧
        ∃ name ∈ spec.Names, name.Name = x := by
  induction decls with
  | nil => intro vars; simp [getFilePrivateVariablesFromFile.decls]
  | cons d rest ih =>
    intro vars
    rw [exists_genDecl_cons]
    cases d with
    | genDecl Doc Tok Specs =>
      cases Tok with
      | CONST =>
        simp only [getFilePrivateVariablesFromFile.decls]
        rw [if_pos (by decide), ih]
        constructor
        · rintro (h | h)
          · exact Or.inl h
          · exact Or.inr (Or.inr h)
        · rintro (h | ⟨D, S, hd, -⟩ | h)
          · exact Or.inl h
          · cases hd
          · exact Or.inr h
      | VAR =>
        simp only [getFilePrivateVariablesFromFile.decls]
        rw [if_neg (by decide), ih, getFilePrivateVariablesFromFile_mem_specs]
        constructor
        · rintro ((h | h) | h)
          · exact Or.inl h
          · exact Or.inr (Or.inl ⟨Doc, Specs, rfl, h⟩)
          · exact Or.inr (Or.inr h)
        · rintro (h | ⟨D, S, hd, h⟩ | h)
          · exact Or.inl (Or.inl h)
          · cases hd
            exact Or.inl (Or.inr h)
          · exact Or.inr h
    | _ =>
      simp only [getFilePrivateVariablesFromFile.decls]
      rw [ih]
      constructor
      · rintro (h | h)
        · exact Or.inl h
        · exact Or.inr (Or.inr h)
      · rintro (h | ⟨D, S, hd, -⟩ | h)
        · exact Or.inl h
        · cases hd
        · exact Or.inr h

/-! ## Lemmas on `checkFile` -/

theorem slices_Contains_iff (s : List String) (v : String) :
    slices.Contains s v = true ↔ v ∈ s := by
  unfold slices.Contains
  rw [List.any_eq_true]
  constructor
  · rintro ⟨e, he, hev⟩
    rw [beq_iff_eq] at hev
    exact hev ▸ he
  · intro h
    exact ⟨v, h, beq_self_eq_true v⟩

theorem checkFile_loop_eq (U : Unicode) (w : World) (usages : List variableUsage) :
    ∀ (acc : List variableUsage) (found : Bool),
      checkFile.loop U w usages acc found =
        (acc ++ usages.filter (isViolation U w), found || usages.any (isViolation U w)) := by
  induction usages with
  | nil => intro acc found; simp [checkFile.loop]
  | cons u rest ih =>
    intro acc found
    rw [checkFile.loop]
    by_cases hd : u.DeclFile = ""
    · have hv : isViolation U w u = false := by simp [isViolation, hd]
      simp [hd, ih, hv]
    · rcases hp : getFilePrivateVariablesFromFile U w u.DeclFile with ⟨vars, _ | err⟩
      · by_cases hc : (slices.Contains vars u.Name && u.DeclFile != u.UsageFile) = true
        · have hv : isViolation U w u = true := by
            simp only [Bool.and_eq_true, slices_Contains_iff, bne_iff_ne] at hc
            simp [isViolation, hd, hp, hc.1, hc.2]
          simp [hd, hc, ih, hv]
        · have hv : isViolation U w u = false := by
            simp only [Bool.and_eq_true, slices_Contains_iff, bne_iff_ne, not_and] at hc
            simp only [isViolation, hp, Bool.and_eq_false_iff, decide_eq_false_iff_not]
            by_cases hm : u.Name ∈ vars
            · exact Or.inr (fun h => hc hm h)
            · exact Or.inl (Or.inr hm)
          simp [hd, hc, ih, hv]
      · have hv : isViolation U w u = false := by simp [isViolation, hp]
        simp [hd, ih, hv]

theorem any_eq_not_isEmpty_filter {α : Type} (p : α → Bool) (l : List α) :
    l.any p = !(l.filter p).isEmpty := by
  induction l with
  | nil => simp
  | cons a t ih =>
    by_cases h : p a = true
    · simp [h]
    · simp [h, ih]

theorem checkFile_ok (U : Unicode) (w : World) (ord : MapOrder) (filePath : String)
    (found : Bool) (usages : List variableUsage)
    (h : getUsages U w ord filePath = .ok usages) :
    checkFile U w ord filePath found =
      .ok (usages.filter (isViolation U w),
        found || !(usages.filter (isViolation U w)).isEmpty) := by
  rw [checkFile, h]
  simp only [checkFile_loop_eq, List.nil_append, any_eq_not_isEmpty_filter]

theorem checkFile_found (U : Unicode) (w : World) (ord : MapOrder) (filePath : String)
    (found found1 : Bool) (vs : List variableUsage)
    (h : checkFile U w ord filePath found = .ok (vs, found1)) :
    found1 = (found || !vs.isEmpty) := by
  rcases hu : getUsages U w ord filePath with code | usages
  · simp [checkFile, hu] at h
  · rw [checkFile_ok U w ord filePath found usages hu] at h
    simp only [Except.ok.injEq, Prod.mk.injEq] at h
    rw [← h.1, ← h.2]

theorem main_loop_found (U : Unicode) (w : World) (calls : List (MapOrder × String)) :
    ∀ (found found1 : Bool) (printed : List (List variableUsage)),
      main.loop U w calls found = .ok (printed, found1) →
        found1 = (found || printed.any (fun vs => !vs.isEmpty)) ∧
        printed.length = calls.length := by
  induction calls with
  | nil =>
    intro found found1 printed h
    simp only [main.loop, Except.ok.injEq, Prod.mk.injEq] at h
    simp [← h.1, ← h.2]
  | cons c rest ih =>
    intro found found1 printed h
    obtain ⟨ord, filePath⟩ := c
    rw [main.loop] at h
    rcases hc : checkFile U w ord filePath found with code | ⟨vs, f1⟩
    · simp [hc] at h
    · rcases hr : main.loop U w rest f1 with code | ⟨pr, f2⟩
      · simp [hc, hr] at h
      · simp only [hc, hr, Except.ok.injEq, Prod.mk.injEq] at h
        obtain ⟨hf2, hlen⟩ := ih f1 f2 pr hr
        have hf1 := checkFile_found U w ord filePath found f1 vs hc
        rw [← h.1, ← h.2, hf2, hf1]
        simp [Bool.or_assoc, hlen]

/-! ## Lemmas on the catalog of `getUsages` -/

theorem collectNames_apply (filename k : String) (names : List Ident) :
    ∀ m : String → Option String,
      getUsages.collectNames filename names m k =
        if k ≠ "_" ∧ names.any (fun name => name.Name == k) = true then some filename
        else m k := by
  induction names with
  | nil => intro m; simp [getUsages.collectNames]
  | cons n rest ih =>
    intro m
    simp only [getUsages.collectNames]
    by_cases hn : n.Name = "_"
    · rw [if_neg (not_not.2 hn), ih]
      by_cases hk : k = "_"
      · simp [hk]
      · have : (n.Name == k) = false := by
          rw [beq_eq_false_iff_ne]; intro h; exact hk (h ▸ hn)
        simp [List.any_cons, this]
    · rw [if_pos hn, ih]
      by_cases hnk : n.Name = k
      · subst hnk
        simp [List.any_cons, GoMap.set, hn]
      · have h1 : (n.Name == k) = false := by rw [beq_eq_false_iff_ne]; exact hnk
        have h2 : ¬ k = n.Name := fun h => hnk h.symm
        simp [List.any_cons, h1, GoMap.set, h2]

theorem collectSpecs_apply (filename k : String) (specs : List ValueSpec) :
    ∀ m : String → Option String,
      getUsages.collectSpecs filename specs m k =
        if k ≠ "_" ∧ specsDeclare specs k = true then some filename else m k := by
  induction specs with
  | nil => intro m; simp [getUsages.collectSpecs, specsDeclare]
  | cons sp rest ih =>
    intro m
    simp only [getUsages.collectSpecs]
    rw [ih, collectNames_apply]
    have hsd : specsDeclare (sp :: rest) k =
        (sp.Names.any (fun name => name.Name == k) || specsDeclare rest k) := by
      simp [specsDeclare, List.any_cons]
    rw [hsd]
    by_cases hk : k = "_"
    · simp [hk]
    · by_cases h1 : specsDeclare rest k = true
      · simp [hk, h1]
      · by_cases h2 : sp.Names.any (fun name => name.Name == k) = true
        · simp [hk, h1, h2]
        · simp [hk, h1, h2]

theorem collectLhs_apply (k : String) (lhs : List Node) :
    ∀ m : String → Option Bool,
      getUsages.collectLhs lhs m k =
        if lhs.any (fun expr => expr.isNamed k) = true then some true else m k := by
  induction lhs with
  | nil => intro m; simp [getUsages.collectLhs]
  | cons e rest ih =>
    intro m
    rw [List.any_cons]
    cases e with
    | ident x =>
      simp only [getUsages.collectLhs]
      rw [ih]
      by_cases h1 : rest.any (fun expr => expr.isNamed k) = true
      · simp [h1]
      · by_cases hxk : x.Name = k
        · subst hxk; simp [h1, GoMap.set, Node.isNamed]
        · have h2 : ¬ k = x.Name := fun h => hxk h.symm
          simp [h1, hxk, GoMap.set, h2, Node.isNamed]
    | _ =>
      simp only [getUsages.collectLhs]
      rw [ih]
      simp [Node.isNamed]

theorem collect_pkgVars (filename k : String) (c : Catalog) (n : Node) :
    (getUsages.collect filename c n).pkgVars k =
      if k ≠ "_" ∧ n.declares k = true then some filename else c.pkgVars k := by
  cases n with
  | genDecl Doc Tok Specs =>
    cases Tok with
    | CONST => simp [getUsages.collect, Node.declares]
    | VAR => simp [getUsages.collect, Node.declares, collectSpecs_apply]
  | _ => simp [getUsages.collect, Node.declares]

theorem collect_localVars (filename k : String) (c : Catalog) (n : Node) :
    (getUsages.collect filename c n).localVars k =
      if n.assigns k = true then some true else c.localVars k := by
  cases n with
  | genDecl Doc Tok Specs =>
    cases Tok <;> simp [getUsages.collect, Node.assigns]
  | assignStmt Lhs Rhs =>
    simp only [getUsages.collect]
    rw [collectLhs_apply]
    simp [Node.assigns]
  | _ => simp [getUsages.collect, Node.assigns]

theorem foldl_collect_pkgVars (filename k : String) (nodes : List Node) :
    ∀ c : Catalog, (nodes.foldl (getUsages.collect filename) c).pkgVars k =
      if k ≠ "_" ∧ nodes.any (fun n => n.declares k) = true then some filename
      else c.pkgVars k := by
  induction nodes with
  | nil => intro c; simp
  | cons n rest ih =>
    intro c
    rw [List.foldl_cons, ih, collect_pkgVars, List.any_cons]
    by_cases hk : k = "_"
    · simp [hk]
    · by_cases h1 : rest.any (fun n => n.declares k) = true
      · simp [hk, h1]
      · by_cases h2 : n.declares k = true
        · simp [hk, h1, h2]
        · simp [hk, h1, h2]

theorem foldl_collect_localVars (filename k : String) (nodes : List Node) :
    ∀ c : Catalog, (nodes.foldl (getUsages.collect filename) c).localVars k =
      if nodes.any (fun n => n.assigns k) = true then some true else c.localVars k := by
  induction nodes with
  | nil => intro c; simp
  | cons n rest ih =>
    intro c
    rw [List.foldl_cons, ih, collect_localVars, List.any_cons]
    by_cases h1 : rest.any (fun n => n.assigns k) = true
    · simp [h1]
    · by_cases h2 : n.assigns k = true
      · simp [h1, h2]
      · simp [h1, h2]

theorem collectFiles_localVars (k : String) (fs : List (String × File)) :
    ∀ c : Catalog, (getUsages.collectFiles fs c).localVars k =
      if fs.any (fun p => p.2.assigns k) = true then some true else c.localVars k := by
  induction fs with
  | nil => intro c; simp [getUsages.collectFiles]
  | cons p rest ih =>
    intro c
    obtain ⟨fn, file⟩ := p
    rw [getUsages.collectFiles, ih, foldl_collect_localVars, List.any_cons]
    by_cases h1 : rest.any (fun p => p.2.assigns k) = true
    · simp [h1]
    · by_cases h2 : file.assigns k = true
      · have h3 : file.walk.any (fun n => n.assigns k) = true := h2
        simp [h1, h2, h3]
      · have h3 : ¬ file.walk.any (fun n => n.assigns k) = true := h2
        simp [h1, h2, h3]

theorem collectFiles_pkgVars_sound (k fn : String) (fs : List (String × File)) :
    ∀ c : Catalog, (getUsages.collectFiles fs c).pkgVars k = some fn →
      c.pkgVars k = some fn ∨
        (k ≠ "_" ∧ ∃ file, (fn, file) ∈ fs ∧ file.declares k = true) := by
  induction fs with
  | nil => intro c h; exact Or.inl h
  | cons p rest ih =>
    intro c h
    obtain ⟨fn1, file1⟩ := p
    rw [getUsages.collectFiles] at h
    rcases ih _ h with h1 | ⟨hk, file, hm, hd⟩
    · rw [foldl_collect_pkgVars] at h1
      by_cases hc : k ≠ "_" ∧ file1.walk.any (fun n => n.declares k) = true
      · rw [if_pos hc] at h1
        cases h1
        exact Or.inr ⟨hc.1, file1, List.mem_cons_self _ _, hc.2⟩
      · rw [if_neg hc] at h1
        exact Or.inl h1
    · exact Or.inr ⟨hk, file, List.mem_cons_of_mem _ hm, hd⟩

theorem collectFiles_pkgVars_complete (k : String) (fs : List (String × File)) :
    ∀ c : Catalog,
      ((c.pkgVars k).isSome = true ∨ (k ≠ "_" ∧ ∃ p ∈ fs, p.2.declares k = true)) →
        ((getUsages.collectFiles fs c).pkgVars k).isSome = true := by
  induction fs with
  | nil =>
    intro c h
    rcases h with h | ⟨-, p, hp, -⟩
    · exact h
    · cases hp
  | cons p rest ih =>
    intro c h
    obtain ⟨fn1, file1⟩ := p
    rw [getUsages.collectFiles]
    apply ih
    rcases h with h | ⟨hk, q, hq, hd⟩
    · left
      rw [foldl_collect_pkgVars]
      split
      · rfl
      · exact h
    · rcases List.mem_cons.1 hq with rfl | hq
      · left
        rw [foldl_collect_pkgVars, if_pos ⟨hk, hd⟩]
        rfl
      · exact Or.inr ⟨hk, q, hq, hd⟩

theorem any_eq_of_perm {α : Type} (f : α → Bool) {l1 l2 : List α} (h : l1.Perm l2) :
    l1.any f = l2.any f := by
  rw [Bool.eq_iff_iff, List.any_eq_true, List.any_eq_true]
  constructor
  · rintro ⟨x, hx, hf⟩; exact ⟨x, h.mem_iff.1 hx, hf⟩
  · rintro ⟨x, hx, hf⟩; exact ⟨x, h.mem_iff.2 hx, hf⟩

theorem mem_allFiles (x : String × File) (ps : List (String × Package)) :
    x ∈ allFiles ps ↔ ∃ p ∈ ps, x ∈ p.2.Files := by
  induction ps with
  | nil => simp [allFiles]
  | cons p rest ih =>
    obtain ⟨name, pkg⟩ := p
    simp [allFiles, ih]

theorem allFiles_any (f : String × File → Bool) (ps : List (String × Package)) :
    (allFiles ps).any f = ps.any (fun p => p.2.Files.any f) := by
  induction ps with
  | nil => simp [allFiles]
  | cons p rest ih =>
    obtain ⟨name, pkg⟩ := p
    simp [allFiles, ih]

theorem collectPkgs_localVars (ord : MapOrder) (k : String) (ps : List (String × Package)) :
    ∀ c : Catalog, (getUsages.collectPkgs ord ps c).localVars k =
      if (allFiles ps).any (fun p => p.2.assigns k) = true then some true
      else c.localVars k := by
  induction ps with
  | nil => intro c; simp [getUsages.collectPkgs, allFiles]
  | cons p rest ih =>
    intro c
    obtain ⟨name, pkg⟩ := p
    rw [getUsages.collectPkgs, ih, collectFiles_localVars,
      any_eq_of_perm _ (ord.files_perm pkg.Files)]
    simp only [allFiles, List.any_append]
    by_cases h1 : (allFiles rest).any (fun p => p.2.assigns k) = true
    · simp [h1]
    · by_cases h2 : pkg.Files.any (fun p => p.2.assigns k) = true
      · simp [h1, h2]
      · simp [h1, h2]

theorem collectPkgs_pkgVars_sound (ord : MapOrder) (k fn : String)
    (ps : List (String × Package)) :
    ∀ c : Catalog, (getUsages.collectPkgs ord ps c).pkgVars k = some fn →
      c.pkgVars k = some fn ∨
        (k ≠ "_" ∧ ∃ file, (fn, file) ∈ allFiles ps ∧ file.declares k = true) := by
  induction ps with
  | nil => intro c h; exact Or.inl h
  | cons p rest ih =>
    intro c h
    obtain ⟨name, pkg⟩ := p
    rw [getUsages.collectPkgs] at h
    rcases ih _ h with h1 | ⟨hk, file, hm, hd⟩
    · rcases collectFiles_pkgVars_sound k fn _ c h1 with h2 | ⟨hk, file, hm, hd⟩
      · exact Or.inl h2
      · refine Or.inr ⟨hk, file, ?_, hd⟩
        rw [allFiles, List.mem_append]
        exact Or.inl ((ord.files_perm pkg.Files).mem_iff.1 hm)
    · refine Or.inr ⟨hk, file, ?_, hd⟩
      rw [allFiles, List.mem_append]
      exact Or.inr hm

theorem collectPkgs_pkgVars_complete (ord : MapOrder) (k : String)
    (ps : List (String × Package)) :
    ∀ c : Catalog,
      ((c.pkgVars k).isSome = true ∨ (k ≠ "_" ∧ ∃ p ∈ allFiles ps, p.2.declares k = true)) →
        ((getUsages.collectPkgs ord ps c).pkgVars k).isSome = true := by
  induction ps with
  | nil =>
    intro c h
    rcases h with h | ⟨-, p, hp, -⟩
    · exact h
    · cases hp
  | cons p rest ih =>
    intro c h
    obtain ⟨name, pkg⟩ := p
    rw [getUsages.collectPkgs]
    apply ih
    rcases h with h | ⟨hk, q, hq, hd⟩
    · exact Or.inl (collectFiles_pkgVars_complete k _ c (Or.inl h))
    · rw [allFiles, List.mem_append] at hq
      rcases hq with hq | hq
      · exact Or.inl (collectFiles_pkgVars_complete k _ c
          (Or.inr ⟨hk, q, (ord.files_perm pkg.Files).mem_iff.2 hq, hd⟩))
      · exact Or.inr ⟨hk, q, hq, hd⟩

theorem allFiles_perm_mem {ps qs : List (String × Package)} (h : ps.Perm qs)
    (x : String × File) : x ∈ allFiles ps ↔ x ∈ allFiles qs := by
  rw [mem_allFiles, mem_allFiles]
  constructor
  · rintro ⟨p, hp, hx⟩; exact ⟨p, h.mem_iff.1 hp, hx⟩
  · rintro ⟨p, hp, hx⟩; exact ⟨p, h.mem_iff.2 hp, hx⟩

theorem catalog_pkgVars_sound (ord : MapOrder) (k fn : String) (pkgs : List (String × Package))
    (h : (getUsages.catalog ord pkgs).pkgVars k = some fn) :
    k ≠ "_" ∧ ∃ file, (fn, file) ∈ allFiles pkgs ∧ file.declares k = true := by
  rcases collectPkgs_pkgVars_sound ord k fn _ _ h with h1 | ⟨hk, file, hm, hd⟩
  · cases h1
  · exact ⟨hk, file, (allFiles_perm_mem (ord.pkgs_perm pkgs) _).1 hm, hd⟩

theorem catalog_pkgVars_complete (ord : MapOrder) (k : String) (pkgs : List (String × Package))
    (hk : k ≠ "_") (p : String × File) (hp : p ∈ allFiles pkgs)
    (hd : p.2.declares k = true) :
    ∃ fn, (getUsages.catalog ord pkgs).pkgVars k = some fn := by
  have h := collectPkgs_pkgVars_complete ord k (ord.pkgs pkgs) Catalog.empty
    (Or.inr ⟨hk, p, (allFiles_perm_mem (ord.pkgs_perm pkgs) _).2 hp, hd⟩)
  exact Option.isSome_iff_exists.1 h

theorem catalog_localVars (ord : MapOrder) (k : String) (pkgs : List (String × Package)) :
    (getUsages.catalog ord pkgs).localVars k =
      if (allFiles pkgs).any (fun p => p.2.assigns k) = true then some true else none := by
  rw [getUsages.catalog, collectPkgs_localVars]
  have : (allFiles (ord.pkgs pkgs)).any (fun p => p.2.assigns k) =
      (allFiles pkgs).any (fun p => p.2.assigns k) := by
    rw [Bool.eq_iff_iff, List.any_eq_true, List.any_eq_true]
    constructor
    · rintro ⟨x, hx, hf⟩; exact ⟨x, (allFiles_perm_mem (ord.pkgs_perm pkgs) _).1 hx, hf⟩
    · rintro ⟨x, hx, hf⟩; exact ⟨x, (allFiles_perm_mem (ord.pkgs_perm pkgs) _).2 hx, hf⟩
  rw [this]
  rfl

/-- The catalog does not depend on the order of enumeration once no name is
declared by `var` declarations of two different units. -/
theorem catalog_order_independent (ord1 ord2 : MapOrder) (pkgs : List (String × Package))
    (huniq : ∀ k, ∀ p1 ∈ allFiles pkgs, ∀ p2 ∈ allFiles pkgs,
      p1.2.declares k = true → p2.2.declares k = true → p1.1 = p2.1) :
    getUsages.catalog ord1 pkgs = getUsages.catalog ord2 pkgs := by
  have hpk : (getUsages.catalog ord1 pkgs).pkgVars = (getUsages.catalog ord2 pkgs).pkgVars := by
    funext k
    rcases h1 : (getUsages.catalog ord1 pkgs).pkgVars k with _ | fn1
    · rcases h2 : (getUsages.catalog ord2 pkgs).pkgVars k with _ | fn2
      · rfl
      · obtain ⟨hk, file, hm, hd⟩ := catalog_pkgVars_sound ord2 k fn2 pkgs h2
        obtain ⟨fn, hfn⟩ := catalog_pkgVars_complete ord1 k pkgs hk _ hm hd
        rw [h1] at hfn
        cases hfn
    · obtain ⟨hk, file1, hm1, hd1⟩ := catalog_pkgVars_sound ord1 k fn1 pkgs h1
      obtain ⟨fn2, h2⟩ := catalog_pkgVars_complete ord2 k pkgs hk _ hm1 hd1
      obtain ⟨-, file2, hm2, hd2⟩ := catalog_pkgVars_sound ord2 k fn2 pkgs h2
      have hfn : fn1 = fn2 := huniq k _ hm1 _ hm2 hd1 hd2
      rw [h2, hfn]
  have hlo : (getUsages.catalog ord1 pkgs).localVars = (getUsages.catalog ord2 pkgs).localVars := by
    funext k
    rw [catalog_localVars, catalog_localVars]
  cases hc1 : getUsages.catalog ord1 pkgs
  cases hc2 : getUsages.catalog ord2 pkgs
  rw [hc1, hc2] at hpk hlo
  simp only at hpk hlo
  rw [hpk, hlo]

theorem getUsages_order_independent (U : Unicode) (w : World) (ord1 ord2 : MapOrder)
    (filePath : String)
    (huniq : ∀ k, ∀ p1 ∈ allFiles (parser.ParseDir w (filepath.Dir filePath)).1,
      ∀ p2 ∈ allFiles (parser.ParseDir w (filepath.Dir filePath)).1,
        p1.2.declares k = true → p2.2.declares k = true → p1.1 = p2.1) :
    getUsages U w ord1 filePath = getUsages U w ord2 filePath := by
  rcases hp : parser.ParseDir w (filepath.Dir filePath) with ⟨pkgs, _ | err⟩
  · rw [hp] at huniq
    simp only [getUsages, hp, catalog_order_independent ord1 ord2 pkgs huniq]
  · simp only [getUsages, hp]

/-! ## Lemmas on `parser.ParseDir` and on the scan of `getUsages` -/

theorem GoMap_mem_insert {α : Type} (k : String) (v : α) (x : String × α) :
    ∀ m : List (String × α), x ∈ GoMap.insert m k v → x ∈ m ∨ x = (k, v) := by
  intro m
  induction m with
  | nil =>
    intro h
    simp only [GoMap.insert, List.mem_singleton] at h
    exact Or.inr h
  | cons e rest ih =>
    intro h
    obtain ⟨k1, v1⟩ := e
    simp only [GoMap.insert] at h
    by_cases hk : k1 = k
    · rw [if_pos hk] at h
      rcases List.mem_cons.1 h with h | h
      · exact Or.inr h
      · exact Or.inl (List.mem_cons_of_mem _ h)
    · rw [if_neg hk] at h
      rcases List.mem_cons.1 h with h | h
      · exact Or.inl (h ▸ List.mem_cons_self _ _)
      · rcases ih h with h | h
        · exact Or.inl (List.mem_cons_of_mem _ h)
        · exact Or.inr h

theorem GoMap_lookup_mem {α : Type} (k : String) (v : α) :
    ∀ m : List (String × α), GoMap.lookup m k = some v → (k, v) ∈ m := by
  intro m
  induction m with
  | nil => intro h; simp [GoMap.lookup] at h
  | cons e rest ih =>
    intro h
    obtain ⟨k1, v1⟩ := e
    simp only [GoMap.lookup] at h
    by_cases hk : k1 = k
    · rw [if_pos hk] at h
      cases h
      exact hk ▸ List.mem_cons_self _ _
    · rw [if_neg hk] at h
      exact List.mem_cons_of_mem _ (ih h)

theorem Clean_ne_empty (path : String) : filepath.Clean path ≠ "" := by
  unfold filepath.Clean
  split
  · decide
  · simp only
    split
    · intro h
      have hd := congrArg String.data h
      simp at hd
    · split
      · decide
      · assumption

theorem Join_ne_empty (a b : String) (ha : a ≠ "") : filepath.Join a b ≠ "" := by
  rw [filepath.Join, if_pos ha]
  exact Clean_ne_empty _

theorem ParseDir_loop_parsed (w : World) (path : String) (list : List DirEntry) :
    ∀ (pkgs : List (String × Package)) (first : Option GoError),
      (∀ p ∈ pkgs, ∀ q ∈ p.2.Files,
        w.ParseFile q.1 = .ok q.2 ∧ ∃ name, q.1 = filepath.Join path name) →
        ∀ p ∈ (parser.ParseDir.loop w path list pkgs first).1, ∀ q ∈ p.2.Files,
          w.ParseFile q.1 = .ok q.2 ∧ ∃ name, q.1 = filepath.Join path name := by
  induction list with
  | nil => intro pkgs first h; simpa [parser.ParseDir.loop] using h
  | cons d rest ih =>
    intro pkgs first h
    simp only [parser.ParseDir.loop]
    split
    · exact ih pkgs first h
    · split
      · rename_i src hsrc
        apply ih
        intro p hp q hq
        rcases GoMap_mem_insert _ _ _ _ hp with hp | hp
        · exact h p hp q hq
        · subst hp
          rcases GoMap_mem_insert _ _ _ _ hq with hq | hq
          · split at hq
            · rename_i p0 hp0
              exact h _ (GoMap_lookup_mem _ _ _ hp0) q hq
            · cases hq
          · subst hq
            exact ⟨hsrc, d.Name, rfl⟩
      · exact ih pkgs _ h

theorem ParseDir_parsed (w : World) (path : String) (q : String × File)
    (hq : q ∈ allFiles (parser.ParseDir w path).1) :
    w.ParseFile q.1 = .ok q.2 ∧ ∃ name, q.1 = filepath.Join path name := by
  obtain ⟨p, hp, hqp⟩ := (mem_allFiles q _).1 hq
  unfold parser.ParseDir at hp
  split at hp
  · cases hp
  · exact ParseDir_loop_parsed w path _ [] none (fun p hp => by cases hp) p hp q hqp

theorem Node_mem_walk_self (n : Node) : n ∈ n.walk := by
  cases n <;> simp [Node.walk]

theorem mem_walkList_of_mem_walk (n m : Node) (ns : List Node) (hm : m ∈ ns)
    (hn : n ∈ m.walk) : n ∈ walkList ns := by
  induction ns with
  | nil => cases hm
  | cons a rest ih =>
    rw [walkList, List.mem_append]
    rcases List.mem_cons.1 hm with rfl | hm
    · exact Or.inl hn
    · exact Or.inr (ih hm)

theorem File_declares_of_decl (f : File) (Doc : Option CommentGroup) (Specs : List ValueSpec)
    (spec : ValueSpec) (name : Ident) (hdecl : Node.genDecl Doc .VAR Specs ∈ f.Decls)
    (hspec : spec ∈ Specs) (hname : name ∈ spec.Names) :
    f.declares name.Name = true := by
  rw [File.declares, List.any_eq_true]
  refine ⟨Node.genDecl Doc .VAR Specs, ?_, ?_⟩
  · rw [File.walk]
    exact List.mem_cons_of_mem _
      (mem_walkList_of_mem_walk _ _ _ hdecl (Node_mem_walk_self _))
  · simp only [Node.declares, specsDeclare, List.any_eq_true]
    exact ⟨spec, hspec, name, hname, beq_self_eq_true _⟩

theorem scan_mem (U : Unicode) (c : Catalog) (filePath : String) (n : Node)
    (v : variableUsage) (hv : v ∈ getUsages.visit U c filePath n) :
    ∀ nodes : List Node, n ∈ nodes → v ∈ getUsages.scan U c filePath nodes := by
  intro nodes
  induction nodes with
  | nil => intro h; cases h
  | cons a rest ih =>
    intro h
    rw [getUsages.scan, List.mem_append]
    rcases List.mem_cons.1 h with rfl | h
    · exact Or.inl hv
    · exact Or.inr (ih h)

theorem args_mem (U : Unicode) (c : Catalog) (filePath declFile : String) (x : Ident)
    (hblank : x.Name ≠ "_") (hpkg : c.pkgVars x.Name = some declFile) :
    ∀ Args : List Node, Node.ident x ∈ Args →
      (⟨x.Name, x.Pos, "function argument", declFile, filePath⟩ : variableUsage) ∈
        getUsages.args U c filePath Args := by
  intro Args
  induction Args with
  | nil => intro h; cases h
  | cons a rest ih =>
    intro h
    rcases List.mem_cons.1 h with h | h
    · subst h
      simp [getUsages.args, hblank, hpkg]
    · have := ih h
      cases a with
      | ident y =>
        simp only [getUsages.args]
        split
        · split
          · exact List.mem_cons_of_mem _ this
          · exact this
        · exact this
      | _ => simpa only [getUsages.args] using this

/-! ## Lemmas on the usages `getUsages` emits -/

theorem getUsages_ok_eq (U : Unicode) (w : World) (ord : MapOrder) (filePath : String)
    (usages : List variableUsage) (h : getUsages U w ord filePath = .ok usages) :
    2 ≤ w.Args.length ∧ (parser.ParseDir w (filepath.Dir filePath)).2 = none ∧
    ∃ file, w.ParseFile filePath = .ok file ∧
      usages = getUsages.scan U
        (getUsages.catalog ord (parser.ParseDir w (filepath.Dir filePath)).1) filePath
        file.walk := by
  unfold getUsages at h
  by_cases ha : w.Args.length < 2
  · rw [if_pos ha] at h; cases h
  · rw [if_neg ha] at h
    rcases hp : parser.ParseDir w (filepath.Dir filePath) with ⟨pkgs, _ | err⟩
    · rcases hf : w.ParseFile filePath with e | file
      · simp [hp, hf] at h
      · simp only [hp, hf, Except.ok.injEq] at h
        exact ⟨by omega, rfl, file, rfl, h.symm⟩
    · simp [hp] at h

theorem mem_scan_iff (U : Unicode) (c : Catalog) (filePath : String) (v : variableUsage)
    (nodes : List Node) :
    v ∈ getUsages.scan U c filePath nodes ↔ ∃ n ∈ nodes, v ∈ getUsages.visit U c filePath n := by
  induction nodes with
  | nil => simp [getUsages.scan]
  | cons a rest ih => simp [getUsages.scan, ih]

theorem args_usageType (U : Unicode) (c : Catalog) (filePath : String) (v : variableUsage)
    (Args : List Node) (hv : v ∈ getUsages.args U c filePath Args) :
    v.UsageType = "function argument" := by
  induction Args with
  | nil => simp [getUsages.args] at hv
  | cons a rest ih =>
    cases a with
    | ident y =>
      simp only [getUsages.args] at hv
      split at hv
      · split at hv
        · rcases List.mem_cons.1 hv with h | h
          · rw [h]
          · exact ih h
        · exact ih hv
      · exact ih hv
    | _ =>
      simp only [getUsages.args] at hv
      exact ih hv

theorem visit_usageType (U : Unicode) (c : Catalog) (filePath : String) (v : variableUsage)
    (n : Node) (hv : v ∈ getUsages.visit U c filePath n) :
    v.UsageType = "direct" ∨ v.UsageType = "function argument" ∨
      v.UsageType = "method receiver" := by
  cases n with
  | ident x =>
    simp only [getUsages.visit] at hv
    split at hv
    · cases hv
    · split at hv
      · rw [List.mem_singleton] at hv
        rw [hv]
        exact Or.inl rfl
      · cases hv
  | callExpr Fun Args =>
    simp only [getUsages.visit] at hv
    exact Or.inr (Or.inl (args_usageType U c filePath v Args hv))
  | selectorExpr X Sel =>
    cases X with
    | ident y =>
      simp only [getUsages.visit] at hv
      split at hv
      · split at hv
        · rw [List.mem_singleton] at hv
          rw [hv]
          exact Or.inr (Or.inr rfl)
        · cases hv
      · cases hv
    | _ => simp [getUsages.visit] at hv
  | _ => simp [getUsages.visit] at hv

theorem isViolation_declFile_empty (U : Unicode) (w : World) (name ty filePath : String)
    (pos : Position) : isViolation U w ⟨name, pos, ty, "", filePath⟩ = false := by
  simp [isViolation]

theorem filter_emit_congr (U : Unicode) (w : World) (pk : Option String) (l1 l2 pot : Bool)
    (name ty filePath : String) (pos : Position) :
    (if (pk.isSome || l1 || pot) = true then
        [(⟨name, pos, ty, if pk.isSome = true then pk.getD "" else "", filePath⟩ : variableUsage)]
      else []).filter (isViolation U w) =
    (if (pk.isSome || l2 || pot) = true then
        [(⟨name, pos, ty, if pk.isSome = true then pk.getD "" else "", filePath⟩ : variableUsage)]
      else []).filter (isViolation U w) := by
  cases pk with
  | some f => simp
  | none =>
    have h := isViolation_declFile_empty U w name ty filePath pos
    by_cases h1 : (l1 || pot) = true <;> by_cases h2 : (l2 || pot) = true <;>
      simp [h, h1, h2]

theorem args_violations_congr (U : Unicode) (w : World) (c1 c2 : Catalog) (filePath : String)
    (hpk : c1.pkgVars = c2.pkgVars) (Args : List Node) :
    (getUsages.args U c1 filePath Args).filter (isViolation U w) =
      (getUsages.args U c2 filePath Args).filter (isViolation U w) := by
  induction Args with
  | nil => rfl
  | cons a rest ih =>
    cases a with
    | ident y =>
      simp only [getUsages.args]
      by_cases hb : y.Name ≠ "_"
      · rw [if_pos hb, if_pos hb]
        have h := filter_emit_congr U w (c1.pkgVars y.Name) (c1.localVars y.Name).isSome
          (c2.localVars y.Name).isSome (!ast.IsExported U y.Name && y.Obj.isNone) y.Name
          "function argument" filePath y.Pos
        rw [← hpk]
        by_cases h1 : ((c1.pkgVars y.Name).isSome || (c1.localVars y.Name).isSome ||
            (!ast.IsExported U y.Name && y.Obj.isNone)) = true <;>
          by_cases h2 : ((c1.pkgVars y.Name).isSome || (c2.localVars y.Name).isSome ||
            (!ast.IsExported U y.Name && y.Obj.isNone)) = true
        · rw [if_pos h1, if_pos h2, List.filter_cons, List.filter_cons, ih]
        · rw [if_pos h1, if_neg h2] at h
          rw [if_pos h1, if_neg h2, ← ih]
          rw [show ∀ (r : variableUsage) (l : List variableUsage),
            (r :: l).filter (isViolation U w) =
              [r].filter (isViolation U w) ++ l.filter (isViolation U w) from
            fun r l => List.filter_append [r] l, h]
          rfl
        · rw [if_neg h1, if_pos h2] at h
          rw [if_neg h1, if_pos h2, ih]
          rw [show ∀ (r : variableUsage) (l : List variableUsage),
            (r :: l).filter (isViolation U w) =
              [r].filter (isViolation U w) ++ l.filter (isViolation U w) from
            fun r l => List.filter_append [r] l, ← h]
          rfl
        · rw [if_neg h1, if_neg h2, ih]
      · rw [if_neg hb, if_neg hb, ih]
    | _ => simpa only [getUsages.args] using ih

theorem visit_violations_congr (U : Unicode) (w : World) (c1 c2 : Catalog) (filePath : String)
    (hpk : c1.pkgVars = c2.pkgVars) (n : Node) :
    (getUsages.visit U c1 filePath n).filter (isViolation U w) =
      (getUsages.visit U c2 filePath n).filter (isViolation U w) := by
  cases n with
  | ident x =>
    simp only [getUsages.visit]
    by_cases hb : x.Name = "_" ∨ x.Obj = some ObjKind.Pkg
    · rw [if_pos hb, if_pos hb]
    · rw [if_neg hb, if_neg hb, ← hpk]
      exact filter_emit_congr U w (c1.pkgVars x.Name) _ _ _ x.Name _ filePath x.Pos
  | callExpr Fun Args =>
    simp only [getUsages.visit]
    exact args_violations_congr U w c1 c2 filePath hpk Args
  | selectorExpr X Sel =>
    cases X with
    | ident y =>
      simp only [getUsages.visit]
      by_cases hb : y.Name ≠ "_"
      · rw [if_pos hb, if_pos hb, ← hpk]
        exact filter_emit_congr U w (c1.pkgVars y.Name) _ _ _ y.Name _ filePath y.Pos
      · rw [if_neg hb, if_neg hb]
    | _ => simp [getUsages.visit]
  | _ => simp [getUsages.visit]

theorem scan_violations_congr (U : Unicode) (w : World) (c1 c2 : Catalog) (filePath : String)
    (hpk : c1.pkgVars = c2.pkgVars) (nodes : List Node) :
    (getUsages.scan U c1 filePath nodes).filter (isViolation U w) =
      (getUsages.scan U c2 filePath nodes).filter (isViolation U w) := by
  induction nodes with
  | nil => rfl
  | cons n rest ih =>
    rw [getUsages.scan, getUsages.scan, List.filter_append, List.filter_append, ih,
      visit_violations_congr U w c1 c2 filePath hpk n]

mutual
theorem Node_walk_closed : ∀ (n m k : Node), m ∈ n.walk → k ∈ m.walk → k ∈ n.walk
  | .ident x, m, k, hm, hk => by
    simp only [Node.walk, List.mem_singleton] at hm
    subst hm
    exact hk
  | .selectorExpr X Sel, m, k, hm, hk => by
    rw [Node.walk] at hm
    rcases List.mem_cons.1 hm with rfl | hm
    · exact hk
    · rw [Node.walk]
      refine List.mem_cons_of_mem _ ?_
      rcases List.mem_append.1 hm with h | h
      · exact List.mem_append.2 (Or.inl (Node_walk_closed X m k h hk))
      · rw [List.mem_singleton] at h
        subst h
        simp only [Node.walk, List.mem_singleton] at hk
        subst hk
        exact List.mem_append.2 (Or.inr (List.mem_singleton.2 rfl))
  | .callExpr Fun Args, m, k, hm, hk => by
    rw [Node.walk] at hm
    rcases List.mem_cons.1 hm with rfl | hm
    · exact hk
    · rw [Node.walk]
      refine List.mem_cons_of_mem _ ?_
      rcases List.mem_append.1 hm with h | h
      · exact List.mem_append.2 (Or.inl (Node_walk_closed Fun m k h hk))
      · exact List.mem_append.2 (Or.inr (walkList_closed Args m k h hk))
  | .assignStmt Lhs Rhs, m, k, hm, hk => by
    rw [Node.walk] at hm
    rcases List.mem_cons.1 hm with rfl | hm
    · exact hk
    · rw [Node.walk]
      refine List.mem_cons_of_mem _ ?_
      rcases List.mem_append.1 hm with h | h
      · exact List.mem_append.2 (Or.inl (walkList_closed Lhs m k h hk))
      · exact List.mem_append.2 (Or.inr (walkList_closed Rhs m k h hk))
  | .genDecl Doc Tok Specs, m, k, hm, hk => by
    rw [Node.walk] at hm
    rcases List.mem_cons.1 hm with rfl | hm
    · exact hk
    · rw [Node.walk]
      exact List.mem_cons_of_mem _ (walkSpecs_closed Specs m k hm hk)
  | .other children, m, k, hm, hk => by
    rw [Node.walk] at hm
    rcases List.mem_cons.1 hm with rfl | hm
    · exact hk
    · rw [Node.walk]
      exact List.mem_cons_of_mem _ (walkList_closed children m k hm hk)
theorem walkList_closed : ∀ (ns : List Node) (m k : Node), m ∈ walkList ns → k ∈ m.walk →
    k ∈ walkList ns
  | [], m, k, hm, hk => by simp [walkList] at hm
  | n :: ns, m, k, hm, hk => by
    rw [walkList] at hm ⊢
    rcases List.mem_append.1 hm with h | h
    · exact List.mem_append.2 (Or.inl (Node_walk_closed n m k h hk))
    · exact List.mem_append.2 (Or.inr (walkList_closed ns m k h hk))
theorem ValueSpec_walk_closed : ∀ (s : ValueSpec) (m k : Node), m ∈ s.walk → k ∈ m.walk →
    k ∈ s.walk
  | .mk Doc Names Typ Values Comment, m, k, hm, hk => by
    rw [ValueSpec.walk] at hm ⊢
    rcases List.mem_append.1 hm with h | h
    · obtain ⟨y, -, rfl⟩ := List.mem_map.1 h
      simp only [Node.walk, List.mem_singleton] at hk
      subst hk
      exact List.mem_append.2 (Or.inl h)
    · refine List.mem_append.2 (Or.inr ?_)
      rcases List.mem_append.1 h with h | h
      · exact List.mem_append.2 (Or.inl (walkOpt_closed Typ m k h hk))
      · exact List.mem_append.2 (Or.inr (walkList_closed Values m k h hk))
theorem walkOpt_closed : ∀ (o : Option Node) (m k : Node), m ∈ walkOpt o → k ∈ m.walk →
    k ∈ walkOpt o
  | none, m, k, hm, hk => by simp [walkOpt] at hm
  | some n, m, k, hm, hk => by
    rw [walkOpt] at hm ⊢
    exact Node_walk_closed n m k hm hk
theorem walkSpecs_closed : ∀ (ss : List ValueSpec) (m k : Node), m ∈ walkSpecs ss →
    k ∈ m.walk → k ∈ walkSpecs ss
  | [], m, k, hm, hk => by simp [walkSpecs] at hm
  | s :: ss, m, k, hm, hk => by
    rw [walkSpecs] at hm ⊢
    rcases List.mem_append.1 hm with h | h
    · exact List.mem_append.2 (Or.inl (ValueSpec_walk_closed s m k h hk))
    · exact List.mem_append.2 (Or.inr (walkSpecs_closed ss m k h hk))
end

theorem File_walk_closed (f : File) (m k : Node) (hm : m ∈ f.walk) (hk : k ∈ m.walk) :
    k ∈ f.walk := by
  rw [File.walk] at hm ⊢
  rcases List.mem_cons.1 hm with rfl | hm
  · simp only [Node.walk, List.mem_singleton] at hk
    exact hk ▸ List.mem_cons_self _ _
  · exact List.mem_cons_of_mem _ (walkList_closed _ m k hm hk)

theorem annotated_unit_violation (U : Unicode) (w : World) (ord : MapOrder)
    (f1 f2 a : String) (file1 : File) (pkgs : List (String × Package))
    (Doc : Option CommentGroup) (Specs : List ValueSpec) (spec : ValueSpec)
    (hdir : parser.ParseDir w (filepath.Dir f2) = (pkgs, none))
    (hf1 : (f1, file1) ∈ allFiles pkgs)
    (hdecl : Node.genDecl Doc .VAR Specs ∈ file1.Decls)
    (hspec : spec ∈ Specs)
    (hname : ∃ name ∈ spec.Names, name.Name = a)
    (hmark : hasFilePrivateComment U Doc = true ∨ hasFilePrivateComment U spec.Doc = true ∨
      hasFilePrivateComment U spec.Comment = true)
    (hblank : a ≠ "_")
    (hother : ∀ p ∈ allFiles pkgs, p.2.declares a = true → p.1 = f1)
    (hne : f1 ≠ f2) :
    (getUsages.catalog ord pkgs).pkgVars a = some f1 ∧
    ∀ (pos : Position) (ty : String), isViolation U w ⟨a, pos, ty, f1, f2⟩ = true := by
  have hfiles : allFiles (parser.ParseDir w (filepath.Dir f2)).1 = allFiles pkgs := by rw [hdir]
  obtain ⟨hparse1, nm, hnm⟩ := ParseDir_parsed w (filepath.Dir f2) (f1, file1) (hfiles ▸ hf1)
  have hf1ne : f1 ≠ "" := by
    have : f1 = filepath.Join (filepath.Dir f2) nm := hnm
    rw [this]
    exact Join_ne_empty _ _ (Clean_ne_empty _)
  obtain ⟨name, hnm1, hnm2⟩ := hname
  have hdecl1 : file1.declares a = true :=
    hnm2 ▸ File_declares_of_decl file1 Doc Specs spec name hdecl hspec hnm1
  refine ⟨?_, fun pos ty => ?_⟩
  · obtain ⟨fn, hfn⟩ := catalog_pkgVars_complete ord a pkgs hblank (f1, file1) hf1 hdecl1
    obtain ⟨-, file, hm, hd⟩ := catalog_pkgVars_sound ord a fn pkgs hfn
    have : fn = f1 := hother (fn, file) hm hd
    rw [hfn, this]
  · have hmem : a ∈ getFilePrivateVariablesFromFile.decls U file1.Decls [] := by
      rw [getFilePrivateVariablesFromFile_mem_decls]
      refine Or.inr ⟨Doc, Specs, hdecl, spec, hspec, ?_, name, hnm1, hnm2⟩
      rcases hmark with h | h | h <;> simp [h]
    have hparse : w.ParseFile f1 = .ok file1 := hparse1
    simp [isViolation, getFilePrivateVariablesFromFile, hparse, hf1ne, hne, hmem]

theorem getUsages_error_code (U : Unicode) (w : World) (ord : MapOrder) (filePath : String)
    (code : ExitCode) (h : getUsages U w ord filePath = .error code) : code = 1 := by
  by_cases ha : w.Args.length < 2
  · simp only [getUsages, ha, if_true, Except.error.injEq] at h
    exact h.symm
  · rcases hp : parser.ParseDir w (filepath.Dir filePath) with ⟨pkgs, _ | e⟩
    · rcases hf : w.ParseFile filePath with err | file
      · simp only [getUsages, ha, if_false, hp, hf, Except.error.injEq] at h
        exact h.symm
      · simp [getUsages, ha, hp, hf] at h
    · simp only [getUsages, ha, if_false, hp, Except.error.injEq] at h
      exact h.symm

theorem checkFile_error_code (U : Unicode) (w : World) (ord : MapOrder) (filePath : String)
    (found : Bool) (code : ExitCode) (h : checkFile U w ord filePath found = .error code) :
    code = 1 := by
  unfold checkFile at h
  split at h
  · rename_i c hc
    cases h
    exact getUsages_error_code U w ord filePath _ hc
  · cases h

theorem main_loop_error_code (U : Unicode) (w : World) (calls : List (MapOrder × String)) :
    ∀ (found : Bool) (code : ExitCode), main.loop U w calls found = .error code → code = 1 := by
  induction calls with
  | nil => intro found code h; simp [main.loop] at h
  | cons c rest ih =>
    intro found code h
    obtain ⟨ord, filePath⟩ := c
    rw [main.loop] at h
    rcases hc : checkFile U w ord filePath found with c1 | ⟨vs, f1⟩
    · simp only [hc, Except.error.injEq] at h
      exact h ▸ checkFile_error_code U w ord filePath found c1 hc
    · rcases hr : main.loop U w rest f1 with c2 | ⟨pr, f2⟩
      · simp only [hc, hr, Except.error.injEq] at h
        exact h ▸ ih f1 c2 hr
      · simp [hc, hr] at h

theorem getUsages_fatal (U : Unicode) (w : World) (ord : MapOrder) (filePath : String)
    (h : (parser.ParseDir w (filepath.Dir filePath)).2 ≠ none ∨
      ∃ err, w.ParseFile filePath = .error err) :
    getUsages U w ord filePath = .error 1 := by
  by_cases ha : w.Args.length < 2
  · simp only [getUsages, ha, if_true]
  · rcases hp : parser.ParseDir w (filepath.Dir filePath) with ⟨pkgs, _ | e⟩
    · rcases h with h | ⟨err, h⟩
      · rw [hp] at h; exact absurd rfl h
      · simp only [getUsages, ha, if_false, hp, h]
    · simp only [getUsages, ha, if_false, hp]

theorem main_loop_fatal (U : Unicode) (w : World) (ord : MapOrder) (filePath : String)
    (hfail : ∀ found, checkFile U w ord filePath found = .error 1)
    (rest : List (MapOrder × String)) (before : List (MapOrder × String)) :
    ∀ found, main.loop U w (before ++ (ord, filePath) :: rest) found = .error 1 := by
  induction before with
  | nil =>
    intro found
    rw [List.nil_append, main.loop, hfail found]
  | cons c before ih =>
    intro found
    obtain ⟨o, fp⟩ := c
    rw [List.cons_append, main.loop]
    rcases hc : checkFile U w o fp found with c1 | ⟨vs, f1⟩
    · rw [checkFile_error_code U w o fp found c1 hc]
    · simp only [ih f1]

/-! ## Lemmas on the usages recorded at one position -/

theorem scan_append (U : Unicode) (c : Catalog) (filePath : String) (l1 l2 : List Node) :
    getUsages.scan U c filePath (l1 ++ l2) =
      getUsages.scan U c filePath l1 ++ getUsages.scan U c filePath l2 := by
  induction l1 with
  | nil => rfl
  | cons n rest ih => simp [getUsages.scan, ih]

theorem args_append (U : Unicode) (c : Catalog) (filePath : String) (l1 l2 : List Node) :
    getUsages.args U c filePath (l1 ++ l2) =
      getUsages.args U c filePath l1 ++ getUsages.args U c filePath l2 := by
  induction l1 with
  | nil => rfl
  | cons a rest ih =>
    cases a with
    | ident y =>
      simp only [List.cons_append, getUsages.args]
      split
      · split
        · exact congrArg (List.cons _) ih
        · exact ih
      · exact ih
    | _ => simpa only [List.cons_append, getUsages.args] using ih

theorem args_position (U : Unicode) (c : Catalog) (filePath : String) (v : variableUsage)
    (Args : List Node) (hv : v ∈ getUsages.args U c filePath Args) :
    ∃ y, Node.ident y ∈ Args ∧ v.Position = y.Pos := by
  induction Args with
  | nil => simp [getUsages.args] at hv
  | cons a rest ih =>
    cases a with
    | ident y =>
      simp only [getUsages.args] at hv
      split at hv
      · split at hv
        · rcases List.mem_cons.1 hv with h | h
          · exact ⟨y, List.mem_cons_self _ _, by rw [h]⟩
          · obtain ⟨z, hz, hp⟩ := ih h
            exact ⟨z, List.mem_cons_of_mem _ hz, hp⟩
        · obtain ⟨z, hz, hp⟩ := ih hv
          exact ⟨z, List.mem_cons_of_mem _ hz, hp⟩
      · obtain ⟨z, hz, hp⟩ := ih hv
        exact ⟨z, List.mem_cons_of_mem _ hz, hp⟩
    | _ =>
      simp only [getUsages.args] at hv
      obtain ⟨z, hz, hp⟩ := ih hv
      exact ⟨z, List.mem_cons_of_mem _ hz, hp⟩

theorem visit_mentions (U : Unicode) (c : Catalog) (filePath : String) (v : variableUsage)
    (n : Node) (hv : v ∈ getUsages.visit U c filePath n) : n.mentions v.Position = true := by
  cases n with
  | ident x =>
    simp only [getUsages.visit] at hv
    split at hv
    · cases hv
    · split at hv
      · rw [List.mem_singleton] at hv
        simp [Node.mentions, hv]
      · cases hv
  | callExpr Fun Args =>
    simp only [getUsages.visit] at hv
    obtain ⟨y, hy, hp⟩ := args_position U c filePath v Args hv
    simp only [Node.mentions, List.any_eq_true]
    exact ⟨_, hy, by simp [Node.isIdentAt, hp]⟩
  | selectorExpr X Sel =>
    cases X with
    | ident y =>
      simp only [getUsages.visit] at hv
      split at hv
      · split at hv
        · rw [List.mem_singleton] at hv
          simp [Node.mentions, Node.isIdentAt, hv]
        · cases hv
      · cases hv
    | _ => simp [getUsages.visit] at hv
  | _ => simp [getUsages.visit] at hv

theorem scan_filter_none (U : Unicode) (c : Catalog) (filePath : String) (p : Position)
    (nodes : List Node) (h : ∀ n ∈ nodes, n.mentions p = false) :
    (getUsages.scan U c filePath nodes).filter (usageIsAt p) = [] := by
  rw [List.filter_eq_nil_iff]
  intro v hv hat
  obtain ⟨n, hn, hvn⟩ := (mem_scan_iff U c filePath v nodes).1 hv
  have hm := visit_mentions U c filePath v n hvn
  simp only [usageIsAt, decide_eq_true_eq] at hat
  rw [hat, h n hn] at hm
  cases hm

theorem args_filter_none (U : Unicode) (c : Catalog) (filePath : String) (p : Position)
    (Args : List Node) (h : ∀ e ∈ Args, e.isIdentAt p = false) :
    (getUsages.args U c filePath Args).filter (usageIsAt p) = [] := by
  rw [List.filter_eq_nil_iff]
  intro v hv hat
  obtain ⟨y, hy, hp⟩ := args_position U c filePath v Args hv
  simp only [usageIsAt, decide_eq_true_eq] at hat
  have := h _ hy
  simp [Node.isIdentAt, ← hp, hat] at this

theorem args_ident (U : Unicode) (c : Catalog) (filePath : String) (x : Ident)
    (hblank : x.Name ≠ "_") (hincl : included U c x = true) :
    getUsages.args U c filePath [Node.ident x] =
      [⟨x.Name, x.Pos, "function argument", declFileOf c x.Name, filePath⟩] := by
  simp only [included] at hincl
  simp only [getUsages.args, if_pos hblank, hincl, if_true, declFileOf]

theorem visit_ident (U : Unicode) (c : Catalog) (filePath : String) (x : Ident)
    (hblank : x.Name ≠ "_") (hobj : x.Obj ≠ some ObjKind.Pkg) (hincl : included U c x = true) :
    getUsages.visit U c filePath (Node.ident x) =
      [⟨x.Name, x.Pos, "direct", declFileOf c x.Name, filePath⟩] := by
  simp only [included] at hincl
  have hb : ¬ (x.Name = "_" ∨ x.Obj = some ObjKind.Pkg) := fun h => h.elim hblank hobj
  simp only [getUsages.visit, if_neg hb, hincl, if_true, declFileOf, getUsages.usageType]

theorem visit_receiver (U : Unicode) (c : Catalog) (filePath : String) (x Sel : Ident)
    (hblank : x.Name ≠ "_") (hincl : included U c x = true) :
    getUsages.visit U c filePath (Node.selectorExpr (Node.ident x) Sel) =
      [⟨x.Name, x.Pos, "method receiver", declFileOf c x.Name, filePath⟩] := by
  simp only [included] at hincl
  simp only [getUsages.visit, if_pos hblank, hincl, if_true, declFileOf]

theorem visit_call_filter (U : Unicode) (c : Catalog) (filePath : String) (x : Ident)
    (Fun : Node) (a1 a2 : List Node)
    (hblank : x.Name ≠ "_") (hincl : included U c x = true)
    (ha : ∀ e ∈ a1 ++ a2, e.isIdentAt x.Pos = false) :
    (getUsages.visit U c filePath (Node.callExpr Fun (a1 ++ Node.ident x :: a2))).filter
        (usageIsAt x.Pos) =
      [⟨x.Name, x.Pos, "function argument", declFileOf c x.Name, filePath⟩] := by
  have h1 := args_filter_none U c filePath x.Pos a1
    (fun e he => ha e (List.mem_append.2 (Or.inl he)))
  have h2 := args_filter_none U c filePath x.Pos a2
    (fun e he => ha e (List.mem_append.2 (Or.inr he)))
  have hsplit : a1 ++ Node.ident x :: a2 = a1 ++ ([Node.ident x] ++ a2) := rfl
  simp only [getUsages.visit]
  rw [hsplit, args_append, args_append, List.filter_append, List.filter_append, h1, h2,
    args_ident U c filePath x hblank hincl]
  simp [usageIsAt]

theorem isViolation_usageType (U : Unicode) (w : World) (name declFile filePath : String)
    (pos : Position) (t1 t2 : String) :
    isViolation U w ⟨name, pos, t1, declFile, filePath⟩ =
      isViolation U w ⟨name, pos, t2, declFile, filePath⟩ := rfl

theorem filter_isAt_violations (U : Unicode) (w : World) (p : Position)
    (usages : List variableUsage) :
    (usages.filter (isViolation U w)).filter (usageIsAt p) =
      (usages.filter (usageIsAt p)).filter (isViolation U w) := by
  rw [List.filter_filter, List.filter_filter]
  congr 1
  funext v
  exact Bool.and_comm _ _

theorem visit_ident_length (U : Unicode) (c : Catalog) (filePath : String) (x : Ident) :
    (getUsages.visit U c filePath (Node.ident x)).length ≤ 1 := by
  simp only [getUsages.visit]
  split
  · exact Nat.zero_le _
  · split
    · exact Nat.le_refl _
    · exact Nat.zero_le _

theorem args_included (U : Unicode) (c : Catalog) (filePath : String) (v : variableUsage)
    (Args : List Node) (hv : v ∈ getUsages.args U c filePath Args) :
    ∃ x ∈ identsOf Args, x.Name = v.Name ∧ x.Pos = v.Position ∧ x.Name ≠ "_" ∧
      included U c x = true := by
  induction Args with
  | nil => simp [getUsages.args] at hv
  | cons a rest ih =>
    cases a with
    | ident y =>
      simp only [getUsages.args] at hv
      simp only [identsOf]
      split at hv
      · rename_i hb
        split at hv
        · rename_i hi
          rcases List.mem_cons.1 hv with h | h
          · exact ⟨y, List.mem_cons_self _ _, by rw [h], by rw [h], hb, hi⟩
          · obtain ⟨z, hz, hp⟩ := ih h
            exact ⟨z, List.mem_cons_of_mem _ hz, hp⟩
        · obtain ⟨z, hz, hp⟩ := ih hv
          exact ⟨z, List.mem_cons_of_mem _ hz, hp⟩
      · obtain ⟨z, hz, hp⟩ := ih hv
        exact ⟨z, List.mem_cons_of_mem _ hz, hp⟩
    | _ =>
      simp only [getUsages.args] at hv
      simpa only [identsOf] using ih hv

theorem visit_included (U : Unicode) (c : Catalog) (filePath : String) (v : variableUsage)
    (n : Node) (hv : v ∈ getUsages.visit U c filePath n) :
    ∃ x ∈ n.idents, x.Name = v.Name ∧ x.Pos = v.Position ∧ x.Name ≠ "_" ∧
      included U c x = true := by
  cases n with
  | ident x =>
    simp only [getUsages.visit] at hv
    split at hv
    · cases hv
    · rename_i hb
      split at hv
      · rename_i hi
        rw [List.mem_singleton] at hv
        exact ⟨x, List.mem_singleton.2 rfl, by rw [hv], by rw [hv],
          fun h => hb (Or.inl h), hi⟩
      · cases hv
  | callExpr Fun Args =>
    simp only [getUsages.visit] at hv
    exact args_included U c filePath v Args hv
  | selectorExpr X Sel =>
    cases X with
    | ident y =>
      simp only [getUsages.visit] at hv
      split at hv
      · rename_i hb
        split at hv
        · rename_i hi
          rw [List.mem_singleton] at hv
          exact ⟨y, by simp [Node.idents, identsOf], by rw [hv], by rw [hv], hb, hi⟩
        · cases hv
      · cases hv
    | _ => simp [getUsages.visit] at hv
  | _ => simp [getUsages.visit] at hv

theorem args_complete (U : Unicode) (c : Catalog) (filePath : String) (x : Ident)
    (hblank : x.Name ≠ "_") (hincl : included U c x = true) (Args : List Node)
    (hx : x ∈ identsOf Args) :
    (⟨x.Name, x.Pos, "function argument", declFileOf c x.Name, filePath⟩ : variableUsage) ∈
      getUsages.args U c filePath Args := by
  induction Args with
  | nil => simp [identsOf] at hx
  | cons a rest ih =>
    cases a with
    | ident y =>
      simp only [identsOf, List.mem_cons] at hx
      rcases hx with rfl | hx
      · have h := args_ident U c filePath x hblank hincl
        have hsplit : Node.ident x :: rest = [Node.ident x] ++ rest := rfl
        rw [hsplit, args_append, h]
        exact List.mem_append.2 (Or.inl (List.mem_singleton.2 rfl))
      · have hsplit : Node.ident y :: rest = [Node.ident y] ++ rest := rfl
        rw [hsplit, args_append]
        exact List.mem_append.2 (Or.inr (ih hx))
    | _ =>
      simp only [identsOf] at hx
      simpa only [getUsages.args] using ih hx

theorem visit_complete (U : Unicode) (c : Catalog) (filePath : String) (n : Node) (x : Ident)
    (hx : x ∈ n.idents) (hblank : x.Name ≠ "_")
    (hobj : n = Node.ident x → x.Obj ≠ some ObjKind.Pkg) (hincl : included U c x = true) :
    ∃ v ∈ getUsages.visit U c filePath n, v.Name = x.Name ∧ v.Position = x.Pos ∧
      v.DeclFile = declFileOf c x.Name ∧ v.UsageFile = filePath := by
  cases n with
  | ident y =>
    simp only [Node.idents, List.mem_singleton] at hx
    subst hx
    rw [visit_ident U c filePath x hblank (hobj rfl) hincl]
    exact ⟨_, List.mem_singleton.2 rfl, rfl, rfl, rfl, rfl⟩
  | callExpr Fun Args =>
    simp only [Node.idents] at hx
    exact ⟨_, by simpa only [getUsages.visit] using args_complete U c filePath x hblank hincl Args hx,
      rfl, rfl, rfl, rfl⟩
  | selectorExpr X Sel =>
    cases X with
    | ident y =>
      simp only [Node.idents, identsOf, List.mem_singleton] at hx
      subst hx
      rw [visit_receiver U c filePath x Sel hblank hincl]
      exact ⟨_, List.mem_singleton.2 rfl, rfl, rfl, rfl, rfl⟩
    | _ => simp [Node.idents, identsOf] at hx
  | _ => simp [Node.idents] at hx

theorem IsExported_underscore (U : Unicode) (name : String)
    (h : name.data.head? = some '_') : ast.IsExported U name = false := by
  unfold ast.IsExported
  cases hd : name.data with
  | nil => rw [hd] at h; cases h
  | cons ch rest =>
    rw [hd] at h
    simp only [List.head?_cons, Option.some.injEq] at h
    subst h
    rfl

/-! ## Lemmas on the order of enumeration -/

theorem lastDeclaringFrom_append (k : String) (l1 l2 : List (String × File)) :
    ∀ cur, lastDeclaringFrom k (l1 ++ l2) cur =
      lastDeclaringFrom k l2 (lastDeclaringFrom k l1 cur) := by
  induction l1 with
  | nil => intro cur; rfl
  | cons p rest ih =>
    intro cur
    obtain ⟨fn, file⟩ := p
    simp only [List.cons_append, lastDeclaringFrom]
    exact ih _

theorem collectFiles_pkgVars_last (k : String) (fs : List (String × File)) :
    ∀ c : Catalog, (getUsages.collectFiles fs c).pkgVars k =
      if k = "_" then c.pkgVars k else lastDeclaringFrom k fs (c.pkgVars k) := by
  induction fs with
  | nil => intro c; simp [getUsages.collectFiles, lastDeclaringFrom]
  | cons p rest ih =>
    intro c
    obtain ⟨fn, file⟩ := p
    rw [getUsages.collectFiles, ih, foldl_collect_pkgVars]
    by_cases hk : k = "_"
    · simp [hk]
    · have hd : file.walk.any (fun n => n.declares k) = file.declares k := rfl
      simp only [hk, if_false, ne_eq, not_false_eq_true, true_and, lastDeclaringFrom, hd]

theorem collectPkgs_pkgVars_last (ord : MapOrder) (k : String)
    (ps : List (String × Package)) :
    ∀ c : Catalog, (getUsages.collectPkgs ord ps c).pkgVars k =
      if k = "_" then c.pkgVars k else lastDeclaringFrom k (enumerateFiles ord ps) (c.pkgVars k) := by
  induction ps with
  | nil => intro c; simp [getUsages.collectPkgs, enumerateFiles, lastDeclaringFrom]
  | cons p rest ih =>
    intro c
    obtain ⟨name, pkg⟩ := p
    rw [getUsages.collectPkgs, ih, collectFiles_pkgVars_last]
    by_cases hk : k = "_"
    · simp [hk]
    · simp only [hk, if_false, enumerateFiles, lastDeclaringFrom_append]

theorem catalog_pkgVars_last (ord : MapOrder) (k : String) (pkgs : List (String × Package)) :
    (getUsages.catalog ord pkgs).pkgVars k =
      if k = "_" then none else lastDeclaring (enumeration ord pkgs) k := by
  rw [getUsages.catalog, collectPkgs_pkgVars_last]
  rfl

theorem filter_emit_rel (U : Unicode) (w : World) (pk1 pk2 : Option String)
    (l1 l2 pot : Bool) (name ty filePath : String) (pos : Position)
    (h : pk1 = pk2 ∨
      (isViolation U w
          ⟨name, pos, ty, if pk1.isSome = true then pk1.getD "" else "", filePath⟩ = false ∧
        isViolation U w
          ⟨name, pos, ty, if pk2.isSome = true then pk2.getD "" else "", filePath⟩ = false)) :
    (if (pk1.isSome || l1 || pot) = true then
        [(⟨name, pos, ty, if pk1.isSome = true then pk1.getD "" else "", filePath⟩ : variableUsage)]
      else []).filter (isViolation U w) =
    (if (pk2.isSome || l2 || pot) = true then
        [(⟨name, pos, ty, if pk2.isSome = true then pk2.getD "" else "", filePath⟩ : variableUsage)]
      else []).filter (isViolation U w) := by
  rcases h with h | ⟨h1, h2⟩
  · subst h
    exact filter_emit_congr U w pk1 l1 l2 pot name ty filePath pos
  · have e1 : ∀ b : Bool, (if b = true then
          [(⟨name, pos, ty, if pk1.isSome = true then pk1.getD "" else "", filePath⟩ :
            variableUsage)]
        else []).filter (isViolation U w) = [] := by
      intro b; cases b <;> simp [h1]
    have e2 : ∀ b : Bool, (if b = true then
          [(⟨name, pos, ty, if pk2.isSome = true then pk2.getD "" else "", filePath⟩ :
            variableUsage)]
        else []).filter (isViolation U w) = [] := by
      intro b; cases b <;> simp [h2]
    rw [e1, e2]

theorem sameVerdict_emit (U : Unicode) (w : World) (filePath : String) (c1 c2 : Catalog)
    (k ty : String) (pos : Position) (h : sameVerdict U w filePath c1 c2 k) :
    c1.pkgVars k = c2.pkgVars k ∨
      (isViolation U w ⟨k, pos, ty,
          if (c1.pkgVars k).isSome = true then (c1.pkgVars k).getD "" else "", filePath⟩ = false ∧
        isViolation U w ⟨k, pos, ty,
          if (c2.pkgVars k).isSome = true then (c2.pkgVars k).getD "" else "", filePath⟩ =
          false) := by
  rcases h with h | h
  · exact Or.inl h
  · exact Or.inr (h pos ty)

theorem args_violations_rel (U : Unicode) (w : World) (c1 c2 : Catalog) (filePath : String)
    (Args : List Node)
    (h : ∀ x ∈ identsOf Args, x.Name ≠ "_" → sameVerdict U w filePath c1 c2 x.Name) :
    (getUsages.args U c1 filePath Args).filter (isViolation U w) =
      (getUsages.args U c2 filePath Args).filter (isViolation U w) := by
  induction Args with
  | nil => rfl
  | cons a rest ih =>
    cases a with
    | ident y =>
      have hrest : ∀ x ∈ identsOf rest, x.Name ≠ "_" → sameVerdict U w filePath c1 c2 x.Name :=
        fun x hx => h x (by simp only [identsOf]; exact List.mem_cons_of_mem _ hx)
      have hsplit : Node.ident y :: rest = [Node.ident y] ++ rest := rfl
      rw [hsplit, args_append, args_append, List.filter_append, List.filter_append, ih hrest]
      congr 1
      simp only [getUsages.args]
      by_cases hb : y.Name ≠ "_"
      · rw [if_pos hb, if_pos hb]
        have hy := sameVerdict_emit U w filePath c1 c2 y.Name "function argument" y.Pos
          (h y (by simp only [identsOf]; exact List.mem_cons_self _ _) hb)
        exact filter_emit_rel U w (c1.pkgVars y.Name) (c2.pkgVars y.Name) _ _ _ y.Name _
          filePath y.Pos hy
      · rw [if_neg hb, if_neg hb]
    | _ =>
      have hrest : ∀ x ∈ identsOf rest, x.Name ≠ "_" → sameVerdict U w filePath c1 c2 x.Name :=
        fun x hx => h x (by simpa only [identsOf] using hx)
      simpa only [getUsages.args] using ih hrest

theorem visit_violations_rel (U : Unicode) (w : World) (c1 c2 : Catalog) (filePath : String)
    (n : Node)
    (h : ∀ x ∈ n.idents, x.Name ≠ "_" → sameVerdict U w filePath c1 c2 x.Name) :
    (getUsages.visit U c1 filePath n).filter (isViolation U w) =
      (getUsages.visit U c2 filePath n).filter (isViolation U w) := by
  cases n with
  | ident x =>
    simp only [getUsages.visit]
    by_cases hb : x.Name = "_" ∨ x.Obj = some ObjKind.Pkg
    · rw [if_pos hb, if_pos hb]
    · rw [if_neg hb, if_neg hb]
      have hx := sameVerdict_emit U w filePath c1 c2 x.Name
        (getUsages.usageType (Node.ident x) x) x.Pos
        (h x (List.mem_singleton.2 rfl) (fun hn => hb (Or.inl hn)))
      exact filter_emit_rel U w (c1.pkgVars x.Name) (c2.pkgVars x.Name) _ _ _ x.Name _
        filePath x.Pos hx
  | callExpr Fun Args =>
    simp only [getUsages.visit]
    exact args_violations_rel U w c1 c2 filePath Args h
  | selectorExpr X Sel =>
    cases X with
    | ident y =>
      simp only [getUsages.visit]
      by_cases hb : y.Name ≠ "_"
      · rw [if_pos hb, if_pos hb]
        have hy := sameVerdict_emit U w filePath c1 c2 y.Name "method receiver" y.Pos
          (h y (by simp [Node.idents, identsOf]) hb)
        exact filter_emit_rel U w (c1.pkgVars y.Name) (c2.pkgVars y.Name) _ _ _ y.Name _
          filePath y.Pos hy
      · rw [if_neg hb, if_neg hb]
    | _ => simp [getUsages.visit]
  | _ => simp [getUsages.visit]

theorem scan_violations_rel (U : Unicode) (w : World) (c1 c2 : Catalog) (filePath : String)
    (nodes : List Node)
    (h : ∀ n ∈ nodes, ∀ x ∈ n.idents, x.Name ≠ "_" → sameVerdict U w filePath c1 c2 x.Name) :
    (getUsages.scan U c1 filePath nodes).filter (isViolation U w) =
      (getUsages.scan U c2 filePath nodes).filter (isViolation U w) := by
  induction nodes with
  | nil => rfl
  | cons n rest ih =>
    rw [getUsages.scan, getUsages.scan, List.filter_append, List.filter_append,
      ih (fun m hm => h m (List.mem_cons_of_mem _ hm)),
      visit_violations_rel U w c1 c2 filePath n (h n (List.mem_cons_self _ _))]

theorem isViolation_false_of (U : Unicode) (w : World) (k d filePath ty : String)
    (pos : Position)
    (h : k ∉ (getFilePrivateVariablesFromFile U w d).1 ∨ d = filePath) :
    isViolation U w ⟨k, pos, ty, d, filePath⟩ = false := by
  rcases h with h | h
  · simp [isViolation, h]
  · simp [isViolation, h]

theorem catalogs_sameVerdict (U : Unicode) (w : World) (ord1 ord2 : MapOrder)
    (filePath k : String) (pkgs : List (String × Package)) (hk : k ≠ "_")
    (hcoll : ∀ p1 ∈ allFiles pkgs, ∀ p2 ∈ allFiles pkgs,
      p1.2.declares k = true → p2.2.declares k = true → p1.1 ≠ p2.1 →
        k ∉ (getFilePrivateVariablesFromFile U w p1.1).1 ∨ p1.1 = filePath) :
    sameVerdict U w filePath (getUsages.catalog ord1 pkgs) (getUsages.catalog ord2 pkgs) k := by
  rcases h1 : (getUsages.catalog ord1 pkgs).pkgVars k with _ | d1
  · rcases h2 : (getUsages.catalog ord2 pkgs).pkgVars k with _ | d2
    · exact Or.inl (h1.trans h2.symm)
    · obtain ⟨-, file, hm, hd⟩ := catalog_pkgVars_sound ord2 k d2 pkgs h2
      obtain ⟨fn, hfn⟩ := catalog_pkgVars_complete ord1 k pkgs hk _ hm hd
      rw [h1] at hfn
      cases hfn
  · obtain ⟨-, file1, hm1, hd1⟩ := catalog_pkgVars_sound ord1 k d1 pkgs h1
    obtain ⟨d2, h2⟩ := catalog_pkgVars_complete ord2 k pkgs hk _ hm1 hd1
    obtain ⟨-, file2, hm2, hd2⟩ := catalog_pkgVars_sound ord2 k d2 pkgs h2
    by_cases hdd : d1 = d2
    · exact Or.inl (by rw [h1, h2, hdd])
    · refine Or.inr (fun pos ty => ⟨?_, ?_⟩)
      · have : declFileOf (getUsages.catalog ord1 pkgs) k = d1 := by simp [declFileOf, h1]
        rw [this]
        exact isViolation_false_of U w k d1 filePath ty pos
          (hcoll (d1, file1) hm1 (d2, file2) hm2 hd1 hd2 hdd)
      · have : declFileOf (getUsages.catalog ord2 pkgs) k = d2 := by simp [declFileOf, h2]
        rw [this]
        exact isViolation_false_of U w k d2 filePath ty pos
          (hcoll (d2, file2) hm2 (d1, file1) hm1 hd2 hd1 (fun h => hdd h.symm))

theorem checkFile_eq_of_violations (U : Unicode) (w : World) (ord1 ord2 : MapOrder)
    (filePath : String) (found : Bool)
    (h : ∀ file2, w.ParseFile filePath = .ok file2 →
      (getUsages.scan U (getUsages.catalog ord1 (parser.ParseDir w (filepath.Dir filePath)).1)
          filePath file2.walk).filter (isViolation U w) =
        (getUsages.scan U (getUsages.catalog ord2 (parser.ParseDir w (filepath.Dir filePath)).1)
          filePath file2.walk).filter (isViolation U w)) :
    checkFile U w ord1 filePath found = checkFile U w ord2 filePath found := by
  by_cases ha : w.Args.length < 2
  · simp only [checkFile, getUsages, ha, if_true]
  · rcases hp : parser.ParseDir w (filepath.Dir filePath) with ⟨pkgs, _ | e⟩
    · rcases hf : w.ParseFile filePath with err | file2
      · simp only [checkFile, getUsages, ha, if_false, hp, hf]
      · have h1 : getUsages U w ord1 filePath =
            .ok (getUsages.scan U (getUsages.catalog ord1 pkgs) filePath file2.walk) := by
          simp only [getUsages, ha, if_false, hp, hf]
        have h2 : getUsages U w ord2 filePath =
            .ok (getUsages.scan U (getUsages.catalog ord2 pkgs) filePath file2.walk) := by
          simp only [getUsages, ha, if_false, hp, hf]
        have hv := h file2 hf
        rw [hp] at hv
        rw [checkFile_ok U w ord1 filePath found _ h1, checkFile_ok U w ord2 filePath found _ h2,
          hv]
    · simp only [checkFile, getUsages, ha, if_false, hp]

/-! ## Claims about `hasFilePrivateComment` -/

/-- C2 (as stated, refuted): the comment group holding the single comment
`// FilePrivate` has no text containing the exact lowercase substring
`fileprivate`, and yet `hasFilePrivateComment` returns true on it, whatever
the case tables above ASCII are; likewise for `// FILEPRIVATE`. -/
theorem C2_counterexample :
    strings.Contains "// FilePrivate" "fileprivate" = false ∧
    strings.Contains "// FILEPRIVATE" "fileprivate" = false ∧
    (∀ U : Unicode, hasFilePrivateComment U (some ⟨[⟨"// FilePrivate"⟩]⟩) = true) ∧
    (∀ U : Unicode, hasFilePrivateComment U (some ⟨[⟨"// FILEPRIVATE"⟩]⟩) = true) := by
  exact ⟨by decide, by decide, fun _ => rfl, fun _ => rfl⟩

/-- C2 (amended): marker recognition ignores letter case.  On every comment
group `hasFilePrivateComment` returns false exactly when no comment text,
once lower-cased by `strings.ToLower`, contains `fileprivate`; the comments
`// FilePrivate` and `// FILEPRIVATE` are recognised; and a comment whose
lower-cased text contains `fileprivate` annotates: every name of a top-level
`var` spec that carries such a comment in the doc comment of its
declaration, in its own doc comment or in its trailing comment is returned
by `getFilePrivateVariablesFromFile`. -/
theorem C2_case_insensitive (U : Unicode) :
    (∀ cg : CommentGroup, hasFilePrivateComment U (some cg) = false ↔
      ∀ c ∈ cg.List, ¬ ("fileprivate".data <:+: (strings.ToLower U c.Text).data)) ∧
    hasFilePrivateComment U (some ⟨[⟨"// FilePrivate"⟩]⟩) = true ∧
    hasFilePrivateComment U (some ⟨[⟨"// FILEPRIVATE"⟩]⟩) = true ∧
    (∀ (w : World) (file : String) (node : File) (Doc : Option CommentGroup)
      (Specs : List ValueSpec) (spec : ValueSpec) (name : Ident) (cg : CommentGroup)
      (c : Comment),
      w.ParseFile file = .ok node → Node.genDecl Doc .VAR Specs ∈ node.Decls →
      spec ∈ Specs → name ∈ spec.Names →
      (Doc = some cg ∨ spec.Doc = some cg ∨ spec.Comment = some cg) → c ∈ cg.List →
      "fileprivate".data <:+: (strings.ToLower U c.Text).data →
        name.Name ∈ (getFilePrivateVariablesFromFile U w file).1) := by
  have hrec : ∀ (cg : CommentGroup) (c : Comment), c ∈ cg.List →
      "fileprivate".data <:+: (strings.ToLower U c.Text).data →
        hasFilePrivateComment U (some cg) = true := by
    intro cg c hc hin
    rw [hasFilePrivateComment, hasFilePrivateComment_loop_iff]
    exact ⟨c, hc, (strings_Contains_iff _ _).2 hin⟩
  refine ⟨fun cg => ?_, rfl, rfl, ?_⟩
  · constructor
    · intro hfalse c hc hin
      rw [hrec cg c hc hin] at hfalse
      cases hfalse
    · intro h
      rw [hasFilePrivateComment, Bool.eq_false_iff]
      intro hl
      obtain ⟨c, hc, hcon⟩ := (hasFilePrivateComment_loop_iff U cg.List).1 hl
      exact h c hc ((strings_Contains_iff _ _).1 hcon)
  · intro w file node Doc Specs spec name cg c hparse hdecl hspec hname hwhere hc hin
    have hcg := hrec cg c hc hin
    simp only [getFilePrivateVariablesFromFile, hparse]
    rw [getFilePrivateVariablesFromFile_mem_decls]
    refine Or.inr ⟨Doc, Specs, hdecl, spec, hspec, ?_, name, hname, rfl⟩
    rcases hwhere with h | h | h <;> simp [h, hcg]

/-- C2 (amended) on `pkg/m.go`, whose declaration `var q = 1` stands under the
doc comment `// FilePrivate`: the lower-cased text contains `fileprivate`, and
`q` is returned; the comment `// this is a test` is not recognised. -/
theorem C2_case_insensitive_witness :
    strings.ToLower Unicode.ascii "// FilePrivate" = "// fileprivate" ∧
    "q" ∈ (getFilePrivateVariablesFromFile Unicode.ascii Sample.worldM "pkg/m.go").1 ∧
    strings.Contains (strings.ToLower Unicode.ascii "// this is a test") "fileprivate" = false ∧
    hasFilePrivateComment Unicode.ascii (some ⟨[⟨"// this is a test"⟩]⟩) = false :=
  ⟨rfl,
   (C2_case_insensitive Unicode.ascii).2.2.2 Sample.worldM "pkg/m.go"
    (Sample.mixedCase "pkg/m.go") (some ⟨[⟨"// FilePrivate"⟩]⟩)
    [.mk none [Sample.id "pkg/m.go" 4 5 "q" (some .Var)] none [.other []] none]
    (.mk none [Sample.id "pkg/m.go" 4 5 "q" (some .Var)] none [.other []] none)
    (Sample.id "pkg/m.go" 4 5 "q" (some .Var)) ⟨[⟨"// FilePrivate"⟩]⟩ ⟨"// FilePrivate"⟩
    rfl (List.mem_cons_self _ _) (List.mem_cons_self _ _) (List.mem_cons_self _ _)
    (Or.inl rfl) (List.mem_cons_self _ _)
    ((strings_Contains_iff _ _).1 rfl),
   rfl,
   ((C2_case_insensitive Unicode.ascii).1 ⟨[⟨"// this is a test"⟩]⟩).2 (by
    intro c hc
    rw [List.mem_singleton] at hc
    subst hc
    rw [← strings_Contains_iff]
    exact Bool.eq_false_iff.1 rfl)⟩

/-- C3: `hasFilePrivateComment` is false on a nil group and on a group
without comments; on every group it is true exactly when some comment of the
list has a text that contains `fileprivate` once letter case is disregarded
(the text lower-cased by `strings.ToLower`); the seven cases of
`TestHasFilePrivateComment` evaluate as the test expects, `// FilePrivate`
included. -/
theorem C3_hasFilePrivateComment_iff (U : Unicode) :
    hasFilePrivateComment U none = false ∧
    hasFilePrivateComment U (some ⟨[]⟩) = false ∧
    (∀ cg : CommentGroup, hasFilePrivateComment U (some cg) = true ↔
      ∃ c ∈ cg.List, "fileprivate".data <:+: (strings.ToLower U c.Text).data) ∧
    hasFilePrivateComment U (some ⟨[⟨"// this is a test"⟩, ⟨"// TODO: something"⟩]⟩) = false ∧
    hasFilePrivateComment U (some ⟨[⟨"// fileprivate"⟩]⟩) = true ∧
    hasFilePrivateComment U (some ⟨[⟨"// some text"⟩, ⟨"// fileprivate"⟩, ⟨"// other"⟩]⟩) = true ∧
    hasFilePrivateComment U (some ⟨[⟨"// some text with fileprivate tag"⟩]⟩) = true ∧
    hasFilePrivateComment U (some ⟨[⟨"// FilePrivate"⟩]⟩) = true := by
  refine ⟨rfl, rfl, fun cg => ?_, rfl, rfl, rfl, rfl, rfl⟩
  rw [hasFilePrivateComment, hasFilePrivateComment_loop_iff]
  simp only [strings_Contains_iff]

/-! ## Claims about `getFilePrivateVariablesFromFile` -/

/-- C4: for every unit that parses and every top-level `var` group of it whose
block-level doc comment carries the marker (`hasFilePrivateComment` holds of
`gen.Doc`), `getFilePrivateVariablesFromFile` succeeds and returns every name
of every value spec of the group, whatever comments the specs carry. -/
theorem C4_block_annotation_covers_group (U : Unicode) (w : World) (file : String)
    (node : File) (Doc : Option CommentGroup) (Specs : List ValueSpec)
    (hparse : w.ParseFile file = .ok node)
    (hdecl : Node.genDecl Doc .VAR Specs ∈ node.Decls)
    (hdoc : hasFilePrivateComment U Doc = true) :
    (getFilePrivateVariablesFromFile U w file).2 = none ∧
    ∀ spec ∈ Specs, ∀ name ∈ spec.Names,
      name.Name ∈ (getFilePrivateVariablesFromFile U w file).1 := by
  simp only [getFilePrivateVariablesFromFile, hparse, true_and]
  intro spec hspec name hname
  rw [getFilePrivateVariablesFromFile_mem_decls]
  exact Or.inr ⟨Doc, Specs, hdecl, spec, hspec, by rw [hdoc]; rfl, name, hname, rfl⟩

/-- C4 on `pkg/v.go`: the names `m` and `n` of the group under the annotated
doc comment are returned, though neither spec has a comment. -/
theorem C4_block_annotation_covers_group_witness :
    getFilePrivateVariablesFromFile Unicode.ascii Sample.worldV "pkg/v.go" =
      (["m", "n", "x"], none) ∧
    ∀ spec ∈ Sample.blockSpecs "pkg/v.go", ∀ name ∈ spec.Names,
      name.Name ∈ (getFilePrivateVariablesFromFile Unicode.ascii Sample.worldV "pkg/v.go").1 :=
  ⟨rfl, (C4_block_annotation_covers_group Unicode.ascii Sample.worldV "pkg/v.go"
    (Sample.grouped "pkg/v.go") Sample.marker (Sample.blockSpecs "pkg/v.go") rfl
    (List.mem_cons_self _ _) rfl).2⟩

/-- C5: for every unit that parses and every top-level `var` group of it whose
block-level doc comment does not carry the marker, a name `x` bound by a spec
of the group is returned by `getFilePrivateVariablesFromFile` if and only if
that spec has a doc comment or a trailing comment carrying the marker,
provided no other binding of `x` in the unit is annotated (neither a sibling
spec of the group nor a spec of another top-level `var` group).  In
particular a sibling without marker is not returned. -/
theorem C5_spec_annotation_only_its_names (U : Unicode) (w : World) (file : String)
    (node : File) (before after : List Node) (Doc : Option CommentGroup)
    (specsBefore specsAfter : List ValueSpec) (spec : ValueSpec) (x : String)
    (hparse : w.ParseFile file = .ok node)
    (hdecls : node.Decls =
      before ++ Node.genDecl Doc .VAR (specsBefore ++ spec :: specsAfter) :: after)
    (hdoc : hasFilePrivateComment U Doc = false)
    (hx : ∃ name ∈ spec.Names, name.Name = x)
    (hothers : ∀ D S s, Node.genDecl D .VAR S ∈ before ++ after → s ∈ S →
      (∃ name ∈ s.Names, name.Name = x) →
        hasFilePrivateComment U D = false ∧ hasFilePrivateComment U s.Doc = false ∧
          hasFilePrivateComment U s.Comment = false)
    (hsiblings : ∀ s ∈ specsBefore ++ specsAfter, (∃ name ∈ s.Names, name.Name = x) →
      hasFilePrivateComment U s.Doc = false ∧ hasFilePrivateComment U s.Comment = false) :
    x ∈ (getFilePrivateVariablesFromFile U w file).1 ↔
      (hasFilePrivateComment U spec.Doc = true ∨ hasFilePrivateComment U spec.Comment = true) := by
  simp only [getFilePrivateVariablesFromFile, hparse]
  rw [getFilePrivateVariablesFromFile_mem_decls, hdecls]
  constructor
  · rintro (h | ⟨D, S, hm, s, hs, hann, hn⟩)
    · cases h
    · rcases List.mem_append.1 hm with hb | hm
      · obtain ⟨h1, h2, h3⟩ := hothers D S s (List.mem_append.2 (Or.inl hb)) hs hn
        simp [h1, h2, h3] at hann
      · rcases List.mem_cons.1 hm with hd | ha
        · cases hd
          rcases List.mem_append.1 hs with hsb | hs
          · obtain ⟨h2, h3⟩ := hsiblings s (List.mem_append.2 (Or.inl hsb)) hn
            simp [hdoc, h2, h3] at hann
          · rcases List.mem_cons.1 hs with rfl | hsa
            · simpa [hdoc] using hann
            · obtain ⟨h2, h3⟩ := hsiblings s (List.mem_append.2 (Or.inr hsa)) hn
              simp [hdoc, h2, h3] at hann
        · obtain ⟨h1, h2, h3⟩ := hothers D S s (List.mem_append.2 (Or.inr ha)) hs hn
          simp [h1, h2, h3] at hann
  · intro h
    refine Or.inr ⟨Doc, _, List.mem_append.2 (Or.inr (List.mem_cons_self _ _)), spec,
      List.mem_append.2 (Or.inr (List.mem_cons_self _ _)), ?_, hx⟩
    simpa [hdoc] using h

/-- C5 on `pkg/v.go`, second group: `y`, bound by the spec without comment
next to the annotated spec of `x`, is not returned. -/
theorem C5_spec_annotation_only_its_names_witness :
    (Sample.grouped "pkg/v.go").Decls =
      [Node.genDecl Sample.marker .VAR (Sample.blockSpecs "pkg/v.go")] ++
        Node.genDecl none .VAR ([Sample.specX "pkg/v.go"] ++ Sample.specY "pkg/v.go" :: []) :: [] ∧
    hasFilePrivateComment Unicode.ascii (Sample.specY "pkg/v.go").Doc = false ∧
    hasFilePrivateComment Unicode.ascii (Sample.specY "pkg/v.go").Comment = false ∧
    "y" ∉ (getFilePrivateVariablesFromFile Unicode.ascii Sample.worldV "pkg/v.go").1 :=
  have h := C5_spec_annotation_only_its_names Unicode.ascii Sample.worldV "pkg/v.go"
    (Sample.grouped "pkg/v.go") [Node.genDecl Sample.marker .VAR (Sample.blockSpecs "pkg/v.go")]
    [] none [Sample.specX "pkg/v.go"] [] (Sample.specY "pkg/v.go") "y" rfl rfl rfl
    ⟨_, List.mem_cons_self _ _, rfl⟩
    (by
      intro D S s hm hs hn
      simp only [List.append_nil, List.mem_singleton, Node.genDecl.injEq] at hm
      obtain ⟨rfl, -, rfl⟩ := hm
      exfalso
      obtain ⟨name, hname, hy⟩ := hn
      simp only [Sample.blockSpecs, List.mem_cons, List.mem_singleton, List.not_mem_nil,
        or_false] at hs
      rcases hs with rfl | rfl <;>
        simp only [ValueSpec.Names, List.mem_singleton] at hname <;>
        subst hname <;> exact absurd hy (by decide))
    (by
      intro s hs hn
      simp only [List.append_nil, List.mem_singleton] at hs
      subst hs
      exfalso
      obtain ⟨name, hname, hy⟩ := hn
      simp only [Sample.specX, ValueSpec.Names, List.mem_singleton] at hname
      subst hname
      exact absurd hy (by decide))
  ⟨rfl, rfl, rfl, fun hmem => by
    rcases h.1 hmem with h1 | h1 <;> exact absurd h1 (by decide)⟩

/-! ## Claims about `checkFile` -/

/-- C1: whenever `getUsages` returns a usage sequence, `checkFile` returns
exactly its order-preserving subsequence of the usages `u` with `u.DeclFile`
non-empty, `getFilePrivateVariablesFromFile(u.DeclFile)` succeeding and
containing `u.Name`, and `u.DeclFile != u.UsageFile` (`isViolation`); a
qualifying record occurs as often in the result as among the usages; every
returned record is one of the usages, and none has `DeclFile == UsageFile`. -/
theorem C1_checkFile_filters_usages (U : Unicode) (w : World) (ord : MapOrder)
    (filePath : String) (found : Bool) (usages : List variableUsage)
    (h : getUsages U w ord filePath = .ok usages) :
    ∃ found1 : Bool,
      checkFile U w ord filePath found = .ok (usages.filter (isViolation U w), found1) ∧
      (usages.filter (isViolation U w)).Sublist usages ∧
      (∀ u, isViolation U w u = true →
        (usages.filter (isViolation U w)).count u = usages.count u) ∧
      (∀ v ∈ usages.filter (isViolation U w), v ∈ usages ∧ v.DeclFile ≠ v.UsageFile) := by
  refine ⟨_, checkFile_ok U w ord filePath found usages h, List.filter_sublist usages,
    fun u hu => List.count_filter hu, fun v hv => ?_⟩
  obtain ⟨hmem, hviol⟩ := List.mem_filter.1 hv
  refine ⟨hmem, ?_⟩
  simp only [isViolation, Bool.and_eq_true, decide_eq_true_eq] at hviol
  exact hviol.2

/-- C1 at Scenario A: `getUsages` returns nine usages for `pkg/f2.go`, of
which `checkFile` keeps the two of `a`. -/
theorem C1_checkFile_filters_usages_witness :
    ∃ usages, getUsages Unicode.ascii Sample.worldA MapOrder.stored "pkg/f2.go" = .ok usages ∧
      usages.length = 9 ∧
      ∃ found1 : Bool,
        checkFile Unicode.ascii Sample.worldA MapOrder.stored "pkg/f2.go" false =
          .ok (usages.filter (isViolation Unicode.ascii Sample.worldA), found1) ∧
        (usages.filter (isViolation Unicode.ascii Sample.worldA)).map (fun v => v.Name) =
          ["a", "a"] :=
  ⟨_, rfl, rfl,
    (C1_checkFile_filters_usages Unicode.ascii Sample.worldA MapOrder.stored "pkg/f2.go" false
      _ rfl).imp (fun _ h => ⟨h.1, rfl⟩)⟩

/-- C6 (Scenario A): let `f1` be a unit of the package directory of `f2`,
distinct from `f2`, whose top-level `var` declaration binds `a` (not the
blank identifier) under a marker comment: the doc comment of the declaration,
or the doc comment or the trailing comment of the spec.  Let no other unit of
the directory bind `a` in a `var` declaration, and let `f2` hold a call with
the bare identifier `a` among its arguments.  Then, for every order of map
enumeration, `checkFile(f2)` returns a violation with `Name` `a`, `DeclFile`
`f1` and `UsageFile` `f2`. -/
theorem C6_scenario_A_argument_violation (U : Unicode) (w : World) (ord : MapOrder)
    (f1 f2 a : String) (file1 file2 : File) (found : Bool) (pkgs : List (String × Package))
    (Doc : Option CommentGroup) (Specs : List ValueSpec) (spec : ValueSpec)
    (Fun : Node) (Args : List Node) (x : Ident)
    (hargs : 2 ≤ w.Args.length)
    (hdir : parser.ParseDir w (filepath.Dir f2) = (pkgs, none))
    (hf1 : (f1, file1) ∈ allFiles pkgs)
    (hdecl : Node.genDecl Doc .VAR Specs ∈ file1.Decls)
    (hspec : spec ∈ Specs)
    (hname : ∃ name ∈ spec.Names, name.Name = a)
    (hmark : hasFilePrivateComment U Doc = true ∨ hasFilePrivateComment U spec.Doc = true ∨
      hasFilePrivateComment U spec.Comment = true)
    (hblank : a ≠ "_")
    (hother : ∀ p ∈ allFiles pkgs, p.2.declares a = true → p.1 = f1)
    (hne : f1 ≠ f2)
    (hf2 : w.ParseFile f2 = .ok file2)
    (hcall : Node.callExpr Fun Args ∈ file2.walk)
    (harg : Node.ident x ∈ Args)
    (hx : x.Name = a) :
    ∃ vs found1, checkFile U w ord f2 found = .ok (vs, found1) ∧
      ∃ v ∈ vs, v.Name = a ∧ v.DeclFile = f1 ∧ v.UsageFile = f2 := by
  have hfiles : allFiles (parser.ParseDir w (filepath.Dir f2)).1 = allFiles pkgs := by rw [hdir]
  obtain ⟨hparse1, nm, hnm⟩ := ParseDir_parsed w (filepath.Dir f2) (f1, file1) (hfiles ▸ hf1)
  have hf1ne : f1 ≠ "" := by
    have : f1 = filepath.Join (filepath.Dir f2) nm := hnm
    rw [this]
    exact Join_ne_empty _ _ (Clean_ne_empty _)
  obtain ⟨name, hnm1, hnm2⟩ := hname
  have hdecl1 : file1.declares a = true :=
    hnm2 ▸ File_declares_of_decl file1 Doc Specs spec name hdecl hspec hnm1
  have hpk : (getUsages.catalog ord pkgs).pkgVars x.Name = some f1 := by
    rw [hx]
    obtain ⟨fn, hfn⟩ := catalog_pkgVars_complete ord a pkgs hblank (f1, file1) hf1 hdecl1
    obtain ⟨-, file, hm, hd⟩ := catalog_pkgVars_sound ord a fn pkgs hfn
    have : fn = f1 := hother (fn, file) hm hd
    rw [hfn, this]
  have husages : getUsages U w ord f2 =
      .ok (getUsages.scan U (getUsages.catalog ord pkgs) f2 file2.walk) := by
    simp only [getUsages, hdir, hf2]
    rw [if_neg (by omega)]
  have hv : (⟨x.Name, x.Pos, "function argument", f1, f2⟩ : variableUsage) ∈
      getUsages.scan U (getUsages.catalog ord pkgs) f2 file2.walk :=
    scan_mem U _ f2 (Node.callExpr Fun Args) _
      (args_mem U _ f2 f1 x (hx ▸ hblank) hpk Args harg) _ hcall
  have hviol : isViolation U w ⟨x.Name, x.Pos, "function argument", f1, f2⟩ = true := by
    have hmem : a ∈ getFilePrivateVariablesFromFile.decls U file1.Decls [] := by
      rw [getFilePrivateVariablesFromFile_mem_decls]
      refine Or.inr ⟨Doc, Specs, hdecl, spec, hspec, ?_, name, hnm1, hnm2⟩
      rcases hmark with h | h | h <;> simp [h]
    have hparse : w.ParseFile f1 = .ok file1 := hparse1
    simp [isViolation, getFilePrivateVariablesFromFile, hparse, hf1ne, hne, hx, hmem]
  refine ⟨_, _, checkFile_ok U w ord f2 found _ husages, _,
    List.mem_filter.2 ⟨hv, hviol⟩, hx, rfl, rfl⟩

/-- C6 on the package of `pkg/f1.go` (`var a = "x" // fileprivate`) and
`pkg/f2.go` (`log.Println(a)`): `checkFile("pkg/f2.go")` returns a violation of
`a` declared in `pkg/f1.go`. -/
theorem C6_scenario_A_argument_violation_witness :
    parser.ParseDir Sample.worldA (filepath.Dir "pkg/f2.go") =
      ([("p", ⟨"p", [("pkg/f1.go", Sample.f1 "pkg/f1.go"),
        ("pkg/f2.go", Sample.f2 "pkg/f2.go")]⟩)], none) ∧
    ∃ vs found1,
      checkFile Unicode.ascii Sample.worldA MapOrder.reversed "pkg/f2.go" false =
        .ok (vs, found1) ∧
      ∃ v ∈ vs, v.Name = "a" ∧ v.DeclFile = "pkg/f1.go" ∧ v.UsageFile = "pkg/f2.go" :=
  ⟨rfl,
   C6_scenario_A_argument_violation Unicode.ascii Sample.worldA MapOrder.reversed
    "pkg/f1.go" "pkg/f2.go" "a" (Sample.f1 "pkg/f1.go") (Sample.f2 "pkg/f2.go") false
    [("p", ⟨"p", [("pkg/f1.go", Sample.f1 "pkg/f1.go"), ("pkg/f2.go", Sample.f2 "pkg/f2.go")]⟩)]
    none [.mk none [Sample.id "pkg/f1.go" 3 5 "a" (some .Var)] none [.other []] Sample.marker]
    (.mk none [Sample.id "pkg/f1.go" 3 5 "a" (some .Var)] none [.other []] Sample.marker)
    (.selectorExpr (.ident (Sample.id "pkg/f2.go" 6 2 "log" none))
      (Sample.id "pkg/f2.go" 6 6 "Println" none))
    [.ident (Sample.id "pkg/f2.go" 6 14 "a" none)] (Sample.id "pkg/f2.go" 6 14 "a" none)
    (by decide) rfl (List.mem_cons_self _ _) (List.mem_cons_self _ _) (List.mem_cons_self _ _)
    ⟨_, List.mem_cons_self _ _, rfl⟩ (Or.inr (Or.inr rfl)) (by decide)
    (by
      intro p hp hd
      simp only [allFiles, List.append_nil, List.mem_cons, List.mem_singleton,
        List.not_mem_nil, or_false] at hp
      rcases hp with rfl | rfl
      · rfl
      · exact absurd hd (Bool.eq_false_iff.1 rfl))
    (by decide) rfl
    (by simp [Sample.f2, Sample.funcDecl, Sample.logCall, File.walk, walkList, Node.walk])
    (List.mem_cons_self _ _) rfl⟩

/-- C7 (the code at the failing input): the package `pkg` has the single unit
`pkg/f.go`, which declares `var a = "x" // fileprivate` and uses `a`.  Called
with the path `pkg/f.go`, `checkFile` returns no violation.  Called with the
spelling `./pkg/f.go` of the same unit it records the declaring path
`filepath.Join(filepath.Dir("./pkg/f.go"), "f.go") = "pkg/f.go"`, compares it
with the raw argument, and returns three violations for the unit's own uses
of `a`. -/
theorem C7_same_unit_reported_under_unclean_path :
    filepath.Join (filepath.Dir "./pkg/f.go") "f.go" = "pkg/f.go" ∧
    (∀ U : Unicode,
      checkFile U Sample.worldD MapOrder.stored "pkg/f.go" false = .ok ([], false)) ∧
    (∀ U : Unicode,
      checkFile U Sample.worldD MapOrder.stored "./pkg/f.go" false =
        .ok ([⟨"a", ⟨"./pkg/f.go", 0, 5, 5⟩, "direct", "pkg/f.go", "./pkg/f.go"⟩,
              ⟨"a", ⟨"./pkg/f.go", 0, 8, 14⟩, "function argument", "pkg/f.go", "./pkg/f.go"⟩,
              ⟨"a", ⟨"./pkg/f.go", 0, 8, 14⟩, "direct", "pkg/f.go", "./pkg/f.go"⟩], true)) :=
  ⟨rfl, fun _ => rfl, fun _ => rfl⟩

/-- C8 (as stated, refuted): in the package of `pkg/a_linux.go`
(`var a = "x" // fileprivate`), `pkg/a_windows.go` (`var a = "y"`) and
`pkg/f2.go` (`log.Println(a)`), the name `a` is declared at top level by two
units.  When the files are enumerated in the stored order the last write
makes `pkg/a_windows.go`, where `a` is not annotated, the declaring unit and
`checkFile` on `pkg/f2.go` returns nothing; enumerated in the opposite order
the declaring unit is `pkg/a_linux.go` and two violations are returned. -/
theorem C8_counterexample :
    (getUsages.catalog MapOrder.stored (parser.ParseDir Sample.worldT "pkg").1).pkgVars "a" =
      some "pkg/a_windows.go" ∧
    (getUsages.catalog MapOrder.reversed (parser.ParseDir Sample.worldT "pkg").1).pkgVars "a" =
      some "pkg/a_linux.go" ∧
    checkFile Unicode.ascii Sample.worldT MapOrder.stored "pkg/f2.go" false = .ok ([], false) ∧
    checkFile Unicode.ascii Sample.worldT MapOrder.reversed "pkg/f2.go" false =
      .ok ([⟨"a", ⟨"pkg/f2.go", 0, 6, 14⟩, "function argument", "pkg/a_linux.go", "pkg/f2.go"⟩,
            ⟨"a", ⟨"pkg/f2.go", 0, 6, 14⟩, "direct", "pkg/a_linux.go", "pkg/f2.go"⟩], true) :=
  ⟨rfl, rfl, rfl, rfl⟩

/-- C8 (amended): the result of `checkFile` is a function of the input and of
the order in which the maps are enumerated.  For every order the catalog
maps a name, the blank identifier excepted, to the unit enumerated last
among those recorded for it (last write wins).  The result of `checkFile` on
a unit is the same for every two orders provided every name used in that
unit and recorded for two different units is annotated fileprivate in
neither of them, the analysed unit excepted. -/
theorem C8_order_independent_without_collision (U : Unicode) (w : World)
    (ord1 ord2 : MapOrder) (filePath : String) (found : Bool)
    (hcoll : ∀ file2, w.ParseFile filePath = .ok file2 →
      ∀ n ∈ file2.walk, ∀ x ∈ n.idents, x.Name ≠ "_" →
        ∀ p1 ∈ allFiles (parser.ParseDir w (filepath.Dir filePath)).1,
        ∀ p2 ∈ allFiles (parser.ParseDir w (filepath.Dir filePath)).1,
          p1.2.declares x.Name = true → p2.2.declares x.Name = true → p1.1 ≠ p2.1 →
            x.Name ∉ (getFilePrivateVariablesFromFile U w p1.1).1 ∨ p1.1 = filePath) :
    checkFile U w ord1 filePath found = checkFile U w ord2 filePath found ∧
    ∀ (ord : MapOrder) (pkgs : List (String × Package)) (k : String),
      (getUsages.catalog ord pkgs).pkgVars k =
        if k = "_" then none else lastDeclaring (enumeration ord pkgs) k := by
  refine ⟨checkFile_eq_of_violations U w ord1 ord2 filePath found (fun file2 hf => ?_),
    fun ord pkgs k => catalog_pkgVars_last ord k pkgs⟩
  exact scan_violations_rel U w _ _ filePath file2.walk (fun n hn x hx hb =>
    catalogs_sameVerdict U w ord1 ord2 filePath x.Name _ hb (hcoll file2 hf n hn x hx hb))

/-- C8 (amended) on Scenario A with `pkg/c_alt.go` added: the name `c` is
declared by two units and annotated in neither; the two orders record
different declaring units for `c`, and `checkFile` on `pkg/f2.go` returns
the same two violations of `a` under both. -/
theorem C8_order_independent_without_collision_witness :
    (getUsages.catalog MapOrder.stored (parser.ParseDir Sample.worldC "pkg").1).pkgVars "c" =
      some "pkg/f1.go" ∧
    (getUsages.catalog MapOrder.reversed (parser.ParseDir Sample.worldC "pkg").1).pkgVars "c" =
      some "pkg/c_alt.go" ∧
    checkFile Unicode.ascii Sample.worldC MapOrder.stored "pkg/f2.go" false =
      checkFile Unicode.ascii Sample.worldC MapOrder.reversed "pkg/f2.go" false ∧
    checkFile Unicode.ascii Sample.worldC MapOrder.reversed "pkg/f2.go" false =
      .ok ([⟨"a", ⟨"pkg/f2.go", 0, 6, 14⟩, "function argument", "pkg/f1.go", "pkg/f2.go"⟩,
            ⟨"a", ⟨"pkg/f2.go", 0, 6, 14⟩, "direct", "pkg/f1.go", "pkg/f2.go"⟩], true) :=
  ⟨rfl, rfl,
   (C8_order_independent_without_collision Unicode.ascii Sample.worldC MapOrder.stored
    MapOrder.reversed "pkg/f2.go" false (by
      intro file2 hf
      have hfile : file2 = Sample.f2 "pkg/f2.go" := Except.ok.inj (hf.symm.trans rfl)
      subst hfile
      intro n hn x hx hb
      have hnames : ∀ n ∈ (Sample.f2 "pkg/f2.go").walk, ∀ x ∈ n.idents,
          x.Name ∈ ["p", "h", "log", "Println", "a", "c"] := by decide
      have hk := hnames n hn x hx
      clear hb hx hn
      generalize x.Name = k at hk ⊢
      simp only [List.mem_cons, List.mem_singleton, List.not_mem_nil, or_false] at hk
      rcases hk with rfl | rfl | rfl | rfl | rfl | rfl <;> decide)).1,
   rfl⟩

/-- C9: when the declaring unit of a usage `u` cannot be parsed,
`getFilePrivateVariablesFromFile` returns the nil list together with the
error, and the loop of `checkFile` over a usage sequence holding `u` ends with
the very result it has on the sequence without `u`, from any state: no
violation is emitted for `u`, the loop does not stop, and the usages before
and after `u` are treated as they are otherwise. -/
theorem C9_unparsable_declaring_unit_skipped (U : Unicode) (w : World)
    (before after acc : List variableUsage) (u : variableUsage) (found : Bool) (err : GoError)
    (h : w.ParseFile u.DeclFile = .error err) :
    getFilePrivateVariablesFromFile U w u.DeclFile = ([], some err) ∧
    checkFile.loop U w (before ++ u :: after) acc found =
      checkFile.loop U w (before ++ after) acc found ∧
    u ∉ (checkFile.loop U w (before ++ u :: after) [] found).1 := by
  have hg : getFilePrivateVariablesFromFile U w u.DeclFile = ([], some err) := by
    simp [getFilePrivateVariablesFromFile, h]
  have hv : isViolation U w u = false := by simp [isViolation, hg]
  refine ⟨hg, ?_, ?_⟩
  · simp [checkFile_loop_eq, List.filter_cons, hv]
  · simp [checkFile_loop_eq, List.mem_filter, hv]

/-- C9 at a concrete usage sequence: the declaring unit `pkg/gone.go` of the
second usage does not parse; the violation before it and the one after it are
reported as without it. -/
theorem C9_unparsable_declaring_unit_skipped_witness :
    Sample.worldA.ParseFile "pkg/gone.go" = .error "no such file" ∧
    getFilePrivateVariablesFromFile Unicode.ascii Sample.worldA "pkg/gone.go" =
      ([], some "no such file") ∧
    checkFile.loop Unicode.ascii Sample.worldA
      ([⟨"a", ⟨"pkg/f2.go", 0, 6, 14⟩, "direct", "pkg/f1.go", "pkg/f2.go"⟩] ++
        ⟨"a", ⟨"pkg/f2.go", 0, 7, 14⟩, "direct", "pkg/gone.go", "pkg/f2.go"⟩ ::
        [⟨"a", ⟨"pkg/f2.go", 0, 8, 14⟩, "direct", "pkg/f1.go", "pkg/f2.go"⟩]) [] false =
      ([⟨"a", ⟨"pkg/f2.go", 0, 6, 14⟩, "direct", "pkg/f1.go", "pkg/f2.go"⟩,
        ⟨"a", ⟨"pkg/f2.go", 0, 8, 14⟩, "direct", "pkg/f1.go", "pkg/f2.go"⟩], true) :=
  have h := C9_unparsable_declaring_unit_skipped Unicode.ascii Sample.worldA
    [⟨"a", ⟨"pkg/f2.go", 0, 6, 14⟩, "direct", "pkg/f1.go", "pkg/f2.go"⟩]
    [⟨"a", ⟨"pkg/f2.go", 0, 8, 14⟩, "direct", "pkg/f1.go", "pkg/f2.go"⟩] []
    ⟨"a", ⟨"pkg/f2.go", 0, 7, 14⟩, "direct", "pkg/gone.go", "pkg/f2.go"⟩ false
    "no such file" rfl
  ⟨rfl, h.1, h.2.1.trans rfl⟩

/-- C10: a call of `checkFile` that returns leaves `foundViolation` equal to
its value before the call or-ed with "the returned list is non-empty"; hence
over any sequence of calls made by the loop of `main`, starting from false,
the flag ends true exactly when some call returned a violation, and starting
from true it ends true. -/
theorem C10_foundViolation_only_raised (U : Unicode) (w : World) :
    (∀ ord filePath found vs found1,
      checkFile U w ord filePath found = .ok (vs, found1) → found1 = (found || !vs.isEmpty)) ∧
    (∀ calls printed found1,
      main.loop U w calls false = .ok (printed, found1) →
        (found1 = true ↔ ∃ vs ∈ printed, vs ≠ [])) ∧
    (∀ calls printed found1,
      main.loop U w calls true = .ok (printed, found1) → found1 = true) := by
  refine ⟨fun ord filePath found vs found1 h => checkFile_found U w ord filePath found found1 vs h,
    fun calls printed found1 h => ?_, fun calls printed found1 h => ?_⟩
  · rw [(main_loop_found U w calls false found1 printed h).1]
    simp [List.isEmpty_iff]
  · rw [(main_loop_found U w calls true found1 printed h).1]
    rfl

/-- C10 on Scenario A: `checkFile` on `pkg/f2.go` raises the flag, and the
loop of `main` over `pkg/f2.go` then `pkg/f1.go` ends with the flag raised
although the second call returns no violation. -/
theorem C10_foundViolation_only_raised_witness :
    (∃ vs, checkFile Unicode.ascii Sample.worldA MapOrder.stored "pkg/f2.go" false =
        .ok (vs, true) ∧ true = (false || !vs.isEmpty)) ∧
    (∃ vs1, main.loop Unicode.ascii Sample.worldA
        [(MapOrder.stored, "pkg/f2.go"), (MapOrder.stored, "pkg/f1.go")] false =
          .ok ([vs1, []], true) ∧
        (true = true ↔ ∃ vs ∈ [vs1, []], vs ≠ [])) :=
  ⟨⟨_, rfl, (C10_foundViolation_only_raised Unicode.ascii Sample.worldA).1
      MapOrder.stored "pkg/f2.go" false _ true rfl⟩,
   ⟨_, rfl, (C10_foundViolation_only_raised Unicode.ascii Sample.worldA).2.1
      [(MapOrder.stored, "pkg/f2.go"), (MapOrder.stored, "pkg/f1.go")] _ true rfl⟩⟩

/-! ## Claims about the catalog and the usages of `getUsages` -/

/-- C11 (the code at the failing input): the package of `pkg/f1.go`, which
declares `var a = "x" // fileprivate` at top level, and `pkg/g.go`, whose only
`var a` is local to function `g`.  Enumerated in the stored order, the
catalog maps `a` to `pkg/g.go`: the nested declaration has overwritten the
entry of the top-level one with a unit that has no top-level declaration of
`a`.  In the package of `pkg/g.go` alone the nested declaration contributes
the entry of `a` although no unit declares `a` at top level. -/
theorem C11_nested_var_declaration_recorded :
    (Sample.f1 "pkg/f1.go").declaresTop "a" = true ∧
    (Sample.g "pkg/g.go").declaresTop "a" = false ∧
    allFiles (parser.ParseDir Sample.worldG "pkg").1 =
      [("pkg/f1.go", Sample.f1 "pkg/f1.go"), ("pkg/g.go", Sample.g "pkg/g.go")] ∧
    (getUsages.catalog MapOrder.stored (parser.ParseDir Sample.worldG "pkg").1).pkgVars "a" =
      some "pkg/g.go" ∧
    allFiles (parser.ParseDir Sample.worldLocal "pkg").1 =
      [("pkg/g.go", Sample.g "pkg/g.go")] ∧
    (getUsages.catalog MapOrder.stored (parser.ParseDir Sample.worldLocal "pkg").1).pkgVars "a" =
      some "pkg/g.go" :=
  ⟨rfl, rfl, rfl, rfl, rfl, rfl⟩

/-- C12 (the code at the failing input): the blank identifier is never a key
of the package-scoped map, whatever the package and the order of enumeration;
but in the package of `pkg/b.go`, whose function holds the statement
`_ = f()`, the local-names map has the key `_`. -/
theorem C12_blank_identifier_in_localVars :
    (∀ (ord : MapOrder) (pkgs : List (String × Package)),
      (getUsages.catalog ord pkgs).pkgVars "_" = none) ∧
    allFiles (parser.ParseDir Sample.worldBlank "pkg").1 =
      [("pkg/b.go", Sample.blank "pkg/b.go")] ∧
    (getUsages.catalog MapOrder.stored (parser.ParseDir Sample.worldBlank "pkg").1).localVars "_" =
      some true := by
  refine ⟨fun ord pkgs => ?_, rfl, rfl⟩
  rcases h : (getUsages.catalog ord pkgs).pkgVars "_" with _ | fn
  · rfl
  · exact absurd rfl (catalog_pkgVars_sound ord "_" fn pkgs h).1

/-- C13 (the code at the failing input): in the package of `pkg/h1.go`
(`var fn = func() {} // fileprivate`) and `pkg/h2.go` (`func k() { fn() }`) the
callee `fn` of the call is in the package-scoped map, and the usage
`getUsages` emits for it has `UsageType` "direct".  No usage `getUsages` ever
returns has `UsageType` "function call": the identifier case switches on the
type of the identifier node itself, never on its parent. -/
theorem C13_function_call_never_emitted :
    getUsages Unicode.ascii Sample.worldF MapOrder.stored "pkg/h2.go" =
      .ok [⟨"p", ⟨"pkg/h2.go", 0, 1, 9⟩, "direct", "", "pkg/h2.go"⟩,
           ⟨"fn", ⟨"pkg/h2.go", 0, 4, 2⟩, "direct", "pkg/h1.go", "pkg/h2.go"⟩] ∧
    (∀ (U : Unicode) (w : World) (ord : MapOrder) (filePath : String)
      (usages : List variableUsage), getUsages U w ord filePath = .ok usages →
        ∀ v ∈ usages, v.UsageType ≠ "function call") := by
  refine ⟨rfl, fun U w ord filePath usages h v hv => ?_⟩
  obtain ⟨-, -, file, -, rfl⟩ := getUsages_ok_eq U w ord filePath usages h
  obtain ⟨n, -, hn⟩ := (mem_scan_iff U _ filePath v _).1 hv
  rcases visit_usageType U _ filePath v n hn with h | h | h <;> rw [h] <;> decide

/-- C14: let a call of the unit have the bare identifier `x` among its
arguments, `x` not blank, not resolved to a package and satisfying the
inclusion rule, and let no other node of the unit involve the position of
`x` (positions identify identifiers).  Then `getUsages` returns exactly two
usages at that position: one "function argument" from the call and one
"direct" from the identifier itself, with the same `Name`, `DeclFile` and
`UsageFile`; and when the first is a violation, `checkFile` returns both. -/
theorem C14_argument_recorded_twice (U : Unicode) (w : World) (ord : MapOrder)
    (f2 : String) (found : Bool) (pkgs : List (String × Package)) (file2 : File)
    (pre mid post a1 a2 : List Node) (Fun : Node) (x : Ident)
    (hargs : 2 ≤ w.Args.length)
    (hdir : parser.ParseDir w (filepath.Dir f2) = (pkgs, none))
    (hf2 : w.ParseFile f2 = .ok file2)
    (hwalk : file2.walk =
      pre ++ Node.callExpr Fun (a1 ++ Node.ident x :: a2) :: (mid ++ Node.ident x :: post))
    (hrest : ∀ n ∈ pre ++ (mid ++ post), n.mentions x.Pos = false)
    (ha : ∀ e ∈ a1 ++ a2, e.isIdentAt x.Pos = false)
    (hblank : x.Name ≠ "_")
    (hobj : x.Obj ≠ some ObjKind.Pkg)
    (hincl : included U (getUsages.catalog ord pkgs) x = true) :
    ∃ usages, getUsages U w ord f2 = .ok usages ∧
      usages.filter (usageIsAt x.Pos) =
        [⟨x.Name, x.Pos, "function argument",
            declFileOf (getUsages.catalog ord pkgs) x.Name, f2⟩,
         ⟨x.Name, x.Pos, "direct", declFileOf (getUsages.catalog ord pkgs) x.Name, f2⟩] ∧
      (isViolation U w ⟨x.Name, x.Pos, "function argument",
          declFileOf (getUsages.catalog ord pkgs) x.Name, f2⟩ = true →
        ∃ vs found1, checkFile U w ord f2 found = .ok (vs, found1) ∧
          vs.filter (usageIsAt x.Pos) =
            [⟨x.Name, x.Pos, "function argument",
                declFileOf (getUsages.catalog ord pkgs) x.Name, f2⟩,
             ⟨x.Name, x.Pos, "direct", declFileOf (getUsages.catalog ord pkgs) x.Name, f2⟩]) := by
  have husages : getUsages U w ord f2 =
      .ok (getUsages.scan U (getUsages.catalog ord pkgs) f2 file2.walk) := by
    simp only [getUsages, hdir, hf2]
    rw [if_neg (by omega)]
  have hpre := scan_filter_none U (getUsages.catalog ord pkgs) f2 x.Pos pre
    (fun n hn => hrest n (List.mem_append.2 (Or.inl hn)))
  have hmid := scan_filter_none U (getUsages.catalog ord pkgs) f2 x.Pos mid
    (fun n hn => hrest n (List.mem_append.2 (Or.inr (List.mem_append.2 (Or.inl hn)))))
  have hpost := scan_filter_none U (getUsages.catalog ord pkgs) f2 x.Pos post
    (fun n hn => hrest n (List.mem_append.2 (Or.inr (List.mem_append.2 (Or.inr hn)))))
  have hat : (getUsages.scan U (getUsages.catalog ord pkgs) f2 file2.walk).filter
      (usageIsAt x.Pos) =
        [⟨x.Name, x.Pos, "function argument",
            declFileOf (getUsages.catalog ord pkgs) x.Name, f2⟩,
         ⟨x.Name, x.Pos, "direct", declFileOf (getUsages.catalog ord pkgs) x.Name, f2⟩] := by
    rw [hwalk, scan_append, getUsages.scan, scan_append, getUsages.scan]
    simp only [List.filter_append, hpre, hmid, hpost,
      visit_call_filter U _ f2 x Fun a1 a2 hblank hincl ha,
      visit_ident U _ f2 x hblank hobj hincl]
    simp [usageIsAt]
  refine ⟨_, husages, hat, fun hviol => ?_⟩
  refine ⟨_, _, checkFile_ok U w ord f2 found _ husages, ?_⟩
  rw [filter_isAt_violations, hat]
  have hviol2 : isViolation U w ⟨x.Name, x.Pos, "direct",
      declFileOf (getUsages.catalog ord pkgs) x.Name, f2⟩ = true := hviol
  simp [List.filter_cons, hviol, hviol2]

/-- C14 on Scenario A: the argument `a` of `log.Println(a)` in `pkg/f2.go` is
recorded twice at line 6, column 14, and both records are violations. -/
theorem C14_argument_recorded_twice_witness :
    ∃ usages,
      getUsages Unicode.ascii Sample.worldA MapOrder.stored "pkg/f2.go" = .ok usages ∧
      usages.filter (usageIsAt ⟨"pkg/f2.go", 0, 6, 14⟩) =
        [⟨"a", ⟨"pkg/f2.go", 0, 6, 14⟩, "function argument", "pkg/f1.go", "pkg/f2.go"⟩,
         ⟨"a", ⟨"pkg/f2.go", 0, 6, 14⟩, "direct", "pkg/f1.go", "pkg/f2.go"⟩] ∧
      (isViolation Unicode.ascii Sample.worldA
          ⟨"a", ⟨"pkg/f2.go", 0, 6, 14⟩, "function argument", "pkg/f1.go", "pkg/f2.go"⟩ = true →
        ∃ vs found1,
          checkFile Unicode.ascii Sample.worldA MapOrder.stored "pkg/f2.go" false =
            .ok (vs, found1) ∧
          vs.filter (usageIsAt ⟨"pkg/f2.go", 0, 6, 14⟩) =
            [⟨"a", ⟨"pkg/f2.go", 0, 6, 14⟩, "function argument", "pkg/f1.go", "pkg/f2.go"⟩,
             ⟨"a", ⟨"pkg/f2.go", 0, 6, 14⟩, "direct", "pkg/f1.go", "pkg/f2.go"⟩]) :=
  C14_argument_recorded_twice Unicode.ascii Sample.worldA MapOrder.stored "pkg/f2.go" false
    (parser.ParseDir Sample.worldA (filepath.Dir "pkg/f2.go")).1 (Sample.f2 "pkg/f2.go")
    ((Sample.f2 "pkg/f2.go").walk.take 10) (((Sample.f2 "pkg/f2.go").walk.drop 11).take 3)
    ((Sample.f2 "pkg/f2.go").walk.drop 15) [] []
    (.selectorExpr (.ident (Sample.id "pkg/f2.go" 6 2 "log" none))
      (Sample.id "pkg/f2.go" 6 6 "Println" none))
    (Sample.id "pkg/f2.go" 6 14 "a" none)
    (by decide) rfl rfl rfl (by decide) (by decide) (by decide) (by decide) rfl

/-- C15 (as stated, refuted): in the package of `pkg/d1.go`
(`var d = sampleStruct{} // fileprivate`) and `pkg/r.go` (`d.Print()`), the
receiver `d` of the selector expression is no argument of a call, and
`getUsages` returns two usages at its position, "method receiver" and
"direct"; `checkFile` returns both as violations. -/
theorem C15_counterexample :
    getUsages Unicode.ascii Sample.worldR MapOrder.stored "pkg/r.go" =
      .ok [⟨"p", ⟨"pkg/r.go", 0, 1, 9⟩, "direct", "", "pkg/r.go"⟩,
           ⟨"d", ⟨"pkg/r.go", 0, 4, 2⟩, "method receiver", "pkg/d1.go", "pkg/r.go"⟩,
           ⟨"d", ⟨"pkg/r.go", 0, 4, 2⟩, "direct", "pkg/d1.go", "pkg/r.go"⟩] ∧
    checkFile Unicode.ascii Sample.worldR MapOrder.stored "pkg/r.go" false =
      .ok ([⟨"d", ⟨"pkg/r.go", 0, 4, 2⟩, "method receiver", "pkg/d1.go", "pkg/r.go"⟩,
            ⟨"d", ⟨"pkg/r.go", 0, 4, 2⟩, "direct", "pkg/d1.go", "pkg/r.go"⟩], true) :=
  ⟨rfl, rfl⟩

/-- C15 (amended): in a unit that `getUsages` analyses, (1) an identifier that
is the receiver `X` of a selector expression `X.Sel`, not blank, not resolved
to a package and satisfying the inclusion rule, yields two usages at its
position, the first with `UsageType` "method receiver" from the selector
expression and one more from the identifier itself, with the same `Name`,
`DeclFile` and `UsageFile`; (2) an identifier that is neither an argument of
a call nor the receiver of a selector expression yields at most one usage.
No other node of the unit is taken to involve the position of the
identifier. -/
theorem C15_receiver_recorded_twice (U : Unicode) (w : World) (ord : MapOrder)
    (f2 : String) (pkgs : List (String × Package)) (file2 : File)
    (hargs : 2 ≤ w.Args.length)
    (hdir : parser.ParseDir w (filepath.Dir f2) = (pkgs, none))
    (hf2 : w.ParseFile f2 = .ok file2) :
    ∃ usages, getUsages U w ord f2 = .ok usages ∧
      (∀ (pre post : List Node) (x Sel : Ident),
        file2.walk = pre ++ Node.selectorExpr (Node.ident x) Sel :: Node.ident x :: post →
        (∀ n ∈ pre ++ post, n.mentions x.Pos = false) →
        x.Name ≠ "_" → x.Obj ≠ some ObjKind.Pkg →
        included U (getUsages.catalog ord pkgs) x = true →
          ∃ ty, usages.filter (usageIsAt x.Pos) =
            [⟨x.Name, x.Pos, "method receiver",
                declFileOf (getUsages.catalog ord pkgs) x.Name, f2⟩,
             ⟨x.Name, x.Pos, ty, declFileOf (getUsages.catalog ord pkgs) x.Name, f2⟩]) ∧
      (∀ (pre post : List Node) (x : Ident),
        file2.walk = pre ++ Node.ident x :: post →
        (∀ n ∈ pre ++ post, n.mentions x.Pos = false) →
          (usages.filter (usageIsAt x.Pos)).length ≤ 1) := by
  have husages : getUsages U w ord f2 =
      .ok (getUsages.scan U (getUsages.catalog ord pkgs) f2 file2.walk) := by
    simp only [getUsages, hdir, hf2]
    rw [if_neg (by omega)]
  refine ⟨_, husages, ?_, ?_⟩
  · intro pre post x Sel hwalk hrest hblank hobj hincl
    have hpre := scan_filter_none U (getUsages.catalog ord pkgs) f2 x.Pos pre
      (fun n hn => hrest n (List.mem_append.2 (Or.inl hn)))
    have hpost := scan_filter_none U (getUsages.catalog ord pkgs) f2 x.Pos post
      (fun n hn => hrest n (List.mem_append.2 (Or.inr hn)))
    refine ⟨"direct", ?_⟩
    rw [hwalk, scan_append, getUsages.scan, getUsages.scan]
    simp only [List.filter_append, hpre, hpost,
      visit_receiver U _ f2 x Sel hblank hincl, visit_ident U _ f2 x hblank hobj hincl]
    simp [usageIsAt]
  · intro pre post x hwalk hrest
    have hpre := scan_filter_none U (getUsages.catalog ord pkgs) f2 x.Pos pre
      (fun n hn => hrest n (List.mem_append.2 (Or.inl hn)))
    have hpost := scan_filter_none U (getUsages.catalog ord pkgs) f2 x.Pos post
      (fun n hn => hrest n (List.mem_append.2 (Or.inr hn)))
    rw [hwalk, scan_append, getUsages.scan]
    simp only [List.filter_append, hpre, hpost, List.nil_append, List.append_nil]
    exact Nat.le_trans (List.length_filter_le _ _) (visit_ident_length U _ f2 x)

/-- C15 (amended) on the package of `pkg/d1.go` and `pkg/r.go`: the receiver
`d` at line 4, column 2 is recorded twice; the package name `p` at line 1,
column 9 is recorded at most once. -/
theorem C15_receiver_recorded_twice_witness :
    ∃ usages, getUsages Unicode.ascii Sample.worldR MapOrder.stored "pkg/r.go" = .ok usages ∧
      (∃ ty, usages.filter (usageIsAt ⟨"pkg/r.go", 0, 4, 2⟩) =
        [⟨"d", ⟨"pkg/r.go", 0, 4, 2⟩, "method receiver", "pkg/d1.go", "pkg/r.go"⟩,
         ⟨"d", ⟨"pkg/r.go", 0, 4, 2⟩, ty, "pkg/d1.go", "pkg/r.go"⟩]) ∧
      (usages.filter (usageIsAt ⟨"pkg/r.go", 0, 1, 9⟩)).length ≤ 1 :=
  (C15_receiver_recorded_twice Unicode.ascii Sample.worldR MapOrder.stored "pkg/r.go"
    (parser.ParseDir Sample.worldR (filepath.Dir "pkg/r.go")).1 (Sample.recvUse "pkg/r.go")
    (by decide) rfl rfl).imp (fun _ h =>
      ⟨h.1,
       h.2.1 ((Sample.recvUse "pkg/r.go").walk.take 8) ((Sample.recvUse "pkg/r.go").walk.drop 10)
        (Sample.id "pkg/r.go" 4 2 "d" none) (Sample.id "pkg/r.go" 4 4 "Print" none)
        rfl (by decide) (by decide) (by decide) rfl,
       h.2.2 [] ((Sample.recvUse "pkg/r.go").walk.drop 1) (Sample.id "pkg/r.go" 1 9 "p" none)
        rfl (by decide)⟩)

/-- C16 (as stated, refuted): in the package of the single unit `pkg/u.go`
(`log.Println(_tmp)`), the name `_tmp` is in neither map of the catalog and
its first rune `_` is no lower-case letter, and `getUsages` records two
usages of `_tmp`. -/
theorem C16_counterexample :
    (getUsages.catalog MapOrder.stored (parser.ParseDir Sample.worldU "pkg").1).pkgVars "_tmp" =
      none ∧
    (getUsages.catalog MapOrder.stored (parser.ParseDir Sample.worldU "pkg").1).localVars "_tmp" =
      none ∧
    "_tmp".data.head? = some '_' ∧ asciiIsLower '_' = false ∧
    getUsages Unicode.ascii Sample.worldU MapOrder.stored "pkg/u.go" =
      .ok [⟨"p", ⟨"pkg/u.go", 0, 1, 9⟩, "direct", "", "pkg/u.go"⟩,
           ⟨"_tmp", ⟨"pkg/u.go", 0, 6, 14⟩, "function argument", "", "pkg/u.go"⟩,
           ⟨"log", ⟨"pkg/u.go", 0, 6, 2⟩, "method receiver", "", "pkg/u.go"⟩,
           ⟨"log", ⟨"pkg/u.go", 0, 6, 2⟩, "direct", "", "pkg/u.go"⟩,
           ⟨"_tmp", ⟨"pkg/u.go", 0, 6, 14⟩, "direct", "", "pkg/u.go"⟩] :=
  ⟨rfl, rfl, rfl, rfl, rfl⟩

/-- C16 (amended): the usages `getUsages` returns are exactly those the
inclusion rule admits.  (1) Every usage is recorded for an identifier of the
analysed unit (a visited identifier, an argument of a call, or the receiver
of a selector expression) with the name and position of the usage, not
blank, whose name is in the package-scoped map, or in the local-names map,
or which has no object (`Obj == nil`) and a name that is not exported, that
is, whose first rune is not an upper-case letter.  (2) Hence a name in
neither map whose first rune is an upper-case letter is never recorded.
(3) Conversely every such identifier of the unit that is not blank, is not a
visited identifier resolved to a package, and satisfies that rule has a
usage with its name and position.  (4) In particular an identifier without
object whose name starts with an underscore, other than the blank
identifier, is recorded. -/
theorem C16_inclusion_rule (U : Unicode) (w : World) (ord : MapOrder) (filePath : String)
    (usages : List variableUsage) (h : getUsages U w ord filePath = .ok usages) :
    ∃ file, w.ParseFile filePath = .ok file ∧
      (∀ v ∈ usages, ∃ n ∈ file.walk, ∃ x ∈ n.idents,
        x.Name = v.Name ∧ x.Pos = v.Position ∧ x.Name ≠ "_" ∧
        ((getUsages.catalog ord (parser.ParseDir w (filepath.Dir filePath)).1).pkgVars
            x.Name ≠ none ∨
          (getUsages.catalog ord (parser.ParseDir w (filepath.Dir filePath)).1).localVars
            x.Name ≠ none ∨
          (ast.IsExported U x.Name = false ∧ x.Obj = none))) ∧
      (∀ name,
        (getUsages.catalog ord (parser.ParseDir w (filepath.Dir filePath)).1).pkgVars name =
          none →
        (getUsages.catalog ord (parser.ParseDir w (filepath.Dir filePath)).1).localVars name =
          none →
        ast.IsExported U name = true → ∀ v ∈ usages, v.Name ≠ name) ∧
      (∀ n ∈ file.walk, ∀ x ∈ n.idents, x.Name ≠ "_" →
        (n = Node.ident x → x.Obj ≠ some ObjKind.Pkg) →
        ((getUsages.catalog ord (parser.ParseDir w (filepath.Dir filePath)).1).pkgVars
            x.Name ≠ none ∨
          (getUsages.catalog ord (parser.ParseDir w (filepath.Dir filePath)).1).localVars
            x.Name ≠ none ∨
          (ast.IsExported U x.Name = false ∧ x.Obj = none)) →
        ∃ v ∈ usages, v.Name = x.Name ∧ v.Position = x.Pos ∧ v.UsageFile = filePath) ∧
      (∀ n ∈ file.walk, ∀ x ∈ n.idents, x.Name ≠ "_" → x.Obj = none →
        x.Name.data.head? = some '_' →
        ∃ v ∈ usages, v.Name = x.Name ∧ v.Position = x.Pos ∧ v.UsageFile = filePath) := by
  obtain ⟨-, -, file, hfile, rfl⟩ := getUsages_ok_eq U w ord filePath usages h
  have key : ∀ v ∈ getUsages.scan U
      (getUsages.catalog ord (parser.ParseDir w (filepath.Dir filePath)).1) filePath file.walk,
      ∃ n ∈ file.walk, ∃ x ∈ n.idents,
        x.Name = v.Name ∧ x.Pos = v.Position ∧ x.Name ≠ "_" ∧
        ((getUsages.catalog ord (parser.ParseDir w (filepath.Dir filePath)).1).pkgVars
            x.Name ≠ none ∨
          (getUsages.catalog ord (parser.ParseDir w (filepath.Dir filePath)).1).localVars
            x.Name ≠ none ∨
          (ast.IsExported U x.Name = false ∧ x.Obj = none)) := by
    intro v hv
    obtain ⟨n, hn, hvn⟩ := (mem_scan_iff U _ filePath v _).1 hv
    obtain ⟨x, hx, h1, h2, h3, h4⟩ := visit_included U _ filePath v n hvn
    refine ⟨n, hn, x, hx, h1, h2, h3, ?_⟩
    simp only [included, Bool.or_eq_true, Bool.and_eq_true, Bool.not_eq_true',
      Option.isSome_iff_ne_none, Option.isNone_iff_eq_none] at h4
    rcases h4 with (h4 | h4) | h4
    · exact Or.inl h4
    · exact Or.inr (Or.inl h4)
    · exact Or.inr (Or.inr h4)
  have conv : ∀ n ∈ file.walk, ∀ x ∈ n.idents, x.Name ≠ "_" →
      (n = Node.ident x → x.Obj ≠ some ObjKind.Pkg) →
      ((getUsages.catalog ord (parser.ParseDir w (filepath.Dir filePath)).1).pkgVars
          x.Name ≠ none ∨
        (getUsages.catalog ord (parser.ParseDir w (filepath.Dir filePath)).1).localVars
          x.Name ≠ none ∨
        (ast.IsExported U x.Name = false ∧ x.Obj = none)) →
      ∃ v ∈ getUsages.scan U
          (getUsages.catalog ord (parser.ParseDir w (filepath.Dir filePath)).1) filePath
          file.walk,
        v.Name = x.Name ∧ v.Position = x.Pos ∧ v.UsageFile = filePath := by
    intro n hn x hx hblank hobj hrule
    have hincl : included U
        (getUsages.catalog ord (parser.ParseDir w (filepath.Dir filePath)).1) x = true := by
      simp only [included, Bool.or_eq_true, Bool.and_eq_true, Bool.not_eq_true',
        Option.isSome_iff_ne_none, Option.isNone_iff_eq_none]
      rcases hrule with h4 | h4 | h4
      · exact Or.inl (Or.inl h4)
      · exact Or.inl (Or.inr h4)
      · exact Or.inr h4
    obtain ⟨v, hv, h1, h2, -, h4⟩ := visit_complete U _ filePath n x hx hblank hobj hincl
    exact ⟨v, (mem_scan_iff U _ filePath v _).2 ⟨n, hn, hv⟩, h1, h2, h4⟩
  refine ⟨file, hfile, key, fun name hp hl hexp v hv hname => ?_, conv,
    fun n hn x hx hblank hobj hhead => ?_⟩
  · obtain ⟨n, -, x, -, h1, -, -, h4⟩ := key v hv
    rw [h1, hname] at h4
    rcases h4 with h4 | h4 | h4
    · exact h4 hp
    · exact h4 hl
    · rw [hexp] at h4
      cases h4.1
  · exact conv n hn x hx hblank (fun _ => by rw [hobj]; exact Option.noConfusion)
      (Or.inr (Or.inr ⟨IsExported_underscore U x.Name hhead, hobj⟩))

/-- C16 (amended) on `pkg/u.go`: `getUsages` returns five usages there; the
exported name `Println`, in neither map, is not among their names, and the
unresolved argument `_tmp` of the call has a usage at its position. -/
theorem C16_inclusion_rule_witness :
    ∃ usages, getUsages Unicode.ascii Sample.worldU MapOrder.stored "pkg/u.go" = .ok usages ∧
      usages.length = 5 ∧
      ast.IsExported Unicode.ascii "Println" = true ∧
      (∀ v ∈ usages, v.Name ≠ "Println") ∧
      ∃ v ∈ usages, v.Name = "_tmp" ∧ v.Position = ⟨"pkg/u.go", 0, 6, 14⟩ ∧
        v.UsageFile = "pkg/u.go" :=
  ⟨_, rfl, rfl, rfl,
    (C16_inclusion_rule Unicode.ascii Sample.worldU MapOrder.stored "pkg/u.go" _ rfl).elim
      (fun _ h => h.2.2.1 "Println" rfl rfl rfl),
    (C16_inclusion_rule Unicode.ascii Sample.worldU MapOrder.stored "pkg/u.go" _ rfl).elim
      (fun file h => by
        have hfile : file = Sample.underscore "pkg/u.go" :=
          (Except.ok.inj (h.1.symm.trans rfl))
        subst hfile
        exact h.2.2.2.2
          (.callExpr
            (.selectorExpr (.ident (Sample.id "pkg/u.go" 6 2 "log" none))
              (Sample.id "pkg/u.go" 6 6 "Println" none))
            [.ident (Sample.id "pkg/u.go" 6 14 "_tmp" none)])
          (by simp [Sample.underscore, Sample.funcDecl, Sample.logCall, File.walk, walkList,
            Node.walk])
          (Sample.id "pkg/u.go" 6 14 "_tmp" none) (List.mem_cons_self _ _) (by decide) rfl rfl)⟩

/-- C17 (as stated, refuted): there is no catalog, unit and name `x` for which
adding `x` to the local-names map removes a violation from those found among
the scanned usages.  On Scenario A, adding the unit `pkg/l.go` with the local
assignment `a := 1` puts `a` in the local-names map and `checkFile` on
`pkg/f2.go` returns the same two violations of `a` as without it. -/
theorem C17_counterexample :
    (¬ ∃ (U : Unicode) (w : World) (c : Catalog) (filePath : String) (nodes : List Node)
        (x : String) (v : variableUsage),
      v ∈ (getUsages.scan U c filePath nodes).filter (isViolation U w) ∧
      v ∉ (getUsages.scan U ⟨c.pkgVars, GoMap.set c.localVars x true⟩ filePath nodes).filter
        (isViolation U w)) ∧
    (getUsages.catalog MapOrder.stored (parser.ParseDir Sample.worldA "pkg").1).localVars "a" =
      none ∧
    (getUsages.catalog MapOrder.stored (parser.ParseDir Sample.worldL "pkg").1).localVars "a" =
      some true ∧
    checkFile Unicode.ascii Sample.worldA MapOrder.stored "pkg/f2.go" false =
      .ok ([⟨"a", ⟨"pkg/f2.go", 0, 6, 14⟩, "function argument", "pkg/f1.go", "pkg/f2.go"⟩,
            ⟨"a", ⟨"pkg/f2.go", 0, 6, 14⟩, "direct", "pkg/f1.go", "pkg/f2.go"⟩], true) ∧
    checkFile Unicode.ascii Sample.worldL MapOrder.stored "pkg/f2.go" false =
      .ok ([⟨"a", ⟨"pkg/f2.go", 0, 6, 14⟩, "function argument", "pkg/f1.go", "pkg/f2.go"⟩,
            ⟨"a", ⟨"pkg/f2.go", 0, 6, 14⟩, "direct", "pkg/f1.go", "pkg/f2.go"⟩], true) := by
  refine ⟨?_, rfl, rfl, rfl, rfl⟩
  rintro ⟨U, w, c, filePath, nodes, x, v, hv, hnv⟩
  rw [scan_violations_congr U w ⟨c.pkgVars, GoMap.set c.localVars x true⟩ c filePath rfl] at hnv
  exact hnv hv

/-- C17 (amended): the local-names map never changes the violations.  The
violations found among the usages scanned with a name `x` added to the
local-names map are exactly those found without it (a usage keeps the
`DeclFile` the package-scoped map gives it, and a usage admitted only by the
local-names map has an empty `DeclFile`); and `checkFile` returns the
violations found among the usages scanned with the catalog of step 1. -/
theorem C17_local_names_do_not_change_violations (U : Unicode) (w : World) :
    (∀ (c : Catalog) (filePath : String) (nodes : List Node) (x : String),
      (getUsages.scan U ⟨c.pkgVars, GoMap.set c.localVars x true⟩ filePath nodes).filter
          (isViolation U w) =
        (getUsages.scan U c filePath nodes).filter (isViolation U w)) ∧
    (∀ (ord : MapOrder) (filePath : String) (found : Bool) (usages : List variableUsage),
      getUsages U w ord filePath = .ok usages →
        ∃ file found1, w.ParseFile filePath = .ok file ∧
          checkFile U w ord filePath found =
            .ok ((getUsages.scan U
              (getUsages.catalog ord (parser.ParseDir w (filepath.Dir filePath)).1) filePath
              file.walk).filter (isViolation U w), found1)) := by
  refine ⟨fun c filePath nodes x => scan_violations_congr U w
      ⟨c.pkgVars, GoMap.set c.localVars x true⟩ c filePath rfl nodes,
    fun ord filePath found usages h => ?_⟩
  obtain ⟨-, -, file, hfile, husages⟩ := getUsages_ok_eq U w ord filePath usages h
  exact ⟨file, _, hfile, husages ▸ checkFile_ok U w ord filePath found usages h⟩

/-- C17 (amended) on Scenario A: with `a` added to the local-names map, the
scan of `pkg/f2.go` yields the same two violations of `a` that `checkFile`
returns. -/
theorem C17_local_names_do_not_change_violations_witness :
    (getUsages.scan Unicode.ascii
      ⟨(getUsages.catalog MapOrder.stored (parser.ParseDir Sample.worldA "pkg").1).pkgVars,
       GoMap.set
        (getUsages.catalog MapOrder.stored (parser.ParseDir Sample.worldA "pkg").1).localVars
        "a" true⟩
      "pkg/f2.go" (Sample.f2 "pkg/f2.go").walk).filter (isViolation Unicode.ascii Sample.worldA) =
      [⟨"a", ⟨"pkg/f2.go", 0, 6, 14⟩, "function argument", "pkg/f1.go", "pkg/f2.go"⟩,
       ⟨"a", ⟨"pkg/f2.go", 0, 6, 14⟩, "direct", "pkg/f1.go", "pkg/f2.go"⟩] ∧
    ∃ file found1, Sample.worldA.ParseFile "pkg/f2.go" = .ok file ∧
      checkFile Unicode.ascii Sample.worldA MapOrder.stored "pkg/f2.go" false =
        .ok ((getUsages.scan Unicode.ascii
          (getUsages.catalog MapOrder.stored
            (parser.ParseDir Sample.worldA (filepath.Dir "pkg/f2.go")).1) "pkg/f2.go"
          file.walk).filter (isViolation Unicode.ascii Sample.worldA), found1) :=
  ⟨((C17_local_names_do_not_change_violations Unicode.ascii Sample.worldA).1 _ "pkg/f2.go"
      (Sample.f2 "pkg/f2.go").walk "a").trans rfl,
   (C17_local_names_do_not_change_violations Unicode.ascii Sample.worldA).2 MapOrder.stored
      "pkg/f2.go" false _ rfl⟩

/-- C18 (as stated, refuted): in the package of `pkg/f1.go`
(`var a = "x" // fileprivate`) and `pkg/s.go` (`log.Println(s.a)`), where `a`
occurs in `pkg/s.go` only as the selected name of `s.a`, `checkFile` on
`pkg/s.go` reports a violation for that occurrence of `a`. -/
theorem C18_counterexample :
    checkFile Unicode.ascii Sample.worldS MapOrder.stored "pkg/s.go" false =
      .ok ([⟨"a", ⟨"pkg/s.go", 0, 6, 16⟩, "direct", "pkg/f1.go", "pkg/s.go"⟩], true) :=
  rfl

/-- C18 (amended): a selected field or method name is scanned like any other
identifier.  Let `f1` be a unit of the package directory of `f2`, distinct
from `f2`, whose top-level `var` declaration binds `a` (not the blank
identifier) under a marker comment, no other unit of the directory binding
`a` in a `var` declaration.  For every selector expression of `f2` whose
selected name is `a` (not resolved to a package), `checkFile(f2)` reports a
violation at the position of that name, with `UsageType` "direct" and
`DeclFile` `f1`. -/
theorem C18_selected_name_reported (U : Unicode) (w : World) (ord : MapOrder)
    (f1 f2 a : String) (file1 file2 : File) (found : Bool) (pkgs : List (String × Package))
    (Doc : Option CommentGroup) (Specs : List ValueSpec) (spec : ValueSpec)
    (X : Node) (Sel : Ident)
    (hargs : 2 ≤ w.Args.length)
    (hdir : parser.ParseDir w (filepath.Dir f2) = (pkgs, none))
    (hf1 : (f1, file1) ∈ allFiles pkgs)
    (hdecl : Node.genDecl Doc .VAR Specs ∈ file1.Decls)
    (hspec : spec ∈ Specs)
    (hname : ∃ name ∈ spec.Names, name.Name = a)
    (hmark : hasFilePrivateComment U Doc = true ∨ hasFilePrivateComment U spec.Doc = true ∨
      hasFilePrivateComment U spec.Comment = true)
    (hblank : a ≠ "_")
    (hother : ∀ p ∈ allFiles pkgs, p.2.declares a = true → p.1 = f1)
    (hne : f1 ≠ f2)
    (hf2 : w.ParseFile f2 = .ok file2)
    (hsel : Node.selectorExpr X Sel ∈ file2.walk)
    (hx : Sel.Name = a)
    (hobj : Sel.Obj ≠ some ObjKind.Pkg) :
    ∃ vs found1, checkFile U w ord f2 found = .ok (vs, found1) ∧
      (⟨a, Sel.Pos, "direct", f1, f2⟩ : variableUsage) ∈ vs := by
  obtain ⟨hpk, hviol⟩ := annotated_unit_violation U w ord f1 f2 a file1 pkgs Doc Specs spec
    hdir hf1 hdecl hspec hname hmark hblank hother hne
  have husages : getUsages U w ord f2 =
      .ok (getUsages.scan U (getUsages.catalog ord pkgs) f2 file2.walk) := by
    simp only [getUsages, hdir, hf2]
    rw [if_neg (by omega)]
  have hmem : Node.ident Sel ∈ file2.walk :=
    File_walk_closed file2 _ _ hsel (by simp [Node.walk])
  have hvis : (⟨a, Sel.Pos, "direct", f1, f2⟩ : variableUsage) ∈
      getUsages.visit U (getUsages.catalog ord pkgs) f2 (.ident Sel) := by
    subst hx
    simp [getUsages.visit, hblank, hobj, hpk, getUsages.usageType]
  exact ⟨_, _, checkFile_ok U w ord f2 found _ husages,
    List.mem_filter.2 ⟨scan_mem U _ f2 _ _ hvis _ hmem, hviol _ _⟩⟩

/-- C18 (amended) on the package of `pkg/f1.go` and `pkg/s.go`. -/
theorem C18_selected_name_reported_witness :
    ∃ vs found1,
      checkFile Unicode.ascii Sample.worldS MapOrder.reversed "pkg/s.go" false =
        .ok (vs, found1) ∧
      (⟨"a", ⟨"pkg/s.go", 0, 6, 16⟩, "direct", "pkg/f1.go", "pkg/s.go"⟩ : variableUsage) ∈ vs :=
  C18_selected_name_reported Unicode.ascii Sample.worldS MapOrder.reversed
    "pkg/f1.go" "pkg/s.go" "a" (Sample.f1 "pkg/f1.go") (Sample.fieldUse "pkg/s.go") false
    [("p", ⟨"p", [("pkg/f1.go", Sample.f1 "pkg/f1.go"),
      ("pkg/s.go", Sample.fieldUse "pkg/s.go")]⟩)]
    none [.mk none [Sample.id "pkg/f1.go" 3 5 "a" (some .Var)] none [.other []] Sample.marker]
    (.mk none [Sample.id "pkg/f1.go" 3 5 "a" (some .Var)] none [.other []] Sample.marker)
    (.ident (Sample.id "pkg/s.go" 6 14 "s" none)) (Sample.id "pkg/s.go" 6 16 "a" none)
    (by decide) rfl (List.mem_cons_self _ _) (List.mem_cons_self _ _) (List.mem_cons_self _ _)
    ⟨_, List.mem_cons_self _ _, rfl⟩ (Or.inr (Or.inr rfl)) (by decide)
    (by
      intro p hp hd
      simp only [allFiles, List.append_nil, List.mem_cons, List.mem_singleton,
        List.not_mem_nil, or_false] at hp
      rcases hp with rfl | rfl
      · rfl
      · exact absurd hd (Bool.eq_false_iff.1 rfl))
    (by decide) rfl
    (by simp [Sample.fieldUse, Sample.funcDecl, Sample.logCall, File.walk, walkList, Node.walk])
    rfl (by decide)

/-! ## Claims about failures -/

/-- C19 (as stated, refuted): in the directory `pkg` the entry `bad.go` does
not parse.  `checkFile` on `pkg/bad.go`, and also on `pkg/f2.go`, which
parses, ends the process with status 1; the loop of `main` over `pkg/bad.go`
then `pkg/f2.go` ends with status 1 without a result for `pkg/f2.go`.  In
Scenario A, where `pkg/f2.go` alone is analysed successfully, a first unit
`pkg/nope.go` that cannot be parsed ends the loop the same way. -/
theorem C19_counterexample :
    Sample.worldBad.ParseFile "pkg/bad.go" = .error "pkg/bad.go:1:1: expected 'package'" ∧
    Sample.worldBad.ParseFile "pkg/f2.go" = .ok (Sample.f2 "pkg/f2.go") ∧
    checkFile Unicode.ascii Sample.worldBad MapOrder.stored "pkg/bad.go" false = .error 1 ∧
    checkFile Unicode.ascii Sample.worldBad MapOrder.stored "pkg/f2.go" false = .error 1 ∧
    main.loop Unicode.ascii Sample.worldBad
      [(MapOrder.stored, "pkg/bad.go"), (MapOrder.stored, "pkg/f2.go")] false = .error 1 ∧
    (∃ vs, main.loop Unicode.ascii Sample.worldA [(MapOrder.stored, "pkg/f2.go")] false =
      .ok ([vs], true)) ∧
    main.loop Unicode.ascii Sample.worldA
      [(MapOrder.stored, "pkg/nope.go"), (MapOrder.stored, "pkg/f2.go")] false = .error 1 :=
  ⟨rfl, rfl, rfl, rfl, rfl, ⟨_, rfl⟩, rfl⟩

/-- C19 (amended): a parse failure of the unit under analysis, or of a `.go`
file of its package directory, or a failure to read that directory, is fatal
to the whole run: `checkFile` does not return to its caller but ends the
process with status 1 (`log.Fatal`), and the loop of `main` over any sequence
of units holding that unit ends with status 1, whatever units follow it. -/
theorem C19_parse_failure_ends_the_run (U : Unicode) (w : World) (ord : MapOrder)
    (filePath : String)
    (h : (parser.ParseDir w (filepath.Dir filePath)).2 ≠ none ∨
      ∃ err, w.ParseFile filePath = .error err) :
    getUsages U w ord filePath = .error 1 ∧
    (∀ found, checkFile U w ord filePath found = .error 1) ∧
    ∀ before rest found,
      main.loop U w (before ++ (ord, filePath) :: rest) found = .error 1 := by
  have hg := getUsages_fatal U w ord filePath h
  have hc : ∀ found, checkFile U w ord filePath found = .error 1 := by
    intro found
    simp only [checkFile, hg]
  exact ⟨hg, hc, fun before rest found => main_loop_fatal U w ord filePath hc rest before found⟩

/-- C19 (amended) on the directory with `bad.go`: the analysis of `pkg/f1.go`
and `pkg/f2.go` ends the run although both units parse. -/
theorem C19_parse_failure_ends_the_run_witness :
    (parser.ParseDir Sample.worldBad (filepath.Dir "pkg/f2.go")).2 =
      some "pkg/bad.go:1:1: expected 'package'" ∧
    main.loop Unicode.ascii Sample.worldBad
      ([(MapOrder.stored, "pkg/f1.go")] ++ (MapOrder.stored, "pkg/f2.go") :: []) false =
      .error 1 :=
  ⟨rfl, (C19_parse_failure_ends_the_run Unicode.ascii Sample.worldBad MapOrder.stored
    "pkg/f2.go" (Or.inl (by
      have hp : (parser.ParseDir Sample.worldBad (filepath.Dir "pkg/f2.go")).2 =
          some "pkg/bad.go:1:1: expected 'package'" := rfl
      rw [hp]
      exact Option.some_ne_none _))).2.2 [(MapOrder.stored, "pkg/f1.go")] [] false⟩

end FilePrivate
